import Mathlib

/-!
# mytar: a shallow embedding of the USTAR archiver and its verified properties

Bytes are `Fin 256`. A header record, a path, a file's content and an archive are
lists of bytes. Library calls are modelled by what they do to those lists:
`memcpy`/`memset` splice bytes into a region, `sprintf` with `%0Wo`/`%0Wlo` yields
zero-padded octal digits and a terminating NUL, `strtol` (base 8) scans a C string.
Functions that can end the process with `exit(EXIT_FAILURE)`, or whose behaviour
is undefined in C on some input, return `Option`, with `none` for those cases.
-/

namespace Mytar

/-! ## Bytes, memory regions and C library calls -/

/-- An `unsigned char`. -/
abbrev Byte := Fin 256

/-- Field offsets of the packed `TarHeader` struct (header.h). -/
abbrev OFF_NAME : Nat := 0
abbrev OFF_MODE : Nat := 100
abbrev OFF_UID : Nat := 108
abbrev OFF_GID : Nat := 116
abbrev OFF_SIZE : Nat := 124
abbrev OFF_MTIME : Nat := 136
abbrev OFF_CHKSUM : Nat := 148
abbrev OFF_TYPEFLAG : Nat := 156
abbrev OFF_LINKNAME : Nat := 157
abbrev OFF_MAGIC : Nat := 257
abbrev OFF_VERSION : Nat := 263
abbrev OFF_UNAME : Nat := 265
abbrev OFF_GNAME : Nat := 297
abbrev OFF_DEVMAJOR : Nat := 329
abbrev OFF_DEVMINOR : Nat := 337
abbrev OFF_PREFIX : Nat := 345
abbrev OFF_UNUSED : Nat := 500

/-- The value of `sizeof(TarHeader)`. -/
abbrev HEADER_SIZE : Nat := 512

/-- The macro `USTAR_BLOCK` (writer.h). -/
abbrev USTAR_BLOCK : Nat := 512

/-- The macro `NUM_HUNKS` (writer.h). -/
abbrev NUM_HUNKS : Nat := 8

/-- The call `memcpy(mem + off, src, |src|)`: the bytes of `src` replace those of `mem`
from offset `off` on. A copy that runs past the end of `mem` makes the list longer:
the extra elements are the bytes written outside the object. -/
def memcpy (mem : List Byte) (off : Nat) (src : List Byte) : List Byte :=
  mem.take off ++ src ++ mem.drop (off + src.length)

/-- The call `memset(mem + off, c, n)`. -/
def memset (mem : List Byte) (off : Nat) (c : Byte) (n : Nat) : List Byte :=
  memcpy mem off (List.replicate n c)

/-- The C string that starts at the head of `mem`: the bytes before the first NUL. -/
def cstr (mem : List Byte) : List Byte :=
  mem.takeWhile (fun c => c != 0)

/-- The ASCII digit of `d % 8`. -/
def octal_char (d : Nat) : Byte :=
  ⟨48 + d % 8, by omega⟩

/-- The `w` low octal digits of `v`, most significant first. -/
def octal_fixed : Nat → Nat → List Byte
  | 0, _ => []
  | w + 1, v => octal_fixed w (v / 8) ++ [octal_char v]

/-- Number of octal digits `printf` needs for `v` (at least one); the fuel of 22
covers every `unsigned long`. -/
def octal_len_aux : Nat → Nat → Nat
  | 0, _ => 0
  | f + 1, v => if v < 8 then 1 else 1 + octal_len_aux f (v / 8)

def octal_len (v : Nat) : Nat :=
  octal_len_aux 22 v

/-- What `sprintf(dst, "%0Wo", v)` (or `%0Wlo`) stores: the octal digits of `v`,
zero-padded on the left to at least `w` digits, then a NUL. -/
def sprintf_octal (w : Nat) (v : Nat) : List Byte :=
  octal_fixed (max w (octal_len v)) v ++ [0]

/-- The function `isspace` in the C locale. -/
def isspace (c : Byte) : Bool :=
  c.val == 32 || (9 ≤ c.val && c.val ≤ 13)

def is_octal_digit (c : Byte) : Bool :=
  48 ≤ c.val && c.val ≤ 55

/-- The digit loop of `strtol` in base 8: stops at the first byte that is not an
octal digit (the end of the list stands for the terminating NUL). -/
def strtol_digits : List Byte → Nat → Nat
  | [], acc => acc
  | c :: cs, acc =>
    if is_octal_digit c then strtol_digits cs (acc * 8 + (c.val - 48)) else acc

def LONG_MAX : Int := 2 ^ 63 - 1

def LONG_MIN : Int := -(2 ^ 63)

/-- The call `strtol(s, _, OCTAL_SIZE)` on the C string at the head of `s`: leading
white space is skipped, one sign is accepted, octal digits are accumulated, and a
value outside `long` is clamped. Without digits the result is 0. -/
def strtol (s : List Byte) : Int :=
  match s.dropWhile isspace with
  | [] => 0
  | c :: cs =>
    if c.val = 45 then max (-(strtol_digits cs 0 : Int)) LONG_MIN
    else if c.val = 43 then min (strtol_digits cs 0 : Int) LONG_MAX
    else min (strtol_digits (c :: cs) 0 : Int) LONG_MAX

/-- True when `strtol` converts nothing and leaves `endptr` at the start of `s`. -/
def strtol_no_digits (s : List Byte) : Bool :=
  match s.dropWhile isspace with
  | [] => true
  | c :: cs =>
    if c.val = 45 ∨ c.val = 43 then
      match cs with
      | [] => true
      | d :: _ => !is_octal_digit d
    else !is_octal_digit c

/-! ## header.c and the checksum of reader.c -/

/-- The function `init_header`: a record of 512 zero bytes. -/
def init_header : List Byte :=
  List.replicate HEADER_SIZE 0

/-- The loop `for (i = 0; i < sizeof(TarHeader); i++) sum += header_loc[i]`. -/
def byte_sum (header : List Byte) : Nat :=
  ((header.take HEADER_SIZE).map Fin.val).sum

/-- The function `populate_chksum` (header.c): blank the chksum field, sum the
record, print the sum with `%07o` into the chksum field. -/
def populate_chksum (header : List Byte) : List Byte :=
  let blanked := memset header OFF_CHKSUM 32 8
  let sum := byte_sum blanked
  memcpy blanked OFF_CHKSUM (sprintf_octal 7 sum)

/-- The function `is_valid_checksum` (reader.c). The stored value is parsed by
`strtol` from the address of the chksum field, so the scan goes on into the
fields that follow when the field holds no terminator; the scan is taken to end
at the end of the record. The function blanks the chksum field of the record it
is given (not only of its copy): the second component is that record on return. -/
def is_valid_checksum (header : List Byte) : Bool × List Byte :=
  let expected_checksum := strtol (header.drop OFF_CHKSUM)
  let header1 := memset header OFF_CHKSUM 32 8
  let actual_checksum := byte_sum header1
  (decide ((actual_checksum : Int) = expected_checksum), header1)

/-- The call `snprintf(dst, n, "%s", src)`: at most `n - 1` bytes of the C string `src`;
the result is the C string left in `dst`. -/
def snprintf_s (n : Nat) (src : List Byte) : List Byte :=
  (cstr src).take (n - 1)

/-- The function `extract_name` (header.c): the C string left in `full_name`. -/
def extract_name (header : List Byte) : List Byte :=
  let temp_prefix := snprintf_s (155 + 1) (header.drop OFF_PREFIX)
  let temp_name := snprintf_s (100 + 1) (header.drop OFF_NAME)
  if temp_prefix ≠ [] then
    ( temp_prefix ++ [47] ++ temp_name).take (155 + 100 + 2 - 1)
  else
    temp_name.take (100 + 1 - 1)

/-- The loop `for (i = start; i >= 0; i++) if (path[i] == '/') break;` of
`populate_name`, run over the bytes of the path from index `i` on. The index only
grows, so when no `'/'` is left the loop walks past the terminating NUL and reads
outside the string: `none`. -/
def scan_slash : List Byte → Nat → Option Nat
  | [], _ => none
  | c :: cs, i => if c = 47 then some i else scan_slash cs (i + 1)

/-- The function `populate_name` (header.c); `path` is a C string, given without
its NUL. The `path_stat` argument is unused in the source. -/
def populate_name (path : List Byte) (header : List Byte) : Option (List Byte) :=
  if path.length > 100 then
    match scan_slash (path.drop (path.length - 100 - 1)) (path.length - 100 - 1) with
    | none => none
    | some i =>
      let header1 := memcpy header OFF_NAME ((path.drop (i + 1)).take (path.length - i - 1))
      some (memcpy header1 OFF_PREFIX (path.take i))
  else
    some (memcpy header OFF_NAME (path.take path.length))

/-- Conversion of an unsigned 32-bit value to `int32_t` (two's complement). -/
def to_int32 (v : Nat) : Int :=
  if v % 2 ^ 32 < 2 ^ 31 then ((v % 2 ^ 32 : Nat) : Int) else ((v % 2 ^ 32 : Nat) : Int) - 2 ^ 32

/-- Conversion of a `long` to `unsigned long`. -/
def to_ulong (v : Int) : Nat :=
  (v % 2 ^ 64).toNat

def byte_of (n : Nat) : Byte :=
  ⟨n % 256, Nat.mod_lt _ (by decide)⟩

/-- The four bytes that `*(int32_t *)p = htonl(val)` stores: `val` in network
(big-endian) byte order. -/
def htonl_bytes (val : Nat) : List Byte :=
  [byte_of (val / 2 ^ 24), byte_of (val / 2 ^ 16), byte_of (val / 2 ^ 8), byte_of val]

/-- The function `insert_special_int` (header.c) on the field of `size` bytes at
offset `off` of `mem`: the returned error count and the memory afterwards. -/
def insert_special_int (mem : List Byte) (off : Nat) (size : Nat) (val : Int) :
    Nat × List Byte :=
  if val < 0 ∨ size < 4 then
    (1, mem)
  else
    let mem1 := memset mem off 0 size
    let mem2 := memcpy mem1 (off + size - 4) (htonl_bytes val.toNat)
    let mem3 := mem2.set off (mem2.getD off 0 ||| 0x80)
    (0, mem3)

/-- The fields of `struct stat` that the program reads. -/
structure Stat where
  st_mode : Nat
  st_uid : Nat
  st_gid : Nat
  st_size : Int
  st_mtime : Int

/-- What the operating system answers for one path: the result of `lstat`
(`none` for -1), of `readlink` (its return value and the C string then found in
`buffer`), and of `getpwuid`/`getgrgid` (`none` for NULL, else the name). -/
structure FileInfo where
  lstat : Option Stat
  readlink_len : Int
  readlink_buf : List Byte
  pw_name : Option (List Byte)
  gr_name : Option (List Byte)

def S_ISDIR (mode : Nat) : Bool :=
  mode &&& 0o170000 == 0o040000

def S_ISLNK (mode : Nat) : Bool :=
  mode &&& 0o170000 == 0o120000

def S_ISREG (mode : Nat) : Bool :=
  mode &&& 0o170000 == 0o100000

/-- The function `populate_uid_gid` (header.c). The value returned by
`insert_special_int` is dropped, as in the source. -/
def populate_uid_gid (st : Stat) (header : List Byte) : List Byte :=
  let header1 :=
    if st.st_uid > 0o7777777 then
      (insert_special_int header OFF_UID 8 (to_int32 st.st_uid)).2
    else
      memcpy header OFF_UID (sprintf_octal 7 st.st_uid)
  if st.st_gid > 0o7777777 then
    (insert_special_int header1 OFF_GID 8 (to_int32 st.st_gid)).2
  else
    memcpy header1 OFF_GID (sprintf_octal 7 st.st_gid)

/-- The function `populate_size` (header.c). -/
def populate_size (st : Stat) (header : List Byte) : List Byte :=
  if S_ISDIR st.st_mode || S_ISLNK st.st_mode then
    memcpy header OFF_SIZE (sprintf_octal 11 0)
  else
    memcpy header OFF_SIZE (sprintf_octal 11 (to_ulong st.st_size))

/-- The function `populate_type_linkname` (header.c); `none` is `exit(EXIT_FAILURE)`. -/
def populate_type_linkname (info : FileInfo) (st : Stat) (header : List Byte) :
    Option (List Byte) :=
  if S_ISLNK st.st_mode then
    let header1 := header.set OFF_TYPEFLAG 50
    if info.readlink_len = -1 then none
    else if info.readlink_len > 100 then none
    else some (memcpy header1 OFF_LINKNAME (cstr info.readlink_buf ++ [0]))
  else if S_ISDIR st.st_mode then
    some (header.set OFF_TYPEFLAG 53)
  else
    some (header.set OFF_TYPEFLAG 48)

/-- The call `strncpy(dst, src, n)`: the first `n` bytes of the C string `src`,
padded with NULs to `n` bytes. -/
def strncpy_bytes (src : List Byte) (n : Nat) : List Byte :=
  (cstr src).take n ++ List.replicate (n - ((cstr src).take n).length) 0

/-- The function `populate_uname_gname` (header.c); `none` is `exit(EXIT_FAILURE)`. -/
def populate_uname_gname (info : FileInfo) (header : List Byte) : Option (List Byte) :=
  match info.pw_name, info.gr_name with
  | some pw_name, some gr_name =>
    let header1 := memcpy header OFF_UNAME (strncpy_bytes pw_name (32 - 1))
    some (memcpy header1 OFF_GNAME (strncpy_bytes gr_name (32 - 1)))
  | _, _ => none

/-- The function `populate_header_from_file` (header.c); `none` is
`exit(EXIT_FAILURE)` or the undefined behaviour of `populate_name`. -/
def populate_header_from_file (path : List Byte) (info : FileInfo) (header : List Byte) :
    Option (List Byte) :=
  match info.lstat with
  | none => none
  | some st =>
    match populate_name path header with
    | none => none
    | some h1 =>
      let h2 := memcpy h1 OFF_MODE (sprintf_octal 7 (st.st_mode &&& 0o7777))
      let h3 := populate_uid_gid st h2
      let h4 := populate_size st h3
      let h5 := memcpy h4 OFF_MTIME (sprintf_octal 11 (to_ulong st.st_mtime))
      match populate_type_linkname info st h5 with
      | none => none
      | some h6 =>
        let h7 := memcpy h6 OFF_MAGIC [117, 115, 116, 97, 114, 0]
        let h8 := memcpy h7 OFF_VERSION [48, 48, 0]
        match populate_uname_gname info h8 with
        | none => none
        | some h9 => some (populate_chksum h9)

/-- The C expression `octal & mask` on an `int`: the bits of `octal` are those of its
two's complement pattern of 32 bits. -/
def int_and (x : Int) (mask : Nat) : Nat :=
  (x % 2 ^ 32).toNat &&& mask

/-- The loop of `permissions_to_string` with `i + 1` iterations left, `i` being the
loop index. The shift `octal >>= 3` of a negative `int` is taken to be arithmetic. -/
def permissions_loop : Nat → Int → List Byte → List Byte
  | 0, _, str => str
  | i + 1, octal, str =>
    let str1 := str.set (i * 3 + 1) (if int_and octal 4 ≠ 0 then 114 else 45)
    let str2 := str1.set (i * 3 + 2) (if int_and octal 2 ≠ 0 then 119 else 45)
    let str3 := str2.set (i * 3 + 3) (if int_and octal 1 ≠ 0 then 120 else 45)
    permissions_loop i (octal / 8) str3

/-- The function `permissions_to_string` for the text `octal_str`, the buffer `str`
of the caller (11 bytes in `print_name_verbose`) and the typeflag of the header, both
pointers being non-null: the buffer on return. The value of `strtol` is truncated to
`int`. -/
def permissions_to_string (octal_str : List Byte) (str : List Byte) (typeflag : Byte) :
    List Byte :=
  let str0 := str.set 0 (if typeflag = 53 then 100 else if typeflag = 50 then 108 else 45)
  let octal := to_int32 (to_ulong (strtol octal_str))
  let str1 := permissions_loop 3 octal str0
  str1.set 10 0

/-! ## writer.c -/

/-- The struct `Writer`: the block buffer, the number of buffered blocks, and in
`out` every byte written to `dst_fd` so far. The header and the source
descriptor are passed to the functions that use them. -/
structure Writer where
  buf : List Byte
  buffer_offset : Nat
  out : List Byte

/-- The function `writer_init`, for a buffer holding the bytes `buf`. -/
def writer_init (buf : List Byte) : Writer :=
  { buf := buf, buffer_offset := 0, out := [] }

def get_buffer_index (w : Writer) : Nat :=
  w.buffer_offset * USTAR_BLOCK

/-- The function `writer_flush`. -/
def writer_flush (w : Writer) : Writer :=
  { w with out := w.out ++ w.buf.take (w.buffer_offset * USTAR_BLOCK), buffer_offset := 0 }

/-- The function `writer_pad`. -/
def writer_pad (w : Writer) : Writer :=
  let w1 := if w.buffer_offset + 2 > NUM_HUNKS - 1 then writer_flush w else w
  { w1 with buf := memset w1.buf (get_buffer_index w1) 0 (USTAR_BLOCK * 2),
            buffer_offset := w1.buffer_offset + 2 }

/-- The body of the loop of `writer_write_file` for a `read` that returned the bytes
`data` (`bytes_read = |data| > 0`): the writer and the local `difference` after it. -/
def write_file_step (w : Writer) (difference : Nat) (data : List Byte) : Writer × Nat :=
  let bytes_read := data.length
  let buf1 := memcpy w.buf (get_buffer_index w) data
  let difference1 :=
    if bytes_read % USTAR_BLOCK ≠ 0 then USTAR_BLOCK - bytes_read % USTAR_BLOCK else difference
  let buf2 :=
    if bytes_read % USTAR_BLOCK ≠ 0 then
      memset buf1 (get_buffer_index w + bytes_read) 0 difference1
    else buf1
  let w1 : Writer :=
    { w with buf := buf2,
             buffer_offset := w.buffer_offset + (difference1 + bytes_read) / USTAR_BLOCK }
  (if w1.buffer_offset = NUM_HUNKS then writer_flush w1 else w1, difference1)

/-- The loop of `writer_write_file` over a source whose unread bytes are `src` and
whose `read` returns as many of the requested bytes as are left. Every iteration
that goes on consumes at least one byte, so `|src| + 1` iterations suffice. The
count asked of `read` is computed in `ℕ`; it is the C value as long as
`buffer_offset` is at most `NUM_HUNKS`. -/
def write_file_loop : Nat → Writer → List Byte → Nat → Writer
  | 0, w, _, _ => w
  | fuel + 1, w, src, difference =>
    let data := src.take ((NUM_HUNKS - w.buffer_offset) * USTAR_BLOCK)
    if data.length > 0 then
      let step := write_file_step w difference data
      write_file_loop fuel step.1 (src.drop data.length) step.2
    else w

/-- The function `writer_write_file` on a source file holding `content`. -/
def writer_write_file (w : Writer) (content : List Byte) : Writer :=
  write_file_loop (content.length + 1) w content 0

/-- The function `writer_write_header`: the record goes to `dst_fd` directly. -/
def writer_write_header (w : Writer) (header : List Byte) : Writer :=
  { w with out := w.out ++ header.take HEADER_SIZE }

/-! ## mytar.c: creation -/

/-- The function `process_path` for the path `src`, with the answers `info` of the
operating system and the bytes `content` behind `src_fd`. -/
def process_path (src : List Byte) (info : FileInfo) (content : List Byte) (w : Writer) :
    Option Writer :=
  match populate_header_from_file src info init_header with
  | none => none
  | some header =>
    let w1 := writer_write_header w header
    if header.getD OFF_TYPEFLAG 0 = 48 then
      some (writer_flush (writer_write_file w1 content))
    else
      some w1

/-- A path argument of `mytar c` that names a regular file. -/
structure FileArg where
  path : List Byte
  info : FileInfo
  content : List Byte

/-- The loop over the paths in the create branch of `main`, for arguments that are
regular files: `traverse_path` then calls `process_path` once, on the path itself. -/
def create_entries : List FileArg → Writer → Option Writer
  | [], w => some w
  | f :: fs, w =>
    match process_path f.path f.info f.content w with
    | none => none
    | some w1 => create_entries fs w1

/-- The create branch of `main`: the entries, then `writer_pad` and `writer_flush`.
The result is the archive file. -/
def create_archive (files : List FileArg) (buf : List Byte) : Option (List Byte) :=
  match create_entries files (writer_init buf) with
  | none => none
  | some w => some (writer_flush (writer_pad w)).out

/-- The size of `pathBuff` in `traverse_path`: `PATH_MAX` of `linux/limits.h`. -/
abbrev PATH_MAX : Nat := 4096

mutual
/-- What the operating system reports for a path name: `stat` fails (`nostat`), or it
reports a directory, with the entries that `readdir` returns in order (`"."` and `".."`
among them), or something else, which `open` refuses (`noopen`) or accepts (`file`,
regular or not, with the bytes behind the descriptor). `info` holds the answers
to `lstat` and the other calls of `populate_header_from_file` for the path name handed
to `process_path`. -/
inductive FsNode
  | file (regular : Bool) (info : FileInfo) (content : List Byte)
  | noopen
  | nostat
  | dir (info : FileInfo) (entries : FsListing)
/-- The entries of a directory in the order of `readdir`: `d_name` and what the path
name made from it leads to. -/
inductive FsListing
  | nil
  | cons (d_name : List Byte) (node : FsNode) (rest : FsListing)
end

/-- The function `process_path` with the descriptor `writer->src_fd` as part of the
state: `some content` when it is open on a file holding `content`, `none` when it is
closed or -1. A typeflag `'0'` makes `writer_write_file` seek and read the descriptor
(`lseek` fails on a descriptor that is not open: the process exits) and closes it,
`'2'` closes it, anything else leaves it alone. The result is `none` when the process
exits or `populate_name` has undefined behaviour. -/
def process_path_fd (src : List Byte) (info : FileInfo) (fd : Option (List Byte))
    (w : Writer) : Option (Writer × Option (List Byte)) :=
  match populate_header_from_file src info init_header with
  | none => none
  | some header =>
    let w1 := writer_write_header w header
    if header.getD OFF_TYPEFLAG 0 = 48 then
      match fd with
      | none => none
      | some content => some (writer_flush (writer_write_file w1 content), none)
    else if header.getD OFF_TYPEFLAG 0 = 50 then some (w1, none)
    else some (w1, fd)

mutual
/-- The function `traverse_path` on `path`, which leads to the first argument, from the
descriptor state `fd` and the state `s`. The callback stands for `process_path`
(`process_path_fd` on a `Writer`); a call that does not return ends the traversal.
The result is `none` when the process exits (in the callback, or when `open` or
`opendir` fails on the argument) and when a path name does not fit `pathBuff`. `stat`
refuses the empty path name. -/
def traverse_path {σ : Type}
    (process : List Byte → FileInfo → Option (List Byte) → σ → Option (σ × Option (List Byte))) :
    FsNode → List Byte → Option (List Byte) → σ → Option (σ × Option (List Byte))
  | FsNode.nostat, path, fd, s =>
    if PATH_MAX < path.length + 1 then none else some (s, fd)
  | FsNode.file regular info content, path, fd, s =>
    if PATH_MAX < path.length + 1 then none
    else if path.length = 0 then some (s, fd)
    else if regular then process path info (some content) s else none
  | FsNode.noopen, path, fd, s =>
    if PATH_MAX < path.length + 1 then none
    else if path.length = 0 then some (s, fd)
    else none
  | FsNode.dir info entries, path, fd, s =>
    if PATH_MAX < path.length + 1 then none
    else if path.length = 0 then some (s, fd)
    else
      let pathBuff := if path.getLast? ≠ some 47 then path ++ [47] else path
      if PATH_MAX < pathBuff.length + 1 then none
      else
        match process pathBuff info fd s with
        | none => none
        | some (s1, fd1) => traverse_entries process entries path pathBuff fd1 s1
/-- The `readdir` loop of `traverse_path` over the entries still to come, with the
C string held in `pathBuff`. An `open` that fails leaves -1 in `writer->src_fd`. -/
def traverse_entries {σ : Type}
    (process : List Byte → FileInfo → Option (List Byte) → σ → Option (σ × Option (List Byte))) :
    FsListing → List Byte → List Byte → Option (List Byte) → σ
      → Option (σ × Option (List Byte))
  | FsListing.nil, _, _, fd, s => some (s, fd)
  | FsListing.cons d_name node rest, path, pathBuff, fd, s =>
    let off := path.length + (if path.getLast? ≠ some 47 then 1 else 0)
    if PATH_MAX < off + d_name.length + 1 then none
    else
      let pathBuff1 := pathBuff.take off ++ d_name
      match node with
      | FsNode.nostat => traverse_entries process rest path pathBuff1 fd s
      | FsNode.dir _ _ =>
        if d_name = [46] ∨ d_name = [46, 46] then
          traverse_entries process rest path pathBuff1 fd s
        else if PATH_MAX < pathBuff1.length + 2 then none
        else
          let pathBuff2 := pathBuff1 ++ [47]
          match traverse_path process node pathBuff2 fd s with
          | none => none
          | some (s1, fd1) => traverse_entries process rest path pathBuff2 fd1 s1
      | FsNode.noopen => traverse_entries process rest path pathBuff1 none s
      | FsNode.file _ info content =>
        match process pathBuff1 info (some content) s with
        | none => none
        | some (s1, fd1) => traverse_entries process rest path pathBuff1 fd1 s1
end

/-! ## reader.c -/

/-- The struct `Reader`: the archive behind `src_fd` with the current position,
the strict flag, the header of the current entry, and in `dst` the bytes written
to `dst_fd` since it was last set. -/
structure Reader where
  archive : List Byte
  pos : Nat
  is_strict : Bool
  current_entry : Option (List Byte)
  dst : List Byte
deriving DecidableEq

/-- The function `reader_init`, on the archive opened as `src_fd`. -/
def reader_init (archive : List Byte) (strict : Bool) : Reader :=
  { archive := archive, pos := 0, is_strict := strict, current_entry := none, dst := [] }

/-- The function `is_end_of_archive`: `memcmp` with a record of zeros. -/
def is_end_of_archive (header : List Byte) : Bool :=
  decide (header.take HEADER_SIZE = List.replicate HEADER_SIZE 0)

/-- The two `static` variables of `is_end_of_archive`. -/
structure ZeroHeaderStatic where
  is_zero_header_initialized : Bool
  zero_header : List Byte

/-- The function `is_end_of_archive` with its `static` variables passed in and out:
the first call fills `zero_header`, every call compares 512 bytes with it. -/
def is_end_of_archive_call (st : ZeroHeaderStatic) (header : List Byte) :
    Bool × ZeroHeaderStatic :=
  let st1 : ZeroHeaderStatic :=
    if !st.is_zero_header_initialized then
      { is_zero_header_initialized := true,
        zero_header := memset st.zero_header 0 0 HEADER_SIZE }
    else st
  (decide (header.take HEADER_SIZE = st1.zero_header.take HEADER_SIZE), st1)

/-- The loop of `reader_translate_to_file`. A `read` that returns fewer bytes than
asked makes the following `write` send bytes of `file_buf` that were not read:
`none`. -/
def translate_loop (delta size : Nat) : Nat → Nat → Reader → Option Reader
  | 0, _, _ => none
  | fuel + 1, handeled, r =>
    if handeled = size then some r
    else
      let read_size := if handeled + USTAR_BLOCK = size then USTAR_BLOCK - delta else USTAR_BLOCK
      let data := (r.archive.drop r.pos).take read_size
      if data.length < read_size then none
      else
        translate_loop delta size fuel (handeled + USTAR_BLOCK)
          { r with pos := r.pos + data.length, dst := r.dst ++ data }

/-- The function `reader_translate_to_file`. The result is `none` when the
process exits (no digits in the size field), and where C leaves the behaviour
open: a negative size (a `read` with a negative count, or a loop that never
meets its bound), a size that overflows `long` when rounded up, a short read. -/
def reader_translate_to_file (r : Reader) : Option Reader :=
  match r.current_entry with
  | none => none
  | some header =>
    let size := strtol (header.drop OFF_SIZE)
    if strtol_no_digits (header.drop OFF_SIZE) then none
    else if size < 0 then none
    else
      let delta :=
        if size.toNat % USTAR_BLOCK ≠ 0 then USTAR_BLOCK - size.toNat % USTAR_BLOCK else 0
      let size1 := size.toNat + delta
      if (size1 : Int) > LONG_MAX then none
      else
        match translate_loop delta size1 (size1 / USTAR_BLOCK + 1) 0 r with
        | none => none
        | some r1 => some { r1 with pos := r1.pos + delta }

/-- The function `reader_skip_file_contents`; `none` is `exit(EXIT_FAILURE)`, taken
when `lseek` fails (the target is negative or beyond the largest offset) or when its
result, stored in an `int`, is -1; `none` is also the case where `size + delta`
overflows `long`. -/
def reader_skip_file_contents (r : Reader) : Option Reader :=
  match r.current_entry with
  | none => none
  | some header =>
    let size := strtol (header.drop OFF_SIZE)
    let delta : Int :=
      if Int.tmod size USTAR_BLOCK = 0 then 0 else USTAR_BLOCK - Int.tmod size USTAR_BLOCK
    let target : Int := r.pos + (size + delta)
    if size + delta > LONG_MAX then none
    else if target < 0 ∨ target > LONG_MAX then none
    else if to_int32 target.toNat = -1 then none
    else some { r with pos := target.toNat }

/-- The function `reader_cycle_entry`: the status (1, 0 or -1) and the reader.
The result is `none` when the process exits on a failed checksum, and when
`read` delivers fewer than 512 bytes, which leaves part of `temp_header`
uninitialised. The header kept as current entry is the record as
`is_valid_checksum` leaves it. -/
def reader_cycle_entry (r : Reader) : Option (Int × Reader) :=
  let temp_header := (r.archive.drop r.pos).take HEADER_SIZE
  if temp_header.length < HEADER_SIZE then none
  else
    let r1 := { r with pos := r.pos + HEADER_SIZE }
    if is_end_of_archive temp_header then
      some (0, { r1 with current_entry := none })
    else
      let checked := is_valid_checksum temp_header
      if !checked.1 then none
      else
        let new_header := checked.2
        if r.is_strict
            && (cstr (new_header.drop OFF_MAGIC) != [117, 115, 116, 97, 114]
              || new_header.getD OFF_VERSION 0 != 48
              || new_header.getD (OFF_VERSION + 1) 0 != 48) then
          some (-1, r1)
        else
          some (1, { r1 with current_entry := some new_header })

/-! ## mytar.c: listing and extraction -/

/-- What extraction does to the outside world, in order: a file created by `open`
and the bytes then written to it, a symbolic link, a directory, and, when
`path_to_filesystem` did not return the descriptor of a new file, the bytes that
`reader_translate_to_file` still passed to `write` for the entry `name`.
Directories made for the inner segments of a path are not recorded. -/
inductive FsEvent
  | mkfile (name : List Byte) (mode : Nat) (content : List Byte)
  | mksymlink (name : List Byte) (target : List Byte)
  | mkdir (name : List Byte)
  | nofile (name : List Byte) (content : List Byte)
deriving DecidableEq

/-- The mode that `path_to_filesystem` passes to `open` for a regular file. -/
def open_mode (header : List Byte) : Nat :=
  let mode := (strtol (header.drop OFF_MODE) % 2 ^ 32).toNat
  if mode &&& 0o100 ≠ 0 ∨ mode &&& 0o010 ≠ 0 ∨ mode &&& 0o001 ≠ 0 then 0o777 else 0o666

/-- The function `path_to_filesystem`: what the call creates, and whether the value
returned is the descriptor of a newly opened file (else it is 0 or -1). A path
that starts with `'/'` makes the first `stat` and `mkdir` act on the empty path
name, which both refuse, so -1 is returned; every other `mkdir`, `symlink` and
`open` is taken to succeed. -/
def path_to_filesystem (path : List Byte) (header : List Byte) : Option FsEvent × Bool :=
  if path.length = 0 then (none, false)
  else if path.head? = some 47 then (none, false)
  else if path.getLast? ≠ some 47 then
    if header.getD OFF_TYPEFLAG 0 = 50 then
      (some (FsEvent.mksymlink path (cstr (header.drop OFF_LINKNAME))), false)
    else
      (some (FsEvent.mkfile path (open_mode header) []), true)
  else
    (some (FsEvent.mkdir path), false)

/-- The function `extract_path` as a `process_entry`: the reader and the events so
far. -/
def extract_path (strict : Bool) (r : Reader) (name : List Byte) (fs : List FsEvent) :
    Option (Reader × List FsEvent) :=
  match r.current_entry with
  | none => none
  | some header =>
    if strict && (header.getD OFF_UID 0 &&& 0x80 != 0) then some (r, fs)
    else
      let typeflag := header.getD OFF_TYPEFLAG 0
      if typeflag = 48 ∨ typeflag = 0 then
        let made := path_to_filesystem name header
        match reader_translate_to_file { r with dst := [] } with
        | none => none
        | some r1 =>
          match made with
          | (some (FsEvent.mkfile n m _), true) => some (r1, fs ++ [FsEvent.mkfile n m r1.dst])
          | (some e, _) => some (r1, fs ++ [e, FsEvent.nofile name r1.dst])
          | (none, _) => some (r1, fs ++ [FsEvent.nofile name r1.dst])
      else if typeflag = 53 ∨ typeflag = 50 then
        match (path_to_filesystem name header).1 with
        | some e => some (r, fs ++ [e])
        | none => some (r, fs)
      else some (r, fs)

/-- The function `print_entry` without `v`: the name is printed, and the content
is skipped unless the name ends in `'/'`. -/
def print_entry (r : Reader) (name : List Byte) (printed : List (List Byte)) :
    Option (Reader × List (List Byte)) :=
  if name.getLast? ≠ some 47 then
    match reader_skip_file_contents r with
    | none => none
    | some r1 => some (r1, printed ++ [name])
  else some (r, printed ++ [name])

/-- The test of `traverse_execute_archive` for one requested path `pre`
(non-empty) against the entry name `path`. -/
def prefix_matches (path pre : List Byte) : Bool :=
  let prefix_len := if pre.getLast? = some 47 then pre.length - 1 else pre.length
  decide (path.take prefix_len = pre.take prefix_len)
    && (prefix_len == path.length || path.getD prefix_len 0 == 47)

/-- The loops of `traverse_execute_archive`, for the requested `paths` and the
callback `process_entry`, which acts on the reader and on a state `σ` of the
outside world. A status of -1 goes on to the next `reader_cycle_entry` at once.
Each iteration that goes on has read a whole record, so the fuel given by
`traverse_execute_archive` is never used up. -/
def traverse_loop {σ : Type} (process_entry : Reader → List Byte → σ → Option (Reader × σ))
    (paths : List (List Byte)) : Nat → Reader → σ → Option (Reader × σ)
  | 0, _, _ => none
  | fuel + 1, r, s =>
    match reader_cycle_entry r with
    | none => none
    | some (reader_status, r1) =>
      if reader_status = 0 then some (r1, s)
      else if reader_status = -1 then traverse_loop process_entry paths fuel r1 s
      else
        let path := extract_name (r1.current_entry.getD [])
        if paths.length ≠ 0 then
          if paths.any (fun pre => prefix_matches path pre) then
            match process_entry r1 path s with
            | none => none
            | some (r2, s2) => traverse_loop process_entry paths fuel r2 s2
          else if path.getLast? ≠ some 47 then
            match reader_skip_file_contents r1 with
            | none => none
            | some r2 => traverse_loop process_entry paths fuel r2 s
          else traverse_loop process_entry paths fuel r1 s
        else
          match process_entry r1 path s with
          | none => none
          | some (r2, s2) => traverse_loop process_entry paths fuel r2 s2

/-- The function `traverse_execute_archive`. -/
def traverse_execute_archive {σ : Type}
    (process_entry : Reader → List Byte → σ → Option (Reader × σ))
    (paths : List (List Byte)) (r : Reader) (s : σ) : Option (Reader × σ) :=
  traverse_loop process_entry paths (r.archive.length + 1) r s

/-- The function `extract_archive`: the file system events of `mytar x`. -/
def extract_archive (archive : List Byte) (strict : Bool) (paths : List (List Byte)) :
    Option (List FsEvent) :=
  match traverse_execute_archive (extract_path strict) paths (reader_init archive strict) [] with
  | none => none
  | some (_, fs) => some fs

/-- The function `list_archive` without `v`: the names printed by `mytar t`. -/
def list_archive (archive : List Byte) (strict : Bool) (paths : List (List Byte)) :
    Option (List (List Byte)) :=
  match traverse_execute_archive print_entry paths (reader_init archive strict) [] with
  | none => none
  | some (_, printed) => some printed

/-! ## The validity criterion in the words of the specification -/

/-- The octal number stored in the 8-byte chksum field, read from those 8 bytes only. -/
def chksum_field_value (header : List Byte) : Int :=
  strtol ((header.drop OFF_CHKSUM).take 8)

/-- Valid in the sense of the specification: the sum of the record with the chksum
field blanked equals the number stored in the chksum field. -/
def spec_valid_checksum (header : List Byte) : Bool :=
  decide ((byte_sum (memset header OFF_CHKSUM 32 8) : Int) = chksum_field_value header)

/-- The value of a byte string read as a big-endian binary number. -/
def be_value (bs : List Byte) : Nat :=
  bs.foldl (fun acc b => acc * 256 + b.val) 0

/-- The pair (name, content) of a file that extraction created; `none` for other events. -/
def FsEvent.file_pair : FsEvent → Option (List Byte × List Byte)
  | FsEvent.mkfile name _ content => some (name, content)
  | _ => none

/-- The pair (name, content) of an entry whose content `reader_translate_to_file` wrote
out, to a new file or not; `none` for other events. -/
def FsEvent.written : FsEvent → Option (List Byte × List Byte)
  | FsEvent.mkfile name _ content => some (name, content)
  | FsEvent.nofile name content => some (name, content)
  | _ => none

/-- A content followed by zero bytes up to the next multiple of 512. -/
def pad_to_block (c : List Byte) : List Byte :=
  c ++ List.replicate ((512 - c.length % 512) % 512) 0

/-- A sequence of `memcpy` calls on one region, each given by offset and bytes. -/
def apply_writes (mem : List Byte) (ws : List (Nat × List Byte)) : List Byte :=
  ws.foldl (fun m w => memcpy m w.1 w.2) mem

/-- The bytes of `mem` from offset `a`, `len` of them. -/
def region (mem : List Byte) (a len : Nat) : List Byte :=
  (mem.drop a).take len

/-- The writes of `populate_header_from_file` for a regular file with a short name,
before the checksum: name, mode, uid, gid, size, mtime, typeflag, magic, version,
uname and gname, each given by the bytes stored. -/
def header_writes (p m u g s t un gn : List Byte) : List (Nat × List Byte) :=
  [(0, p), (100, m), (108, u), (116, g), (124, s), (136, t), (156, [48]),
    (257, [117, 115, 116, 97, 114, 0]), (263, [48, 48, 0]), (265, un), (297, gn)]

/-- What the reader relies on in a header `hdr` written for the name `p` and a
content of `n` bytes; `kept` is the record that `reader_cycle_entry` keeps. -/
structure HeaderFor (hdr kept p : List Byte) (n : Nat) (strict : Bool) : Prop where
  length_eq : hdr.length = 512
  not_end : is_end_of_archive hdr = false
  valid : is_valid_checksum hdr = (true, kept)
  typeflag_written : hdr.getD 156 0 = 48
  name_eq : extract_name kept = p
  typeflag_kept : kept.getD 156 0 = 48
  size_eq : strtol (kept.drop 124) = (n : Int)
  size_digits : strtol_no_digits (kept.drop 124) = false
  magic_ok : cstr (kept.drop 257) = [117, 115, 116, 97, 114]
  version_ok : kept.getD 263 0 = 48 ∧ kept.getD 264 0 = 48
  uid_plain : strict = true → kept.getD 108 0 &&& 0x80 = 0

/-- The entries of the round trip: a regular file with a path of 1 to 100 bytes, free of NUL
and not ending in `'/'`, whose `lstat` reports the length of its content, which is
below 8^11, and whose owner and group have names. -/
def regular_file_arg (f : FileArg) : Prop :=
  1 ≤ f.path.length ∧ f.path.length ≤ 100 ∧ (∀ c ∈ f.path, c ≠ 0)
    ∧ f.path.getLast? ≠ some 47
    ∧ f.content.length < 8 ^ 11
    ∧ ∃ st un gn, f.info.lstat = some st ∧ S_ISREG st.st_mode = true
        ∧ st.st_size = (f.content.length : Int)
        ∧ f.info.pw_name = some un ∧ f.info.gr_name = some gn

/-- True when strict extraction does not turn the entry away: the uid is not stored
with the GNU escape, which is used for a uid above 0o7777777 that is not negative as
an `int32_t`. -/
def uid_not_escaped (f : FileArg) : Prop :=
  ∀ st, f.info.lstat = some st → st.st_uid ≤ 0o7777777 ∨ to_int32 st.st_uid < 0

/-- The bytes of one entry in an archive: the header that `populate_header_from_file`
returns, then the content padded to whole blocks. -/
def entry_bytes (f : FileArg) : List Byte :=
  (populate_header_from_file f.path f.info init_header).getD [] ++ pad_to_block f.content

/-- The entries in order, then the two zero blocks that end the archive. -/
def archive_bytes : List FileArg → List Byte
  | [] => List.replicate 1024 0
  | f :: fs => entry_bytes f ++ archive_bytes fs

/-- The permission display in the words of the specification: the character of the
typeflag, then `rwx` for owner, group and other from bits 8 to 0 of the mode `m`,
with `'-'` for each unset bit. -/
def spec_permissions (m : Nat) (t : Byte) : List Byte :=
  [if t = 53 then 100 else if t = 50 then 108 else 45,
    if m.testBit 8 then 114 else 45, if m.testBit 7 then 119 else 45,
    if m.testBit 6 then 120 else 45,
    if m.testBit 5 then 114 else 45, if m.testBit 4 then 119 else 45,
    if m.testBit 3 then 120 else 45,
    if m.testBit 2 then 114 else 45, if m.testBit 1 then 119 else 45,
    if m.testBit 0 then 120 else 45]

/-- A directory path as emitted: `'/'` appended unless the path ends in one. -/
def with_slash (p : List Byte) : List Byte :=
  if p.getLast? ≠ some 47 then p ++ [47] else p

/-- One step of a walk over a directory tree: an entry handed to `process_path` under
`path`, for a file with the content behind the descriptor just opened (`none` for a
directory, for which no descriptor is opened), or an `open` that failed. -/
inductive WalkStep
  | entry (path : List Byte) (info : FileInfo) (opened : Option (List Byte))
  | open_failed

/-- The steps below a directory emitted as `d`, in the words of the specification: the
children in listing order, `"."` and `".."` left out, a file as `d` followed by its
name, a directory as `d`, its name and `'/'`, followed at once by what is below it.
Entries that `stat` refuses are left out. -/
def spec_children : FsListing → List Byte → List WalkStep
  | FsListing.nil, _ => []
  | FsListing.cons d_name (FsNode.dir info sub) rest, d =>
    if d_name = [46] ∨ d_name = [46, 46] then spec_children rest d
    else WalkStep.entry (d ++ d_name ++ [47]) info none
      :: (spec_children sub (d ++ d_name ++ [47]) ++ spec_children rest d)
  | FsListing.cons d_name (FsNode.file _ info content) rest, d =>
    WalkStep.entry (d ++ d_name) info (some content) :: spec_children rest d
  | FsListing.cons _ FsNode.noopen rest, d => WalkStep.open_failed :: spec_children rest d
  | FsListing.cons _ FsNode.nostat rest, d => spec_children rest d

/-- The steps of a walk carried out in order on the callback that stands for
`process_path`: each entry is handed over once all earlier calls have returned, and
a call that does not return ends the run. -/
def run_steps {σ : Type}
    (process : List Byte → FileInfo → Option (List Byte) → σ → Option (σ × Option (List Byte))) :
    List WalkStep → Option (List Byte) → σ → Option (σ × Option (List Byte))
  | [], fd, s => some (s, fd)
  | WalkStep.entry path info opened :: rest, fd, s =>
    match process path info (if opened.isSome then opened else fd) s with
    | none => none
    | some (s1, fd1) => run_steps process rest fd1 s1
  | WalkStep.open_failed :: rest, _, s => run_steps process rest none s

/-- The path names of the entries of a walk, in order. -/
def emitted_paths : List WalkStep → List (List Byte)
  | [] => []
  | WalkStep.entry path _ _ :: rest => path :: emitted_paths rest
  | WalkStep.open_failed :: rest => emitted_paths rest

/-- A callback that returns at once and records the path name it is given. -/
def record_path (path : List Byte) (_ : FileInfo) (fd : Option (List Byte))
    (log : List (List Byte)) : Option (List (List Byte) × Option (List Byte)) :=
  some (log ++ [path], fd)

/-- The longest path name built below a directory, counted from the end of the
directory's own path, with the `'/'` appended to directories. -/
def deepest : FsListing → Nat
  | FsListing.nil => 0
  | FsListing.cons d_name (FsNode.dir _ sub) rest =>
    max (if d_name = [46] ∨ d_name = [46, 46] then d_name.length
      else d_name.length + 1 + deepest sub) (deepest rest)
  | FsListing.cons d_name (FsNode.file _ _ _) rest => max d_name.length (deepest rest)
  | FsListing.cons d_name FsNode.noopen rest => max d_name.length (deepest rest)
  | FsListing.cons d_name FsNode.nostat rest => max d_name.length (deepest rest)

/-- The names of a listing are names of directory entries: not empty and free of
`'/'`, with `"."` and `".."` naming directories only. -/
def names_ok : FsListing → Prop
  | FsListing.nil => True
  | FsListing.cons d_name (FsNode.dir _ sub) rest =>
    d_name ≠ [] ∧ 47 ∉ d_name ∧ (d_name = [46] ∨ d_name = [46, 46] ∨ names_ok sub)
      ∧ names_ok rest
  | FsListing.cons d_name (FsNode.file _ _ _) rest =>
    d_name ≠ [] ∧ 47 ∉ d_name ∧ d_name ≠ [46] ∧ d_name ≠ [46, 46] ∧ names_ok rest
  | FsListing.cons _ FsNode.noopen rest => names_ok rest
  | FsListing.cons _ FsNode.nostat rest => names_ok rest

/-- Every path of `out` is the path of a directory emitted before it (in `earlier` or
in `out`), which ends in `'/'`, followed by one name other than `"."` and `".."`, and
by `'/'` if it is a directory itself. -/
def parents_first : List (List Byte) → List (List Byte) → Prop
  | _, [] => True
  | earlier, p :: rest =>
    (∃ q ∈ earlier, q.getLast? = some 47 ∧ ∃ name : List Byte, name ≠ [] ∧ 47 ∉ name
        ∧ name ≠ [46] ∧ name ≠ [46, 46] ∧ (p = q ++ name ∨ p = q ++ name ++ [47]))
      ∧ parents_first (p :: earlier) rest

/-- The chksum field in the words of the specification: six zero-padded octal digits
of the sum, a NUL and a space. -/
def spec_chksum_field (sum : Nat) : List Byte :=
  octal_fixed 6 sum ++ [0, 32]

/-- A non-empty requested path with one trailing `'/'` removed if present. -/
def strip_trailing_slash (r : List Byte) (hr : r ≠ []) : List Byte :=
  if r.getLast hr = 47 then r.dropLast else r

/-! ## Concrete inputs -/

/-- A record whose chksum field holds eight digits and no terminator, followed by
the typeflag `'0'`; every other byte is zero. -/
def unterminated_chksum_record : List Byte :=
  List.replicate 148 0 ++ [48, 48, 48, 48, 48, 52, 54, 48] ++ [48] ++ List.replicate 355 0

/-- A path of 101 bytes: a leading `'/'` and a name of 100 letters. -/
def rooted_long_path : List Byte :=
  47 :: List.replicate 100 97

/-- A path of 121 bytes: 60 letters, a `'/'`, and 60 letters. -/
def two_part_path : List Byte :=
  List.replicate 60 97 ++ 47 :: List.replicate 60 98

/-- A path of 260 bytes whose only `'/'` is at index 160. -/
def oversized_path : List Byte :=
  List.replicate 160 97 ++ 47 :: List.replicate 99 98

/-- The `struct stat` of a regular file owned by the user id 2^31. -/
def negative_uid_stat : Stat :=
  { st_mode := 0o100644, st_uid := 2147483648, st_gid := 0, st_size := 0, st_mtime := 0 }

/-- The `struct stat` of a regular file whose uid and gid are 2097152 = 0o10000000. -/
def large_id_stat : Stat :=
  { st_mode := 0o100644, st_uid := 2097152, st_gid := 2097152, st_size := 0, st_mtime := 0 }

/-- The file `f.txt` with a content of ten bytes, mode 0644, owned by 1000:1000. -/
def sample_file : FileArg :=
  { path := [102, 46, 116, 120, 116],
    info :=
      { lstat := some { st_mode := 0o100644, st_uid := 1000, st_gid := 1000, st_size := 10,
                        st_mtime := 1700000000 },
        readlink_len := -1, readlink_buf := [], pw_name := some [117], gr_name := some [103] },
    content := [48, 49, 50, 51, 52, 53, 54, 55, 56, 57] }

/-- A record whose size field holds the octal digits of 3; every other byte is zero. -/
def size_three_record : List Byte :=
  List.replicate 124 0 ++ [48, 48, 48, 48, 48, 48, 48, 48, 48, 48, 51, 0]
    ++ List.replicate 376 0

/-- A reader that has taken `size_three_record` as its entry, positioned at offset 512
of a source where three bytes of content are followed by 509 bytes that are not zero. -/
def size_three_reader : Reader :=
  { archive := List.replicate 512 0 ++ [1, 2, 3] ++ List.replicate 509 7, pos := 512,
    is_strict := false, current_entry := some size_three_record, dst := [] }

/-- The file `a` with a content of three bytes. -/
def old_format_file : FileArg :=
  { path := [97],
    info :=
      { lstat := some { st_mode := 0o100644, st_uid := 1000, st_gid := 1000, st_size := 3,
                        st_mtime := 0 },
        readlink_len := -1, readlink_buf := [], pw_name := some [117], gr_name := some [103] },
    content := [120, 121, 122] }

/-- The header of `old_format_file` as a tar of the old format writes it: the magic
field is empty, and the checksum is that of the record so changed. -/
def old_format_header : List Byte :=
  populate_chksum
    (memset ((populate_header_from_file old_format_file.path old_format_file.info
      init_header).getD []) OFF_MAGIC 0 6)

/-- An archive of two entries: `old_format_file` under `old_format_header`, then
`sample_file`. -/
def old_format_archive : List Byte :=
  old_format_header ++ (pad_to_block old_format_file.content ++ archive_bytes [sample_file])

/-- The file `g` with a content of three bytes, owned by the user id 2097152, which
does not fit the uid field in octal. -/
def large_uid_file : FileArg :=
  { path := [103],
    info :=
      { lstat := some { st_mode := 0o100644, st_uid := 2097152, st_gid := 1000, st_size := 3,
                        st_mtime := 0 },
        readlink_len := -1, readlink_buf := [], pw_name := some [117], gr_name := some [103] },
    content := [120, 121, 122] }

/-- The archive of `large_uid_file` and `sample_file`, in this order. -/
def large_uid_archive : List Byte :=
  archive_bytes [large_uid_file, sample_file]

/-- The header that creation writes for `sample_file`. -/
def sample_header : List Byte :=
  (populate_header_from_file sample_file.path sample_file.info init_header).getD []

/-- The answers of the operating system for a directory of mode 0755 owned by
1000:1000. -/
def sample_dir_info : FileInfo :=
  { lstat := some { st_mode := 0o40755, st_uid := 1000, st_gid := 1000, st_size := 4096,
                    st_mtime := 1700000000 },
    readlink_len := -1, readlink_buf := [], pw_name := some [117], gr_name := some [103] }

/-- A directory with the entries `"."`, `".."`, the file `b`, the directory `c` holding
`"."` and the file `d`, and the file `e`; the files are like `sample_file`. -/
def sample_listing : FsListing :=
  FsListing.cons [46] (FsNode.dir sample_dir_info FsListing.nil)
    (FsListing.cons [46, 46] (FsNode.dir sample_dir_info FsListing.nil)
      (FsListing.cons [98] (FsNode.file true sample_file.info sample_file.content)
        (FsListing.cons [99]
          (FsNode.dir sample_dir_info
            (FsListing.cons [46] (FsNode.dir sample_dir_info FsListing.nil)
              (FsListing.cons [100] (FsNode.file true sample_file.info sample_file.content)
                FsListing.nil)))
          (FsListing.cons [101] (FsNode.file true sample_file.info sample_file.content)
            FsListing.nil))))

/-- A directory holding a file whose name has 101 bytes, then the file `b`. -/
def long_name_listing : FsListing :=
  FsListing.cons (List.replicate 101 120)
    (FsNode.file true sample_file.info sample_file.content)
    (FsListing.cons [98] (FsNode.file true sample_file.info sample_file.content)
      FsListing.nil)

def negative_uid_info : FileInfo :=
  { lstat := some negative_uid_stat, readlink_len := -1, readlink_buf := [],
    pw_name := some [117], gr_name := some [103] }

/-! ## Lemmas: memory regions -/

theorem memcpy_length (m : List Byte) (off : Nat) (src : List Byte)
    (h : off + src.length ≤ m.length) : (memcpy m off src).length = m.length := by
  simp only [memcpy, List.length_append, List.length_take, List.length_drop]
  omega

theorem memcpy_take (m : List Byte) (off k : Nat) (src : List Byte)
    (hk : k ≤ off) (hoff : off ≤ m.length) :
    (memcpy m off src).take k = m.take k := by
  have h1 : (m.take off).length = off := by simp [List.length_take]; omega
  simp only [memcpy, List.append_assoc]
  rw [List.take_append_of_le_length (by omega), List.take_take, Nat.min_eq_left hk]

theorem memcpy_drop_at (m : List Byte) (off : Nat) (src : List Byte)
    (hoff : off ≤ m.length) :
    (memcpy m off src).drop off = src ++ m.drop (off + src.length) := by
  have h1 : (m.take off).length = off := by simp [List.length_take]; omega
  simp only [memcpy, List.append_assoc]
  exact List.drop_left' h1

theorem memcpy_drop (m : List Byte) (off k : Nat) (src : List Byte)
    (hk : off + src.length ≤ k) (hoff : off ≤ m.length) :
    (memcpy m off src).drop k = m.drop k := by
  have h1 : (m.take off ++ src).length = off + src.length := by
    simp [List.length_take]; omega
  have h2 : k = (off + src.length) + (k - (off + src.length)) := by omega
  simp only [memcpy]
  rw [h2, ← List.drop_drop, List.drop_left' h1, List.drop_drop]

theorem memcpy_memcpy_same (m : List Byte) (off : Nat) (a b : List Byte)
    (hoff : off ≤ m.length) (hlen : a.length = b.length) :
    memcpy (memcpy m off a) off b = memcpy m off b := by
  have h1 : ((memcpy m off a).take off) = m.take off :=
    memcpy_take m off off a (Nat.le_refl _) hoff
  have h2 : (memcpy m off a).drop (off + b.length) = m.drop (off + b.length) :=
    memcpy_drop m off _ a (by omega) hoff
  show (memcpy m off a).take off ++ b ++ (memcpy m off a).drop (off + b.length) = _
  rw [h1, h2]
  rfl

/-! ## Lemmas: octal printing and parsing -/

theorem octal_fixed_length (w v : Nat) : (octal_fixed w v).length = w := by
  induction w generalizing v with
  | zero => rfl
  | succ w ih => simp [octal_fixed, ih]

theorem octal_char_digit (d : Nat) : is_octal_digit (octal_char d) = true := by
  simp only [is_octal_digit, octal_char, Bool.and_eq_true, decide_eq_true_eq]
  omega

theorem octal_char_val (d : Nat) : (octal_char d).val = 48 + d % 8 := rfl

theorem octal_fixed_digit (w v : Nat) : ∀ c ∈ octal_fixed w v, is_octal_digit c = true := by
  induction w generalizing v with
  | zero => intro c hc; simp [octal_fixed] at hc
  | succ w ih =>
    intro c hc
    simp only [octal_fixed, List.mem_append, List.mem_singleton] at hc
    rcases hc with hc | hc
    · exact ih _ c hc
    · rw [hc]; exact octal_char_digit v

theorem octal_len_aux_le (f : Nat) : ∀ (v k : Nat), 1 ≤ k → v < 8 ^ k → octal_len_aux f v ≤ k := by
  induction f with
  | zero => intro v k hk _; simp [octal_len_aux]
  | succ f ih =>
    intro v k hk hv
    simp only [octal_len_aux]
    split
    · exact hk
    · rename_i h8
      have hk2 : 2 ≤ k := by
        by_contra hc
        have : k = 1 := by omega
        subst this
        simp at hv
        omega
      have : v / 8 < 8 ^ (k - 1) := by
        have h3 : 8 ^ k = 8 ^ (k - 1) * 8 := by
          rw [← pow_succ]; congr 1; omega
        rw [h3] at hv
        exact Nat.div_lt_of_lt_mul (by rw [Nat.mul_comm]; exact hv)
      have := ih (v / 8) (k - 1) (by omega) this
      omega

theorem sprintf_octal_eq (w v : Nat) (hw : 1 ≤ w) (hv : v < 8 ^ w) :
    sprintf_octal w v = octal_fixed w v ++ [0] := by
  have : octal_len v ≤ w := octal_len_aux_le 22 v w hw hv
  simp only [sprintf_octal, Nat.max_eq_left this]

theorem sprintf_octal_length_le (w v : Nat) (hw : w ≤ 22) :
    (sprintf_octal w v).length ≤ 23 := by
  have h : ∀ f v, octal_len_aux f v ≤ f := by
    intro f
    induction f with
    | zero => intro v; simp [octal_len_aux]
    | succ f ih =>
      intro v
      simp only [octal_len_aux]
      split
      · omega
      · have := ih (v / 8); omega
  have := h 22 v
  simp only [sprintf_octal, List.length_append, octal_fixed_length, List.length_singleton,
    octal_len]
  omega

theorem strtol_digits_octal_fixed (w : Nat) : ∀ (v acc : Nat) (rest : List Byte),
    strtol_digits (octal_fixed w v ++ rest) acc
      = strtol_digits rest (acc * 8 ^ w + v % 8 ^ w) := by
  induction w with
  | zero => intro v acc rest; simp [octal_fixed, Nat.mod_one]
  | succ w ih =>
    intro v acc rest
    simp only [octal_fixed, List.append_assoc, List.singleton_append]
    rw [ih]
    simp only [strtol_digits, octal_char_digit, if_true, octal_char_val]
    congr 1
    have h1 : v % 8 ^ (w + 1) = 8 * (v / 8 % 8 ^ w) + v % 8 := by
      rw [pow_succ, Nat.mul_comm (8 ^ w) 8, Nat.mod_mul]
      omega
    rw [h1, pow_succ]
    have : 48 + v % 8 - 48 = v % 8 := by omega
    rw [this]
    ring

theorem strtol_digits_nul (rest : List Byte) (acc : Nat) :
    strtol_digits ((0 : Byte) :: rest) acc = acc := by
  simp [strtol_digits, is_octal_digit]

/-- `strtol` on a string whose first byte is neither white space nor a sign. -/
theorem strtol_plain (c : Byte) (cs : List Byte) (h1 : isspace c = false)
    (h2 : c.val ≠ 45) (h3 : c.val ≠ 43) :
    strtol (c :: cs) = min (strtol_digits (c :: cs) 0 : Int) LONG_MAX := by
  simp [strtol, List.dropWhile_cons, h1, h2, h3]

theorem digit_not_space (c : Byte) (h : is_octal_digit c = true) :
    isspace c = false ∧ c.val ≠ 45 ∧ c.val ≠ 43 := by
  simp only [is_octal_digit, Bool.and_eq_true, decide_eq_true_eq] at h
  refine ⟨?_, by omega, by omega⟩
  simp only [isspace, Bool.or_eq_false_iff, beq_eq_false_iff_ne, ne_eq,
    Bool.and_eq_false_imp, decide_eq_true_eq, decide_eq_false_iff_not, not_le]
  omega

/-- Parsing a printed field: `w` octal digits followed by a NUL read back as the value. -/
theorem strtol_octal_fixed (w v : Nat) (rest : List Byte) (hv : v < 8 ^ w)
    (hmax : v < 2 ^ 63) :
    strtol (octal_fixed w v ++ (0 : Byte) :: rest) = (v : Int) := by
  have hd : strtol_digits (octal_fixed w v ++ (0 : Byte) :: rest) 0 = v := by
    rw [strtol_digits_octal_fixed, strtol_digits_nul, Nat.mod_eq_of_lt hv]; simp
  have hmin : min (v : Int) LONG_MAX = v := by
    apply min_eq_left
    simp only [LONG_MAX]
    omega
  cases hL : octal_fixed w v ++ (0 : Byte) :: rest with
  | nil => simp at hL
  | cons c cs =>
    have hc : isspace c = false ∧ c.val ≠ 45 ∧ c.val ≠ 43 := by
      cases hw : octal_fixed w v with
      | nil =>
        rw [hw] at hL
        simp only [List.nil_append, List.cons.injEq] at hL
        rw [← hL.1]
        decide
      | cons d ds =>
        rw [hw] at hL
        simp only [List.cons_append, List.cons.injEq] at hL
        rw [← hL.1]
        exact digit_not_space d (octal_fixed_digit w v d (by rw [hw]; simp))
    rw [strtol_plain c cs hc.1 hc.2.1 hc.2.2, ← hL, hd, hmin]

/-! ## Lemmas: checksum -/

theorem sum_val_le (l : List Byte) : (l.map Fin.val).sum ≤ 255 * l.length := by
  induction l with
  | nil => simp
  | cons c cs ih =>
    simp only [List.map_cons, List.sum_cons, List.length_cons]
    have := c.isLt
    omega

theorem byte_sum_lt (h : List Byte) : byte_sum h < 8 ^ 7 := by
  have h1 := sum_val_le (h.take 512)
  have h2 : (h.take 512).length ≤ 512 := by
    simp [List.length_take]
  simp only [byte_sum, HEADER_SIZE]
  have : (8 : Nat) ^ 7 = 2097152 := by norm_num
  omega

theorem populate_chksum_eq (h : List Byte) :
    populate_chksum h
      = memcpy (memset h 148 32 8) 148
          (octal_fixed 7 (byte_sum (memset h 148 32 8)) ++ [0]) := by
  simp only [populate_chksum]
  rw [sprintf_octal_eq 7 _ (by omega) (byte_sum_lt _)]

theorem populate_chksum_length (h : List Byte) (hlen : h.length = 512) :
    (populate_chksum h).length = 512 := by
  rw [populate_chksum_eq]
  have h1 : (memset h 148 32 8).length = 512 := by
    rw [memset, memcpy_length] <;> simp [hlen]
  rw [memcpy_length] <;> simp [h1, octal_fixed_length]

/-- Blanking the chksum field of a checksummed record gives back the blanked record. -/
theorem memset_populate_chksum (h : List Byte) (hlen : h.length = 512) :
    memset (populate_chksum h) 148 32 8 = memset h 148 32 8 := by
  rw [populate_chksum_eq]
  simp only [memset]
  rw [memcpy_memcpy_same, memcpy_memcpy_same]
  · simp [hlen]
  · rfl
  · rw [memcpy_length] <;> simp [hlen]
  · simp [octal_fixed_length]

theorem populate_chksum_drop (h : List Byte) (hlen : h.length = 512) :
    (populate_chksum h).drop 148
      = octal_fixed 7 (byte_sum (memset h 148 32 8)) ++ (0 : Byte) :: h.drop 156 := by
  have h1 : (memset h 148 32 8).length = 512 := by
    rw [memset, memcpy_length] <;> simp [hlen]
  rw [populate_chksum_eq, memcpy_drop_at _ _ _ (by simp [h1])]
  have h2 : (memset h 148 32 8).drop 156 = h.drop 156 := by
    rw [memset, memcpy_drop] <;> simp [hlen]
  simp [octal_fixed_length, h2]

/-- The stored checksum of a checksummed record parses to the sum of the blanked record. -/
theorem strtol_populate_chksum (h : List Byte) (hlen : h.length = 512) :
    strtol ((populate_chksum h).drop 148)
      = (byte_sum (memset h 148 32 8) : Int) := by
  rw [populate_chksum_drop h hlen]
  have hlt := byte_sum_lt (memset h 148 32 8)
  apply strtol_octal_fixed _ _ _ hlt
  have : (8 : Nat) ^ 7 = 2097152 := by norm_num
  omega

/-- Validation of a checksummed record succeeds and leaves the blanked record. -/
theorem is_valid_checksum_populate_chksum (h : List Byte) (hlen : h.length = 512) :
    is_valid_checksum (populate_chksum h) = (true, memset h 148 32 8) := by
  simp only [is_valid_checksum, OFF_CHKSUM]
  rw [strtol_populate_chksum h hlen, memset_populate_chksum h hlen]
  simp

/-- C2. Checksum round trip: for every 512-byte record `h`, the record produced by
`populate_chksum h` passes `is_valid_checksum`. -/
theorem populate_chksum_passes_validation (h : List Byte) (hlen : h.length = 512) :
    (is_valid_checksum (populate_chksum h)).1 = true := by
  rw [is_valid_checksum_populate_chksum h hlen]

theorem memcpy_getElem?_lt (m : List Byte) (off i : Nat) (src : List Byte)
    (hi : i < off) (hoff : off ≤ m.length) :
    (memcpy m off src)[i]? = m[i]? := by
  have h := memcpy_take m off off src (Nat.le_refl _) hoff
  have h1 : ((memcpy m off src).take off)[i]? = (m.take off)[i]? := by rw [h]
  rw [List.getElem?_take_of_lt hi, List.getElem?_take_of_lt hi] at h1
  exact h1

theorem memcpy_getElem?_ge (m : List Byte) (off i : Nat) (src : List Byte)
    (hi : off + src.length ≤ i) (hoff : off ≤ m.length) :
    (memcpy m off src)[i]? = m[i]? := by
  have h := memcpy_drop m off i src hi hoff
  have h1 : ((memcpy m off src).drop i)[0]? = (m.drop i)[0]? := by rw [h]
  simpa [List.getElem?_drop] using h1

theorem memcpy_set_lt (m : List Byte) (off i : Nat) (src : List Byte) (b : Byte)
    (hi : i < off) (hoff : off ≤ m.length) :
    memcpy (m.set i b) off src = (memcpy m off src).set i b := by
  have h1 : (m.take off).length = off := by simp [List.length_take]; omega
  simp only [memcpy, List.append_assoc, List.length_set]
  rw [List.set_append_left _ _ (by omega), List.drop_set, if_pos (by omega), List.set_take]

theorem memcpy_set_ge (m : List Byte) (off i : Nat) (src : List Byte) (b : Byte)
    (hi : off + src.length ≤ i) (hoff : off ≤ m.length) :
    memcpy (m.set i b) off src = (memcpy m off src).set i b := by
  have h1 : (m.take off ++ src).length = off + src.length := by
    simp [List.length_take]; omega
  simp only [memcpy, List.length_set]
  rw [List.set_append_right _ _ (by rw [h1]; exact hi), List.drop_set, if_neg (by omega),
    List.set_take, List.set_eq_of_length_le (l := m.take off) (by simp; omega), h1]

theorem sum_val_set (l : List Byte) : ∀ (i : Nat) (b c : Byte), l[i]? = some c →
    ((l.set i b).map Fin.val).sum + c.val = (l.map Fin.val).sum + b.val := by
  induction l with
  | nil => intro i b c h; simp at h
  | cons x xs ih =>
    intro i b c h
    cases i with
    | zero =>
      simp only [List.getElem?_cons_zero, Option.some.injEq] at h
      subst h
      simp only [List.set_cons_zero, List.map_cons, List.sum_cons]
      omega
    | succ i =>
      simp only [List.getElem?_cons_succ] at h
      have := ih i b c h
      simp only [List.set_cons_succ, List.map_cons, List.sum_cons]
      omega

theorem byte_sum_of_length (h : List Byte) (hlen : h.length = 512) :
    byte_sum h = (h.map Fin.val).sum := by
  simp only [byte_sum, HEADER_SIZE]
  rw [List.take_of_length_le (by omega)]

theorem memset_length (h : List Byte) (hlen : h.length = 512) :
    (memset h 148 32 8).length = 512 := by
  rw [memset, memcpy_length] <;> simp [hlen]

/-- C3. Corruption detection: in a record produced by `populate_chksum`, replacing the
byte at any index `i` outside the chksum field (`i < 148` or `156 ≤ i`, `i < 512`) by a
different value `b` makes `is_valid_checksum` fail. -/
theorem corrupted_byte_fails_validation (h : List Byte) (hlen : h.length = 512)
    (i : Nat) (hi : i < 512) (hout : i < 148 ∨ 156 ≤ i) (b : Byte)
    (hb : (populate_chksum h)[i]? ≠ some b) :
    (is_valid_checksum ((populate_chksum h).set i b)).1 = false := by
  have hRlen := populate_chksum_length h hlen
  have hBlen := memset_length h hlen
  -- the stored value is untouched and still parses to the original sum
  have hexp : strtol (((populate_chksum h).set i b).drop 148)
      = (byte_sum (memset h 148 32 8) : Int) := by
    rcases hout with hlt | hge
    · rw [List.drop_set, if_pos hlt]
      exact strtol_populate_chksum h hlen
    · rw [List.drop_set, if_neg (by omega), populate_chksum_drop h hlen,
        List.set_append_right _ _ (by simp [octal_fixed_length]; omega)]
      have h8 : i - 148 - (octal_fixed 7 (byte_sum (memset h 148 32 8))).length
          = (i - 156) + 1 := by
        simp [octal_fixed_length]; omega
      rw [h8, List.set_cons_succ]
      have hlt := byte_sum_lt (memset h 148 32 8)
      apply strtol_octal_fixed _ _ _ hlt
      have : (8 : Nat) ^ 7 = 2097152 := by norm_num
      omega
  -- the blanked record differs from the original blanked record in byte `i` only
  have hset : memset ((populate_chksum h).set i b) 148 32 8
      = (memset h 148 32 8).set i b := by
    rw [← memset_populate_chksum h hlen]
    simp only [memset]
    rcases hout with hlt | hge
    · exact memcpy_set_lt _ _ _ _ _ hlt (by omega)
    · exact memcpy_set_ge _ _ _ _ _ (by simp; omega) (by omega)
  -- the byte that was replaced
  have hold : (memset h 148 32 8)[i]? = (populate_chksum h)[i]? := by
    rw [populate_chksum_eq]
    rcases hout with hlt | hge
    · exact (memcpy_getElem?_lt _ _ _ _ hlt (by omega)).symm
    · exact (memcpy_getElem?_ge _ _ _ _ (by simp [octal_fixed_length]; omega) (by omega)).symm
  obtain ⟨c, hc⟩ : ∃ c, (memset h 148 32 8)[i]? = some c := by
    have : i < (memset h 148 32 8).length := by omega
    exact ⟨_, List.getElem?_eq_getElem this⟩
  have hcb : c ≠ b := by
    intro hcb
    apply hb
    rw [← hold, hc, hcb]
  have hsum := sum_val_set (memset h 148 32 8) i b c hc
  have hval : c.val ≠ b.val := fun hv => hcb (Fin.ext hv)
  simp only [is_valid_checksum, OFF_CHKSUM, decide_eq_false_iff_not]
  rw [hexp, hset, byte_sum_of_length _ (by simp [hBlen]), byte_sum_of_length _ hBlen]
  intro heq
  have heq2 : (((memset h 148 32 8).set i b).map Fin.val).sum
      = ((memset h 148 32 8).map Fin.val).sum := by exact_mod_cast heq
  omega

theorem init_header_length : init_header.length = 512 := by
  simp only [init_header, List.length_replicate]

theorem populate_chksum_getElem?_outside (h : List Byte) (hlen : h.length = 512)
    (i : Nat) (hout : i < 148 ∨ 156 ≤ i) : (populate_chksum h)[i]? = h[i]? := by
  have hBlen := memset_length h hlen
  rw [populate_chksum_eq, memset]
  rcases hout with hlt | hge
  · rw [memcpy_getElem?_lt _ _ _ _ hlt (by rw [← memset, hBlen]; omega),
      memcpy_getElem?_lt _ _ _ _ hlt (by omega)]
  · rw [memcpy_getElem?_ge _ _ _ _ (by simp [octal_fixed_length]; omega)
        (by rw [← memset, hBlen]; omega),
      memcpy_getElem?_ge _ _ _ _ (by simp; omega) (by omega)]

/-- Instance of C3 on the checksummed all-zero record: changing byte 0 from 0 to 1. -/
theorem corrupted_byte_fails_validation_witness :
    (is_valid_checksum ((populate_chksum init_header).set 0 1)).1 = false :=
  corrupted_byte_fails_validation init_header init_header_length 0 (by decide)
    (Or.inl (by decide)) 1 (by
      rw [populate_chksum_getElem?_outside _ init_header_length 0 (Or.inl (by decide))]
      simp only [init_header, List.getElem?_replicate]
      decide)

/-- Instance of C2 on the all-zero record. -/
theorem populate_chksum_passes_validation_witness :
    (is_valid_checksum (populate_chksum init_header)).1 = true :=
  populate_chksum_passes_validation init_header init_header_length

set_option maxRecDepth 100000 in
/-- C4, at a record whose chksum field holds the eight digits `00000460` without a
terminator and whose typeflag is `'0'`: the sum of the record with the chksum field
blanked is 304 = 0o460, the number in the 8-byte field, so the record is valid in the
sense of the claim; `is_valid_checksum` parses on into the typeflag, reads 0o4600 =
2432, and rejects the record. -/
theorem is_valid_checksum_reads_past_field :
    unterminated_chksum_record.length = 512
      ∧ byte_sum (memset unterminated_chksum_record OFF_CHKSUM 32 8) = 304
      ∧ chksum_field_value unterminated_chksum_record = 304
      ∧ strtol (unterminated_chksum_record.drop OFF_CHKSUM) = 2432
      ∧ spec_valid_checksum unterminated_chksum_record = true
      ∧ (is_valid_checksum unterminated_chksum_record).1 = false := by
  decide

/-! ## Lemmas: C strings and names -/

theorem cstr_append (p rest : List Byte) (hp : ∀ c ∈ p, c ≠ 0) :
    cstr (p ++ rest) = p ++ cstr rest := by
  induction p with
  | nil => rfl
  | cons c cs ih =>
    have hc : c ≠ 0 := hp c (by simp)
    have ih2 := ih (fun d hd => hp d (by simp [hd]))
    simp only [cstr] at ih2 ⊢
    simp [List.takeWhile_cons, hc, ih2]

theorem cstr_zero (rest : List Byte) : cstr ((0 : Byte) :: rest) = [] := by
  simp [cstr, List.takeWhile_cons]

theorem cstr_replicate_zero (k : Nat) (rest : List Byte) (hk : 0 < k) :
    cstr (List.replicate k (0 : Byte) ++ rest) = [] := by
  obtain ⟨j, rfl⟩ : ∃ j, k = j + 1 := ⟨k - 1, by omega⟩
  rw [List.replicate_succ, List.cons_append, cstr_zero]

/-- Reading back a name field: a string without NUL of at most `n` bytes, stored
NUL-padded in a field of `n` bytes, is what a bounded `%s` finds there, whatever
follows the field. -/
theorem cstr_field (n : Nat) (p rest : List Byte) (hp : ∀ c ∈ p, c ≠ 0) (hlen : p.length ≤ n) :
    (cstr (p ++ List.replicate (n - p.length) 0 ++ rest)).take n = p := by
  rw [List.append_assoc, cstr_append p _ hp]
  by_cases hk : p.length = n
  · rw [List.take_append_of_le_length (by omega), List.take_of_length_le (by omega)]
  · rw [cstr_replicate_zero _ _ (by omega), List.append_nil, List.take_of_length_le (by omega)]

theorem extract_name_no_prefix (h p : List Byte) (hp : ∀ c ∈ p, c ≠ 0)
    (hlen : p.length ≤ 100) (hname : h.take 100 = p ++ List.replicate (100 - p.length) 0)
    (hpre : cstr (h.drop 345) = []) : extract_name h = p := by
  have hsplit : h = p ++ List.replicate (100 - p.length) 0 ++ h.drop 100 := by
    rw [← hname, List.take_append_drop]
  have hn : (cstr h).take 100 = p := by
    rw [hsplit]; exact cstr_field 100 p _ hp hlen
  simp only [extract_name, snprintf_s, OFF_PREFIX, OFF_NAME, List.drop_zero, hpre,
    List.take_nil, ne_eq, not_true_eq_false, if_false]
  show ((cstr h).take 100).take 100 = p
  rw [hn, List.take_of_length_le hlen]

theorem init_header_eq : init_header = List.replicate 512 0 := rfl

theorem populate_name_short (p header : List Byte) (hlen : p.length ≤ 100) :
    populate_name p header = some (memcpy header 0 p) := by
  simp only [populate_name, OFF_NAME]
  rw [if_neg (by omega), List.take_of_length_le (Nat.le_refl _)]

theorem memcpy_init_header_zero (p : List Byte) :
    memcpy init_header 0 p = p ++ List.replicate (512 - p.length) 0 := by
  simp only [memcpy, init_header_eq, List.take_zero, List.nil_append, Nat.zero_add,
    List.drop_replicate]

/-- C5. Short names: for every path `p` of 1 to 100 bytes without NUL, `populate_name`
on a zero-initialised header stores `p` NUL-padded in the 100-byte name field, leaves
the 155-byte prefix field all zero, and `extract_name` on the result returns `p`. -/
theorem short_name_round_trip (p : List Byte) (h1 : 1 ≤ p.length) (h100 : p.length ≤ 100)
    (hnul : ∀ c ∈ p, c ≠ 0) :
    ∃ h, populate_name p init_header = some h
      ∧ h.length = 512
      ∧ (h.drop OFF_NAME).take 100 = p ++ List.replicate (100 - p.length) 0
      ∧ (h.drop OFF_PREFIX).take 155 = List.replicate 155 0
      ∧ extract_name h = p := by
  have hh := memcpy_init_header_zero p
  have hname : (memcpy init_header 0 p).take 100 = p ++ List.replicate (100 - p.length) 0 := by
    rw [hh, List.take_append_eq_append_take, List.take_of_length_le h100, List.take_replicate]
    congr 2
    omega
  have hdrop : (memcpy init_header 0 p).drop 345 = List.replicate 167 0 := by
    rw [hh, List.drop_append_eq_append_drop, List.drop_of_length_le (by omega),
      List.nil_append, List.drop_replicate]
    congr 1
    omega
  refine ⟨memcpy init_header 0 p, populate_name_short p _ h100, ?_, ?_, ?_, ?_⟩
  · rw [memcpy_length]
    · exact init_header_length
    · rw [init_header_length]; omega
  · exact hname
  · show ((memcpy init_header 0 p).drop 345).take 155 = _
    rw [hdrop, List.take_replicate]
    rfl
  · apply extract_name_no_prefix _ p hnul h100 hname
    rw [hdrop]
    exact cstr_replicate_zero 167 [] (by omega) ▸ (by rw [List.append_nil])

/-- Instance of C5 for the path `f.txt`. -/
theorem short_name_round_trip_witness :
    ∃ h, populate_name [102, 46, 116, 120, 116] init_header = some h
      ∧ h.length = 512
      ∧ (h.drop OFF_NAME).take 100
          = [102, 46, 116, 120, 116] ++ List.replicate (100 - [102, 46, 116, 120, 116].length) 0
      ∧ (h.drop OFF_PREFIX).take 155 = List.replicate 155 0
      ∧ extract_name h = [102, 46, 116, 120, 116] :=
  short_name_round_trip [102, 46, 116, 120, 116] (by decide) (by decide) (by simp)

/-! ## Names longer than the name field -/

set_option maxRecDepth 100000 in
/-- C6, at the path `/aaa…a` (a `'/'` and 100 letters, 101 bytes, `'/'` at index 0 =
|p| - 101): `populate_name` splits at index 0, so the prefix is empty and the 100
letters fill the name field; `extract_name` then returns the 100 letters without the
leading `'/'`, not the path. -/
theorem rooted_long_path_loses_slash :
    rooted_long_path.length = 101
      ∧ rooted_long_path.getD 0 0 = 47
      ∧ (∃ h, populate_name rooted_long_path init_header = some h
          ∧ (h.drop OFF_PREFIX).take 155 = List.replicate 155 0
          ∧ (h.drop OFF_NAME).take 100 = List.replicate 100 97
          ∧ extract_name h = List.replicate 100 97
          ∧ extract_name h ≠ rooted_long_path) := by
  refine ⟨by decide, by decide, memcpy (memcpy init_header 0 (List.replicate 100 97)) 345 [],
    by decide, by decide, by decide, by decide, by decide⟩

set_option maxRecDepth 100000 in
/-- C7, at a path of 260 bytes (160 letters, `'/'`, 99 letters): `populate_name`
returns a header and no error; it has copied 160 bytes to the 155-byte prefix field,
so 5 of them lie in the `unused` field, and `extract_name` returns a path cut to 155
prefix bytes. -/
theorem oversized_path_not_rejected :
    oversized_path.length = 260
      ∧ (∃ h, populate_name oversized_path init_header = some h
          ∧ h.length = 512
          ∧ (h.drop OFF_PREFIX).take 155 = List.replicate 155 97
          ∧ (h.drop OFF_UNUSED).take 5 = List.replicate 5 97
          ∧ extract_name h = List.replicate 155 97 ++ 47 :: List.replicate 99 98
          ∧ extract_name h ≠ oversized_path) := by
  refine ⟨by decide,
    memcpy (memcpy init_header 0 (List.replicate 99 98)) 345 (List.replicate 160 97),
    by decide, by decide, by decide, by decide, by decide, by decide⟩

/-! ## uid and gid -/

theorem to_int32_of_lt (v : Nat) (h : v < 2 ^ 31) : to_int32 v = (v : Int) := by
  have h1 : v % 2 ^ 32 = v := Nat.mod_eq_of_lt (by omega)
  simp only [to_int32, h1, if_pos h]

theorem to_int32_neg (v : Nat) (h1 : 2 ^ 31 ≤ v) (h2 : v < 2 ^ 32) : to_int32 v < 0 := by
  have h3 : v % 2 ^ 32 = v := Nat.mod_eq_of_lt h2
  simp only [to_int32, h3, if_neg (by omega : ¬ v < 2 ^ 31)]
  omega

/-- A value that is negative as an `int32_t` is refused and the memory is left as it was. -/
theorem insert_special_int_negative (mem : List Byte) (off size : Nat) (v : Nat)
    (h1 : 2 ^ 31 ≤ v) (h2 : v < 2 ^ 32) :
    insert_special_int mem off size (to_int32 v) = (1, mem) := by
  simp only [insert_special_int, to_int32_neg v h1 h2, true_or, if_true]

/-- The layout left by a successful `insert_special_int` on an 8-byte field. -/
theorem insert_special_int_ok (mem : List Byte) (off : Nat) (v : Nat)
    (hlen : off + 8 ≤ mem.length) :
    insert_special_int mem off 8 (v : Int)
      = (0, memcpy mem off (128 :: 0 :: 0 :: 0 :: htonl_bytes v)) := by
  have hneg : ¬ ((v : Int) < 0 ∨ 8 < 4) := by omega
  have h1 : (mem.take off).length = off := by simp [List.length_take]; omega
  have hm1 : (memset mem off 0 8).length = mem.length := by
    rw [memset, memcpy_length]; simpa using hlen
  have e1 : memset mem off 0 8 = mem.take off ++ (List.replicate 8 0 ++ mem.drop (off + 8)) := by
    simp [memset, memcpy]
  have e2 : memcpy (memset mem off 0 8) (off + 8 - 4) (htonl_bytes v)
      = mem.take off ++ (0 :: 0 :: 0 :: 0 :: htonl_bytes v ++ mem.drop (off + 8)) := by
    have h4 : off + 8 - 4 = off + 4 := by omega
    have ht : (memset mem off 0 8).take (off + 4)
        = mem.take off ++ [0, 0, 0, 0] := by
      rw [e1, List.take_append_eq_append_take, List.take_of_length_le (by omega), h1]
      have : off + 4 - off = 4 := by omega
      rw [this]
      rfl
    have hd : (memset mem off 0 8).drop (off + 4 + 4) = mem.drop (off + 8) := by
      have h8 : off + 4 + 4 = off + 8 := by omega
      rw [h8, memset, memcpy_drop _ _ _ _ (by simp) (by omega)]
    rw [h4]
    show (memset mem off 0 8).take (off + 4) ++ htonl_bytes v
      ++ (memset mem off 0 8).drop (off + 4 + (htonl_bytes v).length) = _
    have hl : (htonl_bytes v).length = 4 := rfl
    rw [hl, ht, hd]
    simp
  simp only [insert_special_int, if_neg hneg, Int.toNat_ofNat]
  rw [e2]
  have hget : (mem.take off ++ (0 :: 0 :: 0 :: 0 :: htonl_bytes v ++ mem.drop (off + 8))).getD off 0
      = 0 := by
    rw [List.getD_eq_getElem?_getD, List.getElem?_append_right (by omega), h1]
    simp
  rw [hget, List.set_append_right _ _ (by omega), h1]
  have hor : ((0 : Byte) ||| 0x80) = 128 := by decide
  simp [memcpy, htonl_bytes, hor]

theorem be_value_htonl (v : Nat) (h : v < 2 ^ 32) : be_value (htonl_bytes v) = v := by
  simp only [be_value, htonl_bytes, byte_of, List.foldl_cons, List.foldl_nil]
  omega

theorem memcpy_region (m : List Byte) (off : Nat) (src : List Byte) (hoff : off ≤ m.length) :
    ((memcpy m off src).drop off).take src.length = src := by
  rw [memcpy_drop_at m off src hoff]
  exact List.take_left' rfl

theorem memcpy_region_frame (m : List Byte) (off a len : Nat) (src : List Byte)
    (hdis : off + src.length ≤ a ∨ a + len ≤ off) (hoff : off ≤ m.length) :
    ((memcpy m off src).drop a).take len = (m.drop a).take len := by
  rcases hdis with h | h
  · rw [memcpy_drop m off a src h hoff]
  · rw [List.take_drop, List.take_drop, memcpy_take m off (a + len) src h hoff]

theorem memcpy_self (m : List Byte) (off k : Nat) (h : off + k ≤ m.length) :
    memcpy m off ((m.drop off).take k) = m := by
  simp only [memcpy, List.length_take, List.length_drop]
  rw [List.append_assoc, Nat.min_eq_left (by omega), ← List.drop_drop, List.take_append_drop,
    List.take_append_drop]

/-- What `populate_uid_gid` does to one of its two fields: an 8-byte write. -/
theorem id_write (header : List Byte) (off id : Nat) (hlen : off + 8 ≤ header.length) :
    ∃ F : List Byte, F.length = 8
      ∧ (if id > 0o7777777 then (insert_special_int header off 8 (to_int32 id)).2
          else memcpy header off (sprintf_octal 7 id)) = memcpy header off F
      ∧ (0o7777777 < id → 0 ≤ to_int32 id →
          F = 128 :: 0 :: 0 :: 0 :: htonl_bytes (to_int32 id).toNat)
      ∧ (0o7777777 < id → to_int32 id < 0 → F = (header.drop off).take 8)
      ∧ (id ≤ 0o7777777 → F = octal_fixed 7 id ++ [0]) := by
  by_cases hbig : id > 0o7777777
  · by_cases hneg : to_int32 id < 0
    · refine ⟨(header.drop off).take 8, ?_, ?_, ?_, fun _ _ => rfl, ?_⟩
      · rw [List.length_take, List.length_drop]; omega
      · rw [if_pos hbig, memcpy_self _ _ _ hlen]
        simp only [insert_special_int, hneg, true_or, if_true]
      · intro _ h; omega
      · intro h; omega
    · obtain ⟨v, hv⟩ : ∃ v : Nat, to_int32 id = (v : Int) := ⟨(to_int32 id).toNat, by omega⟩
      refine ⟨128 :: 0 :: 0 :: 0 :: htonl_bytes v, rfl, ?_, ?_, ?_, ?_⟩
      · rw [if_pos hbig, hv, insert_special_int_ok header off v hlen]
      · intro _ _; rw [hv]; rfl
      · intro _ h; omega
      · intro h; omega
  · have h7 : id < 8 ^ 7 := by
      have : (8 : Nat) ^ 7 = 2097152 := by norm_num
      omega
    refine ⟨octal_fixed 7 id ++ [0], by simp [octal_fixed_length], ?_, ?_, ?_, fun _ => rfl⟩
    · rw [if_neg hbig, sprintf_octal_eq 7 id (by omega) h7]
    · intro h; omega
    · intro h; omega

/-- The function `populate_uid_gid` is two 8-byte writes, at the uid and the gid field. -/
theorem populate_uid_gid_eq (st : Stat) (header : List Byte) (hlen : header.length = 512) :
    ∃ U G : List Byte, U.length = 8 ∧ G.length = 8
      ∧ populate_uid_gid st header = memcpy (memcpy header 108 U) 116 G
      ∧ (0o7777777 < st.st_uid → 0 ≤ to_int32 st.st_uid →
          U = 128 :: 0 :: 0 :: 0 :: htonl_bytes (to_int32 st.st_uid).toNat)
      ∧ (0o7777777 < st.st_uid → to_int32 st.st_uid < 0 → U = (header.drop 108).take 8)
      ∧ (st.st_uid ≤ 0o7777777 → U = octal_fixed 7 st.st_uid ++ [0])
      ∧ (0o7777777 < st.st_gid → 0 ≤ to_int32 st.st_gid →
          G = 128 :: 0 :: 0 :: 0 :: htonl_bytes (to_int32 st.st_gid).toNat) := by
  obtain ⟨U, hU, hUw, hU1, hU2, hU3⟩ := id_write header 108 st.st_uid (by omega)
  have hlen1 : (memcpy header 108 U).length = 512 := by
    rw [memcpy_length _ _ _ (by omega)]; exact hlen
  obtain ⟨G, hG, hGw, hG1, _, _⟩ := id_write (memcpy header 108 U) 116 st.st_gid (by omega)
  refine ⟨U, G, hU, hG, ?_, hU1, hU2, hU3, hG1⟩
  simp only [populate_uid_gid, OFF_UID, OFF_GID]
  rw [hUw, hGw]

/-- C8. GNU large-integer escape layout: for every id with `0o7777777 < id < 2^31`,
`insert_special_int` on an 8-byte field returns 0, and `populate_uid_gid` leaves the
uid field (for such a uid) and the gid field (for such a gid) holding `0x80`, three zero
bytes, and the id as four bytes in big-endian order, which read big-endian give the id. -/
theorem gnu_escape_layout (id : Nat) (hlo : 0o7777777 < id) (hhi : id < 2 ^ 31) (st : Stat)
    (header : List Byte) (hlen : header.length = 512) :
    (insert_special_int header OFF_UID 8 (to_int32 id)).1 = 0
      ∧ (insert_special_int header OFF_GID 8 (to_int32 id)).1 = 0
      ∧ (st.st_uid = id → ((populate_uid_gid st header).drop OFF_UID).take 8
          = 128 :: 0 :: 0 :: 0 :: htonl_bytes id)
      ∧ (st.st_gid = id → ((populate_uid_gid st header).drop OFF_GID).take 8
          = 128 :: 0 :: 0 :: 0 :: htonl_bytes id)
      ∧ htonl_bytes id
          = [byte_of (id / 2 ^ 24), byte_of (id / 2 ^ 16), byte_of (id / 2 ^ 8), byte_of id]
      ∧ be_value (htonl_bytes id) = id := by
  have h32 := to_int32_of_lt id hhi
  obtain ⟨U, G, hU, hG, heq, hU1, _, _, hG1⟩ := populate_uid_gid_eq st header hlen
  have hlen1 : (memcpy header 108 U).length = 512 := by
    rw [memcpy_length _ _ _ (by omega)]; exact hlen
  refine ⟨?_, ?_, ?_, ?_, rfl, be_value_htonl id (by omega)⟩
  · rw [h32, insert_special_int_ok header 108 id (by omega)]
  · rw [h32, insert_special_int_ok header 116 id (by omega)]
  · intro huid
    have hUv : U = 128 :: 0 :: 0 :: 0 :: htonl_bytes id := by
      have := hU1 (by omega) (by rw [huid, h32]; omega)
      rw [huid, h32] at this
      simpa using this
    show ((populate_uid_gid st header).drop 108).take 8 = _
    rw [heq, memcpy_region_frame _ 116 108 8 G (Or.inr (by omega)) (by omega), ← hU,
      memcpy_region header 108 U (by omega), hUv]
  · intro hgid
    have hGv : G = 128 :: 0 :: 0 :: 0 :: htonl_bytes id := by
      have := hG1 (by omega) (by rw [hgid, h32]; omega)
      rw [hgid, h32] at this
      simpa using this
    show ((populate_uid_gid st header).drop 116).take 8 = _
    rw [heq, ← hG, memcpy_region _ 116 G (by omega), hGv]

/-- Instance of C8 for the uid and gid 2097152 = 0o10000000 on the zero header. -/
theorem gnu_escape_layout_witness :
    (insert_special_int init_header OFF_UID 8 (to_int32 2097152)).1 = 0
      ∧ (insert_special_int init_header OFF_GID 8 (to_int32 2097152)).1 = 0
      ∧ ((populate_uid_gid large_id_stat init_header).drop OFF_UID).take 8
          = 128 :: 0 :: 0 :: 0 :: htonl_bytes 2097152
      ∧ ((populate_uid_gid large_id_stat init_header).drop OFF_GID).take 8
          = 128 :: 0 :: 0 :: 0 :: htonl_bytes 2097152
      ∧ be_value (htonl_bytes 2097152) = 2097152 :=
  have t := gnu_escape_layout 2097152 (by decide) (by decide) large_id_stat init_header
    init_header_length
  ⟨t.1, t.2.1, t.2.2.1 rfl, t.2.2.2.1 rfl, t.2.2.2.2.2⟩

set_option maxRecDepth 100000 in
/-- C9, at the uid 2^31 (negative as an `int32_t`): `insert_special_int` returns 1 and
leaves the header as it was, but `populate_uid_gid` drops that result, and
`populate_header_from_file` returns a header, with a checksum that validates, whose uid
field is eight zero bytes. -/
theorem negative_uid_not_rejected :
    to_int32 negative_uid_stat.st_uid < 0
      ∧ insert_special_int init_header OFF_UID 8 (to_int32 negative_uid_stat.st_uid)
          = (1, init_header)
      ∧ ((populate_uid_gid negative_uid_stat init_header).drop OFF_UID).take 8
          = List.replicate 8 0
      ∧ (∃ h, populate_header_from_file [102] negative_uid_info init_header = some h
          ∧ (h.drop OFF_UID).take 8 = List.replicate 8 0
          ∧ (is_valid_checksum h).1 = true) := by
  refine ⟨by decide, by decide, by decide,
    (populate_header_from_file [102] negative_uid_info init_header).getD [], by decide,
    by decide, by decide⟩

/-! ## The block buffer of the writer -/

theorem writer_flush_offset (w : Writer) : (writer_flush w).buffer_offset = 0 := rfl

theorem writer_flush_buf (w : Writer) : (writer_flush w).buf = w.buf := rfl

theorem writer_flush_out (w : Writer) :
    (writer_flush w).out = w.out ++ w.buf.take (w.buffer_offset * 512) := rfl

theorem write_file_loop_nil (fuel : Nat) (w : Writer) (difference : Nat) :
    write_file_loop fuel w [] difference = w := by
  cases fuel with
  | zero => rfl
  | succ f => simp [write_file_loop]

/-- A read that fills the whole empty buffer is flushed at once. -/
theorem write_file_step_full (w : Writer) (data : List Byte) (hoff : w.buffer_offset = 0)
    (hbuf : w.buf.length = 4096) (hdata : data.length = 4096) :
    write_file_step w 0 data = ({ buf := data, buffer_offset := 0, out := w.out ++ data }, 0) := by
  have hb : memcpy w.buf 0 data = data := by
    simp only [memcpy, List.take_zero, List.nil_append, Nat.zero_add]
    rw [List.drop_of_length_le (by omega), List.append_nil]
  simp [write_file_step, get_buffer_index, hoff, hdata, hb, writer_flush, USTAR_BLOCK,
    NUM_HUNKS]

/-- The last read of a file, shorter than the buffer: the data and its zero padding
are the first blocks of the buffer (or, if they fill it, they have been flushed). -/
theorem write_file_step_last (w : Writer) (data : List Byte) (hoff : w.buffer_offset = 0)
    (hbuf : w.buf.length = 4096) (h0 : 0 < data.length) (hdata : data.length < 4096) :
    (writer_flush (write_file_step w 0 data).1).out
        = w.out ++ data ++ List.replicate ((512 - data.length % 512) % 512) 0
      ∧ (write_file_step w 0 data).1.buf.length = 4096 := by
  have hb : memcpy w.buf 0 data = data ++ w.buf.drop data.length := by
    simp only [memcpy, List.take_zero, List.nil_append, Nat.zero_add]
  by_cases hm : data.length % 512 = 0
  · -- whole blocks, fewer than eight
    have hlt : data.length / 512 ≠ 8 := by omega
    have hmul : data.length / 512 * 512 = data.length := by omega
    simp only [write_file_step, get_buffer_index, hoff, hb, USTAR_BLOCK, NUM_HUNKS, hm,
      ne_eq, not_true_eq_false, if_false, Nat.zero_add, Nat.zero_mul, if_neg hlt,
      writer_flush_out, hmul]
    constructor
    · rw [List.take_left' rfl]; simp
    · simp [List.length_drop]; omega
  · have hd : 512 - data.length % 512 + data.length
        = (data.length / 512 + 1) * 512 := by omega
    have hdiv : (512 - data.length % 512 + data.length) / 512 = data.length / 512 + 1 := by
      rw [hd]; exact Nat.mul_div_cancel _ (by omega)
    have hpad : (512 - data.length % 512) % 512 = 512 - data.length % 512 := by
      apply Nat.mod_eq_of_lt; omega
    have hms : memset (data ++ w.buf.drop data.length) data.length 0
          (512 - data.length % 512)
        = data ++ (List.replicate (512 - data.length % 512) 0
            ++ w.buf.drop (data.length + (512 - data.length % 512))) := by
      simp only [memset, memcpy, List.length_replicate]
      rw [List.take_left' rfl, List.append_assoc]
      congr 2
      rw [List.drop_append_eq_append_drop, List.drop_of_length_le (by omega), List.nil_append,
        List.drop_drop]
      congr 1
      omega
    simp only [write_file_step, get_buffer_index, hoff, hb, USTAR_BLOCK, NUM_HUNKS, hm,
      ne_eq, not_false_eq_true, if_true, Nat.zero_add, Nat.zero_mul, hdiv, hms, hpad]
    have htake : (data ++ (List.replicate (512 - data.length % 512) 0
          ++ w.buf.drop (data.length + (512 - data.length % 512)))).take
            ((data.length / 512 + 1) * 512)
        = data ++ List.replicate (512 - data.length % 512) 0 := by
      rw [← List.append_assoc]
      apply List.take_left'
      simp only [List.length_append, List.length_replicate]
      omega
    have hlen : (data ++ (List.replicate (512 - data.length % 512) 0
          ++ w.buf.drop (data.length + (512 - data.length % 512)))).length = 4096 := by
      simp only [List.length_append, List.length_replicate, List.length_drop]
      omega
    by_cases h8 : data.length / 512 + 1 = 8
    · simp only [h8, if_true, writer_flush_out, writer_flush_buf, writer_flush_offset]
      rw [h8] at htake
      simp only [writer_flush, htake, hlen, Nat.zero_mul, List.take_zero, List.append_nil,
        List.append_assoc, and_self]
    · simp only [if_neg h8, writer_flush_out, htake, hlen, List.append_assoc, and_self]

/-- The loop of `writer_write_file`, started on an empty buffer, followed by a flush. -/
theorem write_file_loop_flush (n : Nat) : ∀ (src : List Byte) (fuel : Nat) (w : Writer),
    src.length ≤ n → src.length < fuel → w.buffer_offset = 0 → w.buf.length = 4096 →
    (writer_flush (write_file_loop fuel w src 0)).out
        = w.out ++ src ++ List.replicate ((512 - src.length % 512) % 512) 0
      ∧ (write_file_loop fuel w src 0).buf.length = 4096 := by
  induction n using Nat.strong_induction_on with
  | _ n ih =>
    intro src fuel w hn hfuel hoff hbuf
    obtain ⟨f, rfl⟩ : ∃ f, fuel = f + 1 := ⟨fuel - 1, by omega⟩
    by_cases hnil : src.length = 0
    · have : src = [] := List.length_eq_zero.mp hnil
      subst this
      rw [write_file_loop_nil]
      simp [writer_flush_out, hoff, hbuf]
    · by_cases hfull : 4096 ≤ src.length
      · -- a full buffer is read and flushed, the loop goes on with the rest
        have htl : (src.take 4096).length = 4096 := by
          rw [List.length_take]; omega
        have hstep := write_file_step_full w (src.take 4096) hoff hbuf htl
        have hrec := ih (n - 4096) (by omega) (src.drop 4096) f
          { buf := src.take 4096, buffer_offset := 0, out := w.out ++ src.take 4096 }
          (by rw [List.length_drop]; omega) (by rw [List.length_drop]; omega) rfl htl
        have hpos : 0 < (src.take 4096).length := by omega
        have hunf : write_file_loop (f + 1) w src 0
            = write_file_loop f
                { buf := src.take 4096, buffer_offset := 0, out := w.out ++ src.take 4096 }
                (src.drop 4096) 0 := by
          simp only [write_file_loop, hoff, NUM_HUNKS, USTAR_BLOCK, Nat.sub_zero]
          rw [if_pos (by simpa using hpos)]
          have h8 : 8 * 512 = 4096 := rfl
          rw [h8, hstep, htl]
        rw [hunf]
        refine ⟨?_, hrec.2⟩
        rw [hrec.1, List.length_drop]
        have hm : (src.length - 4096) % 512 = src.length % 512 := by omega
        rw [hm, List.append_assoc w.out, List.take_append_drop]
      · -- the last read
        have hlt : src.length < 4096 := by omega
        have htake : src.take 4096 = src := List.take_of_length_le (by omega)
        have hlast := write_file_step_last w src hoff hbuf (by omega) hlt
        have hunf : write_file_loop (f + 1) w src 0 = (write_file_step w 0 src).1 := by
          simp only [write_file_loop, hoff, NUM_HUNKS, USTAR_BLOCK, Nat.sub_zero]
          have h8 : 8 * 512 = 4096 := rfl
          rw [h8, htake, if_pos (by omega), List.drop_length, write_file_loop_nil]
        rw [hunf]
        exact hlast

/-- C10. Block-aligned content: for every content `c`, with the buffer empty at the
start and every `read` returning the bytes asked for as long as there are any,
`writer_write_file` followed by `writer_flush` appends to the sink exactly `c`
followed by `(512 - |c| mod 512) mod 512` zero bytes, which is `512 * ceil(|c| / 512)`
bytes in all, also when `c` is larger than the buffer of 4096 bytes. -/
theorem write_file_emits_padded_content (c : List Byte) (w : Writer)
    (hoff : w.buffer_offset = 0) (hbuf : w.buf.length = 4096) :
    (writer_flush (writer_write_file w c)).out
        = w.out ++ (c ++ List.replicate ((512 - c.length % 512) % 512) 0)
      ∧ (c ++ List.replicate ((512 - c.length % 512) % 512) (0 : Byte)).length
        = 512 * ((c.length + 511) / 512) := by
  constructor
  · rw [← List.append_assoc]
    exact (write_file_loop_flush c.length c (c.length + 1) w (Nat.le_refl _) (by omega) hoff
      hbuf).1
  · simp only [List.length_append, List.length_replicate]
    omega

/-- Instance of C10 for a content of three bytes and an empty buffer of zeros. -/
theorem write_file_emits_padded_content_witness :
    (writer_flush (writer_write_file (writer_init (List.replicate 4096 0)) [1, 2, 3])).out
        = (writer_init (List.replicate 4096 0)).out
          ++ ([1, 2, 3] ++ List.replicate ((512 - [1, 2, 3].length % 512) % 512) 0)
      ∧ ([1, 2, 3] ++ List.replicate ((512 - [1, 2, 3].length % 512) % 512) (0 : Byte)).length
        = 512 * (([1, 2, 3].length + 511) / 512) :=
  write_file_emits_padded_content [1, 2, 3] (writer_init (List.replicate 4096 0)) rfl
    (by simp only [writer_init, List.length_replicate])

/-! ## Sequences of writes into a header -/

theorem apply_writes_cons (h : List Byte) (w : Nat × List Byte) (ws : List (Nat × List Byte)) :
    apply_writes h (w :: ws) = apply_writes (memcpy h w.1 w.2) ws := rfl

theorem apply_writes_append (h : List Byte) (ws vs : List (Nat × List Byte)) :
    apply_writes h (ws ++ vs) = apply_writes (apply_writes h ws) vs := by
  simp only [apply_writes, List.foldl_append]

theorem apply_writes_length (ws : List (Nat × List Byte)) : ∀ (h : List Byte),
    h.length = 512 → (∀ w ∈ ws, w.1 + w.2.length ≤ 512) →
    (apply_writes h ws).length = 512 := by
  induction ws with
  | nil => intro h hlen _; exact hlen
  | cons w ws ih =>
    intro h hlen hb
    rw [apply_writes_cons]
    apply ih
    · rw [memcpy_length _ _ _ (by have := hb w (by simp); omega)]; exact hlen
    · intro v hv; exact hb v (by simp [hv])

/-- Writes that stay clear of a region leave it as it was. -/
theorem apply_writes_frame (a len : Nat) (ws : List (Nat × List Byte)) : ∀ (h : List Byte),
    h.length = 512 →
    (∀ w ∈ ws, w.1 + w.2.length ≤ 512 ∧ (w.1 + w.2.length ≤ a ∨ a + len ≤ w.1)) →
    region (apply_writes h ws) a len = region h a len := by
  induction ws with
  | nil => intro h _ _; rfl
  | cons w ws ih =>
    intro h hlen hb
    have hw := hb w (by simp)
    rw [apply_writes_cons, ih]
    · exact memcpy_region_frame h w.1 a len w.2 hw.2 (by omega)
    · rw [memcpy_length _ _ _ (by omega)]; exact hlen
    · intro v hv; exact hb v (by simp [hv])

theorem memcpy_region_take (m : List Byte) (off k : Nat) (src : List Byte)
    (hoff : off ≤ m.length) (hk : k ≤ src.length) :
    region (memcpy m off src) off k = src.take k := by
  simp only [region]
  rw [memcpy_drop_at m off src hoff, List.take_append_of_le_length hk]

/-- The region written last, by a write that later writes stay clear of. -/
theorem apply_writes_last (h : List Byte) (pre post : List (Nat × List Byte)) (off k : Nat)
    (src : List Byte) (hlen : h.length = 512) (hpre : ∀ w ∈ pre, w.1 + w.2.length ≤ 512)
    (hsrc : off + src.length ≤ 512) (hk : k ≤ src.length)
    (hpost : ∀ w ∈ post, w.1 + w.2.length ≤ 512 ∧ (w.1 + w.2.length ≤ off ∨ off + k ≤ w.1)) :
    region (apply_writes h (pre ++ (off, src) :: post)) off k = src.take k := by
  have h1 := apply_writes_length pre h hlen hpre
  rw [apply_writes_append, apply_writes_cons, apply_writes_frame off k post _ _ hpost]
  · exact memcpy_region_take _ off k src (by omega) hk
  · rw [memcpy_length _ _ _ (by simpa [h1] using hsrc)]; exact h1

theorem region_drop (m : List Byte) (a len : Nat) :
    m.drop a = region m a len ++ m.drop (a + len) := by
  simp only [region]
  rw [← List.drop_drop, List.take_append_drop]

theorem region_getD (m : List Byte) (a len i : Nat) (x : List Byte) (hx : region m a len = x)
    (hi : i < x.length) : m.getD (a + i) 0 = x.getD i 0 := by
  have h1 := region_drop m a len
  rw [hx] at h1
  have h2 : (m.drop a)[i]? = x[i]? := by
    rw [h1, List.getElem?_append_left hi]
  rw [List.getElem?_drop] at h2
  simp only [List.getD_eq_getElem?_getD, h2]

/-! ## Long names away from the failing case -/

/-- The scan of `populate_name` finds the first `'/'` at or after its start index. -/
theorem scan_slash_first : ∀ (l : List Byte) (s k : Nat), l[k]? = some 47 →
    ∃ j, j ≤ k ∧ scan_slash l s = some (s + j) ∧ l[j]? = some 47
      ∧ ∀ t, t < j → l[t]? ≠ some 47 := by
  intro l
  induction l with
  | nil => intro s k h; simp at h
  | cons c cs ih =>
    intro s k h
    by_cases hc : c = 47
    · refine ⟨0, by omega, ?_, by simp [hc], fun t ht => by omega⟩
      simp [scan_slash, hc]
    · cases k with
      | zero => simp at h; exact absurd h hc
      | succ k =>
        simp only [List.getElem?_cons_succ] at h
        obtain ⟨j, hj, hscan, hget, hfirst⟩ := ih (s + 1) k h
        refine ⟨j + 1, by omega, ?_, by simpa using hget, ?_⟩
        · simp only [scan_slash, if_neg hc, hscan]
          congr 1
          omega
        · intro t ht
          cases t with
          | zero => simpa using hc
          | succ t => simpa using hfirst t (by omega)

/-- The long-name split away from the case of C6's failing input: for a path `p`
without NUL, `100 < |p| ≤ 255`, with a `'/'` at an index `i0`, `|p| - 101 ≤ i0 ≤ 155`,
that is not a path of 101 bytes starting with `'/'`, `populate_name` on the zero header
splits at a `'/'` at index `i ≥ 1`, stores the `i ≤ 155` bytes before it in the prefix
field and the at most 100 bytes after it in the name field, and `extract_name` on the
result returns `p`. -/
theorem long_name_round_trip (p : List Byte) (hlen : 100 < p.length) (h255 : p.length ≤ 255)
    (hnul : ∀ c ∈ p, c ≠ 0) (i0 : Nat) (hlo : p.length - 101 ≤ i0) (hhi : i0 ≤ 155)
    (hslash : p[i0]? = some 47) (hroot : p.length ≠ 101 ∨ p[0]? ≠ some 47) :
    ∃ h i, populate_name p init_header = some h
      ∧ 1 ≤ i ∧ i ≤ 155 ∧ p.length - i - 1 ≤ 100 ∧ p[i]? = some 47
      ∧ p.take i ++ 47 :: p.drop (i + 1) = p
      ∧ region h OFF_PREFIX 155 = p.take i ++ List.replicate (155 - i) 0
      ∧ region h OFF_NAME 100 = p.drop (i + 1) ++ List.replicate (100 - (p.length - i - 1)) 0
      ∧ extract_name h = p := by
  have hs : p.length - 100 - 1 = p.length - 101 := by omega
  -- the index found by the scan
  have hk : (p.drop (p.length - 101))[i0 - (p.length - 101)]? = some 47 := by
    rw [List.getElem?_drop]
    have : p.length - 101 + (i0 - (p.length - 101)) = i0 := by omega
    rw [this]; exact hslash
  obtain ⟨j, hj, hscan, hget, hfirst⟩ :=
    scan_slash_first (p.drop (p.length - 101)) (p.length - 101) _ hk
  rw [List.getElem?_drop] at hget
  generalize hi : p.length - 101 + j = i at hscan hget
  have hi1 : 1 ≤ i := by
    by_contra hc
    have hi0' : i = 0 := by omega
    have h101 : p.length = 101 := by omega
    rcases hroot with h | h
    · exact h h101
    · apply h; rw [← hget, hi0']
  have hilt : i < p.length := by
    by_contra hc
    rw [List.getElem?_eq_none (by omega)] at hget
    cases hget
  have hsplit : p.take i ++ 47 :: p.drop (i + 1) = p := by
    have h1 := List.getElem?_eq_getElem hilt
    rw [hget] at h1
    have h2 := List.drop_eq_getElem_cons hilt
    rw [← Option.some.inj h1] at h2
    rw [← h2, List.take_append_drop]
  -- the header
  have hnamelen : (p.drop (i + 1)).length = p.length - i - 1 := by
    rw [List.length_drop]; omega
  have hname : (p.drop (i + 1)).take (p.length - i - 1) = p.drop (i + 1) :=
    List.take_of_length_le (by omega)
  have hprelen : (p.take i).length = i := by
    rw [List.length_take]; omega
  have hpop : populate_name p init_header
      = some (apply_writes init_header [(0, p.drop (i + 1)), (345, p.take i)]) := by
    simp only [populate_name, if_pos hlen, hs, hscan, hname, OFF_NAME, OFF_PREFIX]
    rfl
  have hi := init_header_length
  have hlenh : (apply_writes init_header [(0, p.drop (i + 1)), (345, p.take i)]).length
      = 512 := by
    apply apply_writes_length _ _ hi
    intro w hw
    simp only [List.mem_cons, List.mem_singleton, List.not_mem_nil, or_false] at hw
    rcases hw with rfl | rfl
    all_goals (dsimp only; omega)
  -- the two fields
  have hregname : region (apply_writes init_header [(0, p.drop (i + 1)), (345, p.take i)]) 0 100
      = p.drop (i + 1) ++ List.replicate (100 - (p.length - i - 1)) 0 := by
    have h0 : region (memcpy init_header 0 (p.drop (i + 1))) 0 100
        = p.drop (i + 1) ++ List.replicate (100 - (p.length - i - 1)) 0 := by
      simp only [region, List.drop_zero]
      rw [memcpy_init_header_zero, List.take_append_eq_append_take,
        List.take_of_length_le (by omega), List.take_replicate, hnamelen]
      congr 2
      omega
    rw [← h0, apply_writes_cons]
    apply apply_writes_frame
    · rw [memcpy_length _ _ _ (by dsimp only; rw [hi]; omega)]; exact hi
    · intro w hw
      simp only [List.mem_cons, List.mem_singleton, List.not_mem_nil, or_false] at hw
      subst hw
      dsimp only
      omega
  have hregtail : region (apply_writes init_header [(0, p.drop (i + 1)), (345, p.take i)]) 345 167
      = p.take i ++ List.replicate (167 - i) 0 := by
    have hl1 : (memcpy init_header 0 (p.drop (i + 1))).length = 512 := by
      rw [memcpy_length _ _ _ (by rw [hi]; omega)]; exact hi
    have hz : (memcpy init_header 0 (p.drop (i + 1))).drop (345 + i) = List.replicate (167 - i) 0 := by
      rw [memcpy_init_header_zero, List.drop_append_eq_append_drop,
        List.drop_of_length_le (by omega), List.nil_append, List.drop_replicate, hnamelen]
      congr 1
      omega
    simp only [apply_writes, List.foldl_cons, List.foldl_nil, region]
    rw [memcpy_drop_at _ _ _ (by omega), hprelen, hz]
    apply List.take_of_length_le
    simp only [List.length_append, List.length_replicate, hprelen]
    omega
  have hpnul : ∀ c ∈ p.take i, c ≠ 0 := fun c hc => hnul c (List.mem_of_mem_take hc)
  have hnnul : ∀ c ∈ p.drop (i + 1), c ≠ 0 := fun c hc => hnul c (List.mem_of_mem_drop hc)
  refine ⟨_, i, hpop, hi1, by omega, by omega, hget, hsplit, ?_, hregname, ?_⟩
  · -- the prefix field is the first 155 bytes of the tail
    have := congrArg (List.take 155) hregtail
    simp only [region, List.take_take] at this
    simp only [region, OFF_PREFIX]
    rw [show min 155 167 = 155 from rfl] at this
    rw [this, List.take_append_eq_append_take, List.take_of_length_le (by omega),
      List.take_replicate, hprelen]
    congr 2
    omega
  · -- reading the name back
    generalize apply_writes init_header [(0, p.drop (i + 1)), (345, p.take i)] = h
      at hlenh hregname hregtail
    have hd345 : h.drop 345 = p.take i ++ List.replicate (167 - i) 0 := by
      have := region_drop h 345 167
      have hd : h.drop (345 + 167) = [] := List.drop_of_length_le (by omega)
      rw [hregtail, hd, List.append_nil] at this
      exact this
    have hpre : (cstr (h.drop 345)).take 155 = p.take i := by
      rw [hd345, cstr_append _ _ hpnul]
      have := cstr_replicate_zero (167 - i) [] (by omega)
      rw [List.append_nil] at this
      rw [this, List.append_nil, List.take_of_length_le (by omega)]
    have hnm : (cstr h).take 100 = p.drop (i + 1) := by
      have := region_drop h 0 100
      rw [hregname, List.drop_zero] at this
      rw [this]
      have := cstr_field 100 (p.drop (i + 1)) (h.drop (0 + 100)) hnnul (by omega)
      rw [hnamelen] at this
      exact this
    have hne : p.take i ≠ [] := by
      intro he
      rw [he] at hprelen
      simp at hprelen
      omega
    simp only [extract_name, snprintf_s, OFF_PREFIX, OFF_NAME, List.drop_zero,
      Nat.add_sub_cancel, hpre, hnm, ne_eq, hne, not_false_eq_true, if_true]
    rw [List.append_assoc, List.singleton_append, hsplit]
    exact List.take_of_length_le (by omega)

set_option maxRecDepth 10000 in
/-- Instance of the long-name split for a path of 60 letters, a `'/'`, and 60 letters. -/
theorem long_name_round_trip_witness :
    ∃ h i, populate_name two_part_path init_header = some h
      ∧ 1 ≤ i ∧ i ≤ 155 ∧ two_part_path.length - i - 1 ≤ 100 ∧ two_part_path[i]? = some 47
      ∧ two_part_path.take i ++ 47 :: two_part_path.drop (i + 1) = two_part_path
      ∧ region h OFF_PREFIX 155 = two_part_path.take i ++ List.replicate (155 - i) 0
      ∧ region h OFF_NAME 100
          = two_part_path.drop (i + 1)
              ++ List.replicate (100 - (two_part_path.length - i - 1)) 0
      ∧ extract_name h = two_part_path :=
  long_name_round_trip two_part_path (by decide) (by decide)
    (by
      intro c hc
      simp only [two_part_path, List.mem_append, List.mem_cons, List.mem_replicate] at hc
      rcases hc with ⟨_, rfl⟩ | rfl | ⟨_, rfl⟩ <;> decide)
    60 (by decide) (by decide) (by decide) (Or.inl (by decide))

/-! ## The layout of a header written for a regular file -/

theorem region_init_header_tail : region init_header 345 167 = List.replicate 167 0 := by
  simp only [region, init_header_eq, List.drop_replicate, List.take_replicate]
  rfl

/-- The fields of the record that the reader keeps (written by `header_writes`, with
the chksum field blanked afterwards) that the reader looks at. -/
theorem header_layout (p m u g s t un gn : List Byte) (hp : p.length ≤ 100)
    (hm : m.length = 8) (hu : u.length = 8) (hg : g.length = 8) (hs : s.length = 12)
    (ht : t.length ≤ 23) (hun : un.length = 31) (hgn : gn.length = 31) :
    (apply_writes init_header (header_writes p m u g s t un gn)).length = 512
      ∧ (apply_writes init_header
            (header_writes p m u g s t un gn ++ [(148, List.replicate 8 32)])).length = 512
      ∧ region (apply_writes init_header
            (header_writes p m u g s t un gn ++ [(148, List.replicate 8 32)])) 0 100
          = p ++ List.replicate (100 - p.length) 0
      ∧ region (apply_writes init_header
            (header_writes p m u g s t un gn ++ [(148, List.replicate 8 32)])) 108 1
          = u.take 1
      ∧ region (apply_writes init_header
            (header_writes p m u g s t un gn ++ [(148, List.replicate 8 32)])) 124 12 = s
      ∧ region (apply_writes init_header
            (header_writes p m u g s t un gn ++ [(148, List.replicate 8 32)])) 156 1 = [48]
      ∧ region (apply_writes init_header
            (header_writes p m u g s t un gn ++ [(148, List.replicate 8 32)])) 257 6
          = [117, 115, 116, 97, 114, 0]
      ∧ region (apply_writes init_header
            (header_writes p m u g s t un gn ++ [(148, List.replicate 8 32)])) 263 2
          = [48, 48]
      ∧ region (apply_writes init_header
            (header_writes p m u g s t un gn ++ [(148, List.replicate 8 32)])) 345 167
          = List.replicate 167 0 := by
  have hi := init_header_length
  refine ⟨?_, ?_, ?_, ?_, ?_, ?_, ?_, ?_, ?_⟩
  · apply apply_writes_length _ _ hi
    intro w hw
    simp only [header_writes, List.mem_cons, List.mem_singleton, List.not_mem_nil,
      or_false] at hw
    rcases hw with rfl | rfl | rfl | rfl | rfl | rfl | rfl | rfl | rfl | rfl | rfl
    all_goals (simp only [List.length_cons, List.length_nil]; omega)
  · apply apply_writes_length _ _ hi
    intro w hw
    simp only [header_writes, List.cons_append, List.nil_append, List.mem_cons,
      List.mem_singleton, List.not_mem_nil, or_false] at hw
    rcases hw with rfl | rfl | rfl | rfl | rfl | rfl | rfl | rfl | rfl | rfl | rfl | rfl
    all_goals (simp only [List.length_cons, List.length_nil, List.length_replicate]; omega)
  · -- name: written first, never touched again
    have h0 : region (memcpy init_header 0 p) 0 100 = p ++ List.replicate (100 - p.length) 0 := by
      simp only [region, List.drop_zero]
      rw [memcpy_init_header_zero p, List.take_append_eq_append_take,
        List.take_of_length_le hp, List.take_replicate]
      congr 2
      omega
    rw [← h0]
    have hsplit : header_writes p m u g s t un gn ++ [(148, List.replicate 8 32)]
        = (0, p) :: [(100, m), (108, u), (116, g), (124, s), (136, t), (156, [48]),
            (257, [117, 115, 116, 97, 114, 0]), (263, [48, 48, 0]), (265, un), (297, gn),
            (148, List.replicate 8 32)] := rfl
    rw [hsplit, apply_writes_cons]
    apply apply_writes_frame
    · rw [memcpy_length _ _ _ (by dsimp only; rw [hi]; omega)]; exact hi
    · intro w hw
      simp only [List.cons_append, List.nil_append, List.mem_cons, List.mem_singleton,
        List.not_mem_nil, or_false] at hw
      rcases hw with rfl | rfl | rfl | rfl | rfl | rfl | rfl | rfl | rfl | rfl | rfl
      all_goals (simp only [List.length_cons, List.length_nil, List.length_replicate]; omega)
  · -- first byte of the uid field
    have hsplit : header_writes p m u g s t un gn ++ [(148, List.replicate 8 32)]
        = [(0, p), (100, m)] ++ (108, u) ::
      [(116, g), (124, s), (136, t), (156, [48]), (257, [117, 115, 116, 97, 114, 0]),
        (263, [48, 48, 0]), (265, un), (297, gn), (148, List.replicate 8 32)] := rfl
    rw [hsplit]
    apply apply_writes_last _ _ _ _ _ _ hi
    · intro w hw
      simp only [List.mem_cons, List.mem_singleton, List.not_mem_nil, or_false] at hw
      rcases hw with rfl | rfl
      all_goals (dsimp only; omega)
    · omega
    · omega
    · intro w hw
      simp only [List.mem_cons, List.mem_singleton, List.not_mem_nil, or_false] at hw
      rcases hw with rfl | rfl | rfl | rfl | rfl | rfl | rfl | rfl | rfl
      all_goals (simp only [List.length_cons, List.length_nil, List.length_replicate]; omega)
  · -- size
    have hs12 : s.take 12 = s := List.take_of_length_le (by omega)
    refine Eq.trans ?_ hs12
    have hsplit : header_writes p m u g s t un gn ++ [(148, List.replicate 8 32)]
        = [(0, p), (100, m), (108, u), (116, g)] ++ (124, s) ::
      [(136, t), (156, [48]), (257, [117, 115, 116, 97, 114, 0]),
        (263, [48, 48, 0]), (265, un), (297, gn), (148, List.replicate 8 32)] := rfl
    rw [hsplit]
    apply apply_writes_last _ _ _ _ _ _ hi
    · intro w hw
      simp only [List.mem_cons, List.mem_singleton, List.not_mem_nil, or_false] at hw
      rcases hw with rfl | rfl | rfl | rfl
      all_goals (dsimp only; omega)
    · omega
    · omega
    · intro w hw
      simp only [List.mem_cons, List.mem_singleton, List.not_mem_nil, or_false] at hw
      rcases hw with rfl | rfl | rfl | rfl | rfl | rfl | rfl
      all_goals (simp only [List.length_cons, List.length_nil, List.length_replicate]; omega)
  · -- typeflag
    have hsplit : header_writes p m u g s t un gn ++ [(148, List.replicate 8 32)]
        = [(0, p), (100, m), (108, u), (116, g), (124, s), (136, t)] ++ (156, [48]) ::
      [(257, [117, 115, 116, 97, 114, 0]),
        (263, [48, 48, 0]), (265, un), (297, gn), (148, List.replicate 8 32)] := rfl
    rw [hsplit]
    show region _ 156 1 = List.take 1 [48]
    apply apply_writes_last _ _ _ _ _ _ hi
    · intro w hw
      simp only [List.mem_cons, List.mem_singleton, List.not_mem_nil, or_false] at hw
      rcases hw with rfl | rfl | rfl | rfl | rfl | rfl
      all_goals (dsimp only; omega)
    · simp
    · simp
    · intro w hw
      simp only [List.mem_cons, List.mem_singleton, List.not_mem_nil, or_false] at hw
      rcases hw with rfl | rfl | rfl | rfl | rfl
      all_goals (simp only [List.length_cons, List.length_nil, List.length_replicate]; omega)
  · -- magic
    have hsplit : header_writes p m u g s t un gn ++ [(148, List.replicate 8 32)]
        = [(0, p), (100, m), (108, u), (116, g), (124, s), (136, t), (156, [48])]
        ++ (257, [117, 115, 116, 97, 114, 0]) ::
      [(263, [48, 48, 0]), (265, un), (297, gn), (148, List.replicate 8 32)] := rfl
    rw [hsplit]
    show region _ 257 6 = List.take 6 [117, 115, 116, 97, 114, 0]
    apply apply_writes_last _ _ _ _ _ _ hi
    · intro w hw
      simp only [List.mem_cons, List.mem_singleton, List.not_mem_nil, or_false] at hw
      rcases hw with rfl | rfl | rfl | rfl | rfl | rfl | rfl
      all_goals (simp only [List.length_cons, List.length_nil]; omega)
    · simp
    · simp
    · intro w hw
      simp only [List.mem_cons, List.mem_singleton, List.not_mem_nil, or_false] at hw
      rcases hw with rfl | rfl | rfl | rfl
      all_goals (simp only [List.length_cons, List.length_nil, List.length_replicate]; omega)
  · -- version
    have hsplit : header_writes p m u g s t un gn ++ [(148, List.replicate 8 32)]
        = [(0, p), (100, m), (108, u), (116, g), (124, s), (136, t), (156, [48]),
          (257, [117, 115, 116, 97, 114, 0])] ++ (263, [48, 48, 0]) ::
      [(265, un), (297, gn), (148, List.replicate 8 32)] := rfl
    rw [hsplit]
    show region _ 263 2 = List.take 2 [48, 48, 0]
    apply apply_writes_last _ _ _ _ _ _ hi
    · intro w hw
      simp only [List.mem_cons, List.mem_singleton, List.not_mem_nil, or_false] at hw
      rcases hw with rfl | rfl | rfl | rfl | rfl | rfl | rfl | rfl
      all_goals (simp only [List.length_cons, List.length_nil]; omega)
    · simp
    · simp
    · intro w hw
      simp only [List.mem_cons, List.mem_singleton, List.not_mem_nil, or_false] at hw
      rcases hw with rfl | rfl | rfl
      all_goals (simp only [List.length_cons, List.length_nil, List.length_replicate]; omega)
  · -- prefix and unused: never written
    rw [← region_init_header_tail]
    apply apply_writes_frame _ _ _ _ hi
    intro w hw
    simp only [header_writes, List.cons_append, List.nil_append, List.mem_cons,
      List.mem_singleton, List.not_mem_nil, or_false] at hw
    rcases hw with rfl | rfl | rfl | rfl | rfl | rfl | rfl | rfl | rfl | rfl | rfl | rfl
    all_goals (simp only [List.length_cons, List.length_nil, List.length_replicate]; omega)

theorem octal_char_high_bit (d : Nat) : octal_char d &&& 0x80 = 0 := by
  have h1 : octal_char d = octal_char (d % 8) := by
    simp [octal_char]
  have h2 : d % 8 < 8 := Nat.mod_lt d (by decide)
  rw [h1]
  generalize d % 8 = k at h2
  interval_cases k <;> decide

theorem octal_fixed_head (w v : Nat) :
    ∃ d ds, octal_fixed (w + 1) v = d :: ds ∧ is_octal_digit d = true ∧ d &&& 0x80 = 0 := by
  induction w generalizing v with
  | zero =>
    exact ⟨octal_char v, [], by simp [octal_fixed], octal_char_digit v, octal_char_high_bit v⟩
  | succ w ih =>
    obtain ⟨d, ds, h1, h2, h3⟩ := ih (v / 8)
    refine ⟨d, ds ++ [octal_char v], ?_, h2, h3⟩
    rw [octal_fixed, h1]
    rfl

theorem strncpy_bytes_length (src : List Byte) (n : Nat) : (strncpy_bytes src n).length = n := by
  simp only [strncpy_bytes, List.length_append, List.length_replicate, List.length_take]
  omega

theorem set_eq_memcpy (m : List Byte) (i : Nat) (c : Byte) (hi : i < m.length) :
    m.set i c = memcpy m i [c] := by
  rw [List.set_eq_take_cons_drop c hi]
  simp [memcpy]

theorem regular_not_dir_lnk (mode : Nat) (h : S_ISREG mode = true) :
    S_ISDIR mode = false ∧ S_ISLNK mode = false := by
  simp only [S_ISREG, beq_iff_eq] at h
  simp [S_ISDIR, S_ISLNK, h]

/-- The header that `populate_header_from_file` writes for a regular file with a name of
at most 100 bytes and a size below 8^11: the sequence `header_writes`, then the checksum. -/
theorem populate_header_regular (p : List Byte) (info : FileInfo) (st : Stat)
    (un gn : List Byte) (hst : info.lstat = some st) (hreg : S_ISREG st.st_mode = true)
    (hp : p.length ≤ 100) (hpw : info.pw_name = some un) (hgr : info.gr_name = some gn)
    (hsize : to_ulong st.st_size < 8 ^ 11) :
    ∃ u g t : List Byte, u.length = 8 ∧ g.length = 8 ∧ t.length ≤ 23
      ∧ ((st.st_uid ≤ 0o7777777 ∨ to_int32 st.st_uid < 0) → u.getD 0 0 &&& 0x80 = 0)
      ∧ populate_header_from_file p info init_header
          = some (populate_chksum (apply_writes init_header
              (header_writes p (octal_fixed 7 (st.st_mode &&& 0o7777) ++ [0]) u g
                (octal_fixed 11 (to_ulong st.st_size) ++ [0]) t
                (strncpy_bytes un (32 - 1)) (strncpy_bytes gn (32 - 1))))) := by
  have hi := init_header_length
  have hmode : st.st_mode &&& 0o7777 < 8 ^ 7 := by
    have h1 : st.st_mode &&& 0o7777 ≤ 0o7777 := Nat.and_le_right
    have h2 : (8 : Nat) ^ 7 = 2097152 := by norm_num
    omega
  have hM : (octal_fixed 7 (st.st_mode &&& 0o7777) ++ [0]).length = 8 := by
    simp [octal_fixed_length]
  have hS : (octal_fixed 11 (to_ulong st.st_size) ++ [0]).length = 12 := by
    simp [octal_fixed_length]
  -- name and mode
  have l2 : (apply_writes init_header
      [(0, p), (100, octal_fixed 7 (st.st_mode &&& 0o7777) ++ [0])]).length = 512 := by
    apply apply_writes_length _ _ hi
    intro w hw
    simp only [List.mem_cons, List.mem_singleton, List.not_mem_nil, or_false] at hw
    rcases hw with rfl | rfl
    all_goals (dsimp only; omega)
  obtain ⟨u, g, hu, hg, hug, _, hu2, hu3, _⟩ := populate_uid_gid_eq st _ l2
  refine ⟨u, g, sprintf_octal 11 (to_ulong st.st_mtime), hu, hg,
    sprintf_octal_length_le 11 _ (by omega), ?_, ?_⟩
  · -- the first byte of the uid field has its high bit clear
    rintro (hsmall | hneg)
    · obtain ⟨d, ds, h1, _, h3⟩ := octal_fixed_head 6 st.st_uid
      rw [hu3 hsmall, h1]
      simpa using h3
    · by_cases hsmall : st.st_uid ≤ 0o7777777
      · obtain ⟨d, ds, h1, _, h3⟩ := octal_fixed_head 6 st.st_uid
        rw [hu3 hsmall, h1]
        simpa using h3
      · have hz : region (apply_writes init_header
            [(0, p), (100, octal_fixed 7 (st.st_mode &&& 0o7777) ++ [0])]) 108 8
            = region init_header 108 8 := by
          apply apply_writes_frame _ _ _ _ hi
          intro w hw
          simp only [List.mem_cons, List.mem_singleton, List.not_mem_nil, or_false] at hw
          rcases hw with rfl | rfl
          all_goals (dsimp only; omega)
        have hz2 : region init_header 108 8 = List.replicate 8 0 := by
          simp only [region, init_header_eq, List.drop_replicate, List.take_replicate]
          rfl
        have := hu2 (by omega) hneg
        rw [show (List.drop 108 (apply_writes init_header
            [(0, p), (100, octal_fixed 7 (st.st_mode &&& 0o7777) ++ [0])])).take 8
              = List.replicate 8 0 from hz.trans hz2] at this
        rw [this]
        decide
  · -- the chain of writes
    have l6 : (apply_writes init_header
        [(0, p), (100, octal_fixed 7 (st.st_mode &&& 0o7777) ++ [0]), (108, u), (116, g),
          (124, octal_fixed 11 (to_ulong st.st_size) ++ [0]),
          (136, sprintf_octal 11 (to_ulong st.st_mtime))]).length = 512 := by
      have ht := sprintf_octal_length_le 11 (to_ulong st.st_mtime) (by omega)
      apply apply_writes_length _ _ hi
      intro w hw
      simp only [List.mem_cons, List.mem_singleton, List.not_mem_nil, or_false] at hw
      rcases hw with rfl | rfl | rfl | rfl | rfl | rfl
      all_goals (dsimp only; omega)
    obtain ⟨hnd, hnl⟩ := regular_not_dir_lnk st.st_mode hreg
    simp only [apply_writes, header_writes, List.foldl_cons, List.foldl_nil] at l2 hug l6 ⊢
    simp only [populate_header_from_file, hst, populate_name_short p _ hp, OFF_MODE,
      sprintf_octal_eq 7 _ (by omega) hmode, hug, populate_size, hnd, hnl, Bool.or_self,
      Bool.false_eq_true, if_false, OFF_SIZE, sprintf_octal_eq 11 _ (by omega) hsize,
      OFF_MTIME, populate_type_linkname, OFF_TYPEFLAG,
      OFF_MAGIC, OFF_VERSION, populate_uname_gname, hpw, hgr, OFF_UNAME, OFF_GNAME]
    rw [set_eq_memcpy _ 156 48 (by rw [l6]; omega)]

/-! ## The header of an entry, as the reader sees it -/

theorem to_ulong_natCast (n : Nat) (h : n < 2 ^ 64) : to_ulong (n : Int) = n := by
  simp only [to_ulong]
  have : ((n : Int) % 2 ^ 64) = (n : Int) := Int.emod_eq_of_lt (by omega) (by omega)
  rw [this]
  simp

theorem strtol_no_digits_digit (d : Byte) (rest : List Byte) (h : is_octal_digit d = true) :
    strtol_no_digits (d :: rest) = false := by
  obtain ⟨h1, h2, h3⟩ := digit_not_space d h
  simp [strtol_no_digits, List.dropWhile_cons, h1, h2, h3, h]

theorem getD_of_getElem? (l m : List Byte) (i : Nat) (h : l[i]? = m[i]?) :
    l.getD i 0 = m.getD i 0 := by
  simp only [List.getD_eq_getElem?_getD, h]

/-- The header written for a regular-file entry has every property the reader uses. -/
theorem entry_header_ok (f : FileArg) (strict : Bool) (hf : regular_file_arg f)
    (hs : strict = true → uid_not_escaped f) :
    ∃ hdr kept, populate_header_from_file f.path f.info init_header = some hdr
      ∧ HeaderFor hdr kept f.path f.content.length strict := by
  obtain ⟨hp1, hp100, hnul, _, hn, st, un, gn, hst, hreg, hsz, hpw, hgr⟩ := hf
  have h811 : (8 : Nat) ^ 11 = 8589934592 := by norm_num
  have hsize : to_ulong st.st_size = f.content.length := by
    rw [hsz]; exact to_ulong_natCast _ (by omega)
  obtain ⟨u, g, t, hu, hg, ht, huid, hpop⟩ :=
    populate_header_regular f.path f.info st un gn hst hreg hp100 hpw hgr (by rw [hsize]; exact hn)
  rw [hsize] at hpop
  have hM : (octal_fixed 7 (st.st_mode &&& 0o7777) ++ [0]).length = 8 := by
    simp [octal_fixed_length]
  have hS : (octal_fixed 11 f.content.length ++ [0]).length = 12 := by
    simp [octal_fixed_length]
  obtain ⟨l9, lB, rname, ruid, rsize, rtype, rmagic, rver, rtail⟩ :=
    header_layout f.path (octal_fixed 7 (st.st_mode &&& 0o7777) ++ [0]) u g
      (octal_fixed 11 f.content.length ++ [0]) t (strncpy_bytes un (32 - 1))
      (strncpy_bytes gn (32 - 1)) hp100 hM hu hg hS ht (strncpy_bytes_length _ _)
      (strncpy_bytes_length _ _)
  -- abbreviations: the record before the checksum and the record the reader keeps
  generalize hH9 : apply_writes init_header
      (header_writes f.path (octal_fixed 7 (st.st_mode &&& 0o7777) ++ [0]) u g
        (octal_fixed 11 f.content.length ++ [0]) t (strncpy_bytes un (32 - 1))
        (strncpy_bytes gn (32 - 1))) = H9 at hpop l9
  have hB : apply_writes init_header
      (header_writes f.path (octal_fixed 7 (st.st_mode &&& 0o7777) ++ [0]) u g
        (octal_fixed 11 f.content.length ++ [0]) t (strncpy_bytes un (32 - 1))
        (strncpy_bytes gn (32 - 1)) ++ [(148, List.replicate 8 32)]) = memset H9 148 32 8 := by
    rw [apply_writes_append, hH9]
    rfl
  rw [hB] at lB rname ruid rsize rtype rmagic rver rtail
  generalize hBdef : memset H9 148 32 8 = B at lB rname ruid rsize rtype rmagic rver rtail
  have hBm : B = memcpy H9 148 (List.replicate 8 32) := by rw [← hBdef]; rfl
  refine ⟨populate_chksum H9, B, hpop, ?_⟩
  have hvalid := is_valid_checksum_populate_chksum H9 l9
  rw [hBdef] at hvalid
  have hlen := populate_chksum_length H9 l9
  -- the first byte is the first byte of the name, which is not NUL
  obtain ⟨c, cs, hpc⟩ : ∃ c cs, f.path = c :: cs := by
    cases hpath : f.path with
    | nil => rw [hpath] at hp1; simp at hp1
    | cons c cs => exact ⟨c, cs, rfl⟩
  have hc0 : c ≠ 0 := hnul c (by rw [hpc]; simp)
  have hB0 : B.getD 0 0 = c := by
    have := region_getD B 0 100 0 _ rname (by rw [hpc]; simp)
    rw [this, hpc]
    rfl
  have hH0 : (populate_chksum H9).getD 0 0 = c := by
    rw [← hB0]
    apply getD_of_getElem?
    rw [populate_chksum_getElem?_outside H9 l9 0 (Or.inl (by omega)), hBm,
      memcpy_getElem?_lt _ _ _ _ (by omega) (by omega)]
  have hB156 : B.getD 156 0 = 48 := by
    have := region_getD B 156 1 0 _ rtype (by simp)
    simpa using this
  have hH156 : (populate_chksum H9).getD 156 0 = 48 := by
    rw [← hB156]
    apply getD_of_getElem?
    rw [populate_chksum_getElem?_outside H9 l9 156 (Or.inr (by omega)), hBm,
      memcpy_getElem?_ge _ _ _ _ (by simp) (by omega)]
  refine ⟨hlen, ?_, hvalid, hH156, ?_, hB156, ?_, ?_, ?_, ?_, ?_⟩
  · -- not the end marker
    simp only [is_end_of_archive, HEADER_SIZE, decide_eq_false_iff_not]
    intro heq
    rw [List.take_of_length_le (by omega)] at heq
    rw [heq] at hH0
    apply hc0
    rw [← hH0, List.getD_eq_getElem?_getD, List.getElem?_replicate]
    rfl
  · -- the name
    apply extract_name_no_prefix B f.path hnul hp100
    · simpa [region] using rname
    · have := region_drop B 345 167
      have hd : B.drop (345 + 167) = [] := List.drop_of_length_le (by omega)
      rw [rtail, hd, List.append_nil] at this
      rw [this]
      simpa using cstr_replicate_zero 167 [] (by omega)
  · -- the size field parses to the length of the content
    have := region_drop B 124 12
    rw [rsize] at this
    rw [this, List.append_assoc, List.singleton_append]
    exact strtol_octal_fixed 11 _ _ hn (by omega)
  · have := region_drop B 124 12
    rw [rsize] at this
    obtain ⟨d, ds, h1, h2, _⟩ := octal_fixed_head 10 f.content.length
    rw [this, h1]
    exact strtol_no_digits_digit d _ h2
  · -- magic
    have := region_drop B 257 6
    rw [rmagic] at this
    rw [this]
    show cstr ([117, 115, 116, 97, 114] ++ (0 : Byte) :: _) = _
    rw [cstr_append _ _ (by simp), cstr_zero, List.append_nil]
  · -- version
    have h0 := region_getD B 263 2 0 _ rver (by simp)
    have h1 := region_getD B 263 2 1 _ rver (by simp)
    exact ⟨by simpa using h0, by simpa using h1⟩
  · -- uid
    intro hstrict
    have h0 := region_getD B 108 1 0 _ ruid (by simp [hu])
    have hcond := huid (hs hstrict st hst)
    obtain ⟨x, xs, hux⟩ : ∃ x xs, u = x :: xs := by
      cases hu' : u with
      | nil => rw [hu'] at hu; simp at hu
      | cons x xs => exact ⟨x, xs, rfl⟩
    rw [hux] at h0 hcond
    simp only [Nat.add_zero, List.take_succ_cons, List.take_zero, List.getD_cons_zero] at h0 hcond
    rw [h0]
    exact hcond

/-! ## The reader on one entry -/

/-- On a source positioned at a header written for an entry, `reader_cycle_entry`
returns 1, moves on by 512 bytes and keeps the record with its chksum field blanked. -/
theorem reader_cycle_entry_header (r : Reader) (hdr kept p tail : List Byte) (n : Nat)
    (hH : HeaderFor hdr kept p n r.is_strict) (hsrc : r.archive.drop r.pos = hdr ++ tail) :
    reader_cycle_entry r
      = some (1, { r with pos := r.pos + 512, current_entry := some kept }) := by
  have htake : (r.archive.drop r.pos).take 512 = hdr := by
    rw [hsrc]; exact List.take_left' hH.length_eq
  simp only [reader_cycle_entry, HEADER_SIZE, htake, hH.length_eq, Nat.lt_irrefl, if_false,
    hH.not_end, Bool.false_eq_true, hH.valid, Bool.not_true, OFF_MAGIC, hH.magic_ok,
    OFF_VERSION, hH.version_ok.1, hH.version_ok.2, bne_self_eq_false, Bool.or_self,
    Bool.and_false]

/-- On a source positioned at the end marker, `reader_cycle_entry` returns 0. -/
theorem reader_cycle_entry_end (r : Reader) (tail : List Byte)
    (hsrc : r.archive.drop r.pos = List.replicate 512 0 ++ tail) :
    reader_cycle_entry r = some (0, { r with pos := r.pos + 512, current_entry := none }) := by
  have htake : (r.archive.drop r.pos).take 512 = List.replicate 512 0 := by
    rw [hsrc]; exact List.take_left' (List.length_replicate _ _)
  have hend : is_end_of_archive (List.replicate 512 0) = true := by
    simp only [is_end_of_archive, HEADER_SIZE, decide_eq_true_eq]
    exact List.take_of_length_le (by rw [List.length_replicate])
  simp only [reader_cycle_entry, HEADER_SIZE, htake, List.length_replicate, Nat.lt_irrefl,
    if_false, hend, if_true]

theorem translate_loop_done (delta size fuel : Nat) (r : Reader) :
    translate_loop delta size (fuel + 1) size r = some r := by
  simp [translate_loop]

/-- The loop of `reader_translate_to_file` over the `m + 1` blocks still to be handled,
the last of which holds `delta` bytes of padding that are not read. -/
theorem translate_loop_blocks (delta size : Nat) (hdelta : delta < 512) (m : Nat) :
    ∀ (fuel handeled : Nat) (r : Reader) (rem tail : List Byte),
      rem.length + delta = 512 * (m + 1) → handeled + 512 * (m + 1) = size →
      r.archive.drop r.pos = rem ++ tail → m + 1 < fuel →
      translate_loop delta size fuel handeled r
        = some { r with pos := r.pos + rem.length, dst := r.dst ++ rem } := by
  induction m with
  | zero =>
    intro fuel handeled r rem tail hrem hsize hsrc hfuel
    obtain ⟨f, rfl⟩ : ∃ f, fuel = f + 1 + 1 := ⟨fuel - 2, by omega⟩
    have hne : handeled ≠ size := by omega
    have hlast : handeled + 512 = size := by omega
    have hlen : rem.length = 512 - delta := by omega
    have hdata : (r.archive.drop r.pos).take (512 - delta) = rem := by
      rw [hsrc]; exact List.take_left' hlen
    rw [translate_loop]
    simp only [USTAR_BLOCK, if_neg hne, hlast, if_true, hdata, hlen, Nat.lt_irrefl, if_false]
    exact translate_loop_done delta size f _
  | succ m ih =>
    intro fuel handeled r rem tail hrem hsize hsrc hfuel
    obtain ⟨f, rfl⟩ : ∃ f, fuel = f + 1 := ⟨fuel - 1, by omega⟩
    have hne : handeled ≠ size := by omega
    have hnl : handeled + 512 ≠ size := by omega
    have h512 : 512 ≤ rem.length := by omega
    have hdata : (r.archive.drop r.pos).take 512 = rem.take 512 := by
      rw [hsrc, List.take_append_of_le_length h512]
    have hdl : (rem.take 512).length = 512 := by
      rw [List.length_take]; omega
    rw [translate_loop]
    simp only [USTAR_BLOCK, if_neg hne, if_neg hnl, hdata, hdl, Nat.lt_irrefl, if_false]
    rw [ih f (handeled + 512) _ (rem.drop 512) tail (by rw [List.length_drop]; omega)
      (by omega) ?_ (by omega)]
    · have hpos : r.pos + 512 + (rem.length - 512) = r.pos + rem.length := by omega
      simp only [List.length_drop, List.append_assoc, List.take_append_drop, hpos]
    · show r.archive.drop (r.pos + 512) = _
      rw [← List.drop_drop, hsrc, List.drop_append_of_le_length h512]

/-- With the size field holding the length of `c` and the source positioned at `c` and
its padding, `reader_translate_to_file` writes exactly `c` and stops after the padding. -/
theorem reader_translate_content (r : Reader) (kept c tail : List Byte)
    (hcur : r.current_entry = some kept) (hsize : strtol (kept.drop 124) = (c.length : Int))
    (hdig : strtol_no_digits (kept.drop 124) = false) (hn : c.length < 8 ^ 11)
    (hsrc : r.archive.drop r.pos = pad_to_block c ++ tail) :
    reader_translate_to_file r
      = some { r with pos := r.pos + (pad_to_block c).length, dst := r.dst ++ c } := by
  have h811 : (8 : Nat) ^ 11 = 8589934592 := by norm_num
  have hpadlen : (pad_to_block c).length = c.length + (512 - c.length % 512) % 512 := by
    simp [pad_to_block]
  have hnn : ¬ ((c.length : Int) < 0) := by omega
  simp only [reader_translate_to_file, hcur, OFF_SIZE, hsize, hdig, Bool.false_eq_true,
    if_false, hnn, Int.toNat_ofNat, USTAR_BLOCK]
  by_cases hmod : c.length % 512 = 0
  · have hpad0 : pad_to_block c = c := by
      simp [pad_to_block, hmod]
    have hmax : ¬ ((((c.length + 0 : Nat)) : Int) > LONG_MAX) := by
      simp only [LONG_MAX]; omega
    simp only [hmod, ne_eq, not_true_eq_false, if_false, hmax, Nat.add_zero]
    by_cases hzero : c.length = 0
    · have hc : c = [] := List.length_eq_zero.mp hzero
      subst hc
      have hLM : (0 : Int) ≤ LONG_MAX := by simp only [LONG_MAX]; omega
      simp [translate_loop_done, pad_to_block, hLM, hcur]
    · obtain ⟨m, hm⟩ : ∃ m, c.length = 512 * (m + 1) := ⟨c.length / 512 - 1, by omega⟩
      rw [translate_loop_blocks 0 c.length (by omega) m _ 0 r c tail (by omega) (by omega)
        (by rw [hsrc, hpad0]) (by omega)]
      have hLM : (c.length : Int) ≤ LONG_MAX := by simp only [LONG_MAX]; omega
      simp [hpad0, hLM, hcur]
  · have hd : (512 - c.length % 512) % 512 = 512 - c.length % 512 :=
      Nat.mod_eq_of_lt (by omega)
    have hmax : ¬ ((((c.length + (512 - c.length % 512) : Nat)) : Int) > LONG_MAX) := by
      simp only [LONG_MAX]; omega
    obtain ⟨m, hm⟩ : ∃ m, c.length + (512 - c.length % 512) = 512 * (m + 1) :=
      ⟨c.length / 512, by omega⟩
    simp only [hmod, ne_eq, not_false_eq_true, if_true, hmax, if_false]
    rw [translate_loop_blocks (512 - c.length % 512) _ (by omega) m _ 0 r c
      (List.replicate (512 - c.length % 512) 0 ++ tail) hm (by omega)
      (by rw [hsrc, pad_to_block, hd, List.append_assoc]) (by omega)]
    simp only [hpadlen, hd, Option.some.injEq]
    congr 1
    omega

/-- Strict or not, `extract_path` on a regular-file entry passes the content to `write`
under the name of the entry and leaves the source after the padding; unless the name
starts with `'/'`, the content goes to a file created under that name. -/
theorem extract_path_regular (strict : Bool) (r : Reader) (hdr kept p c tail : List Byte)
    (fs : List FsEvent) (hH : HeaderFor hdr kept p c.length strict)
    (hcur : r.current_entry = some kept) (hp : 1 ≤ p.length) (hlast : p.getLast? ≠ some 47)
    (hn : c.length < 8 ^ 11) (hsrc : r.archive.drop r.pos = pad_to_block c ++ tail) :
    ∃ e, extract_path strict r p fs
        = some ({ r with pos := r.pos + (pad_to_block c).length, dst := c }, fs ++ [e])
      ∧ e.written = some (p, c)
      ∧ (p.head? ≠ some 47 → e.file_pair = some (p, c)) := by
  obtain ⟨archive, pos, is_strict, cur, dst⟩ := r
  simp only at hcur hsrc
  subst hcur
  have hguard : (strict && (kept.getD OFF_UID 0 &&& 0x80 != 0)) = false := by
    cases strict with
    | false => rfl
    | true =>
      have := hH.uid_plain rfl
      simp only [OFF_UID, this, bne_self_eq_false, Bool.and_false]
  have htr := reader_translate_content
    { archive := archive, pos := pos, is_strict := is_strict, current_entry := some kept,
      dst := [] } kept c tail rfl hH.size_eq hH.size_digits hn hsrc
  simp only [List.nil_append] at htr
  have h0 : ¬ p.length = 0 := by omega
  have h50 : ¬ ((48 : Byte) = 50) := by decide
  by_cases hroot : p.head? = some 47
  · have hmade : path_to_filesystem p kept = (none, false) := by
      simp only [path_to_filesystem, h0, if_false, hroot, if_true]
    refine ⟨FsEvent.nofile p c, ?_, rfl, fun h => absurd hroot h⟩
    simp only [extract_path, hguard, Bool.false_eq_true, if_false, OFF_TYPEFLAG,
      hH.typeflag_kept, true_or, if_true, hmade, htr]
  · have hmade : path_to_filesystem p kept
        = (some (FsEvent.mkfile p (open_mode kept) []), true) := by
      simp only [path_to_filesystem, h0, if_false, hroot, ne_eq, hlast, not_false_eq_true,
        if_true, OFF_TYPEFLAG, hH.typeflag_kept, h50]
    refine ⟨FsEvent.mkfile p (open_mode kept) c, ?_, rfl, fun _ => rfl⟩
    simp only [extract_path, hguard, Bool.false_eq_true, if_false, OFF_TYPEFLAG,
      hH.typeflag_kept, true_or, if_true, hmade, htr]

/-- One turn of the loop of `traverse_execute_archive` on a regular-file entry. -/
theorem traverse_loop_entry (strict : Bool) (fuel : Nat) (r : Reader)
    (hdr kept p c tail : List Byte) (fs : List FsEvent) (hstrict : r.is_strict = strict)
    (hH : HeaderFor hdr kept p c.length strict) (hp : 1 ≤ p.length)
    (hlast : p.getLast? ≠ some 47) (hn : c.length < 8 ^ 11)
    (hsrc : r.archive.drop r.pos = hdr ++ (pad_to_block c ++ tail)) :
    ∃ e, traverse_loop (extract_path strict) [] (fuel + 1) r fs
        = traverse_loop (extract_path strict) [] fuel
            { r with pos := r.pos + 512 + (pad_to_block c).length, current_entry := some kept,
                     dst := c }
            (fs ++ [e])
      ∧ e.written = some (p, c)
      ∧ (p.head? ≠ some 47 → e.file_pair = some (p, c)) := by
  have hcyc := reader_cycle_entry_header r hdr kept p (pad_to_block c ++ tail) c.length
    (by rw [hstrict]; exact hH) hsrc
  have hsrc2 : ({ r with pos := r.pos + 512, current_entry := some kept } : Reader).archive.drop
      ({ r with pos := r.pos + 512, current_entry := some kept } : Reader).pos
        = pad_to_block c ++ tail := by
    show r.archive.drop (r.pos + 512) = _
    rw [← List.drop_drop, hsrc, List.drop_left' hH.length_eq]
  obtain ⟨e, hext, hw, hfp⟩ := extract_path_regular strict
    { r with pos := r.pos + 512, current_entry := some kept } hdr kept p c tail fs hH rfl hp
    hlast hn hsrc2
  have h10 : ¬ ((1 : Int) = 0) := by decide
  have h1m : ¬ ((1 : Int) = -1) := by decide
  refine ⟨e, ?_, hw, hfp⟩
  rw [traverse_loop]
  simp only [hcyc, h10, h1m, if_false, Option.getD_some, hH.name_eq, List.length_nil, ne_eq,
    not_true_eq_false, hext]

theorem entry_bytes_eq (f : FileArg) (hdr : List Byte)
    (h : populate_header_from_file f.path f.info init_header = some hdr) :
    entry_bytes f = hdr ++ pad_to_block f.content := by
  simp only [entry_bytes, h, Option.getD_some]

/-- The reader loop over the entries of an archive and its end marker. -/
theorem traverse_loop_archive (strict : Bool) : ∀ (files : List FileArg) (fuel : Nat)
    (r : Reader) (fs : List FsEvent),
    (∀ f ∈ files, regular_file_arg f) → (strict = true → ∀ f ∈ files, uid_not_escaped f) →
    r.is_strict = strict → r.archive.drop r.pos = archive_bytes files → files.length < fuel →
    ∃ r1 fs1, traverse_loop (extract_path strict) [] fuel r fs = some (r1, fs ++ fs1)
      ∧ fs1.map FsEvent.written = files.map (fun f => some (f.path, f.content))
      ∧ ((∀ f ∈ files, f.path.head? ≠ some 47) →
          fs1.map FsEvent.file_pair = files.map (fun f => some (f.path, f.content)))
      ∧ r1.pos + 512 = r.pos + (archive_bytes files).length
      ∧ r1.archive = r.archive := by
  intro files
  induction files with
  | nil =>
    intro fuel r fs _ _ _ hsrc hfuel
    obtain ⟨f, rfl⟩ : ∃ f, fuel = f + 1 := ⟨fuel - 1, by omega⟩
    have hsplit : archive_bytes [] = List.replicate 512 0 ++ List.replicate 512 0 := by
      rw [← List.replicate_add]; rfl
    have hcyc := reader_cycle_entry_end r (List.replicate 512 0) (by rw [hsrc, hsplit])
    refine ⟨{ r with pos := r.pos + 512, current_entry := none }, [], ?_, rfl, fun _ => rfl,
      ?_, rfl⟩
    · rw [traverse_loop]
      simp only [hcyc, if_true, List.append_nil]
    · simp only [archive_bytes, List.length_replicate]
  | cons f files ih =>
    intro fuel r fs hfiles huid hstrict hsrc hfuel
    obtain ⟨fu, rfl⟩ : ∃ fu, fuel = fu + 1 := ⟨fuel - 1, by omega⟩
    have hf := hfiles f (by simp)
    obtain ⟨hdr, kept, hpop, hH⟩ := entry_header_ok f strict hf
      (fun hs => huid hs f (by simp))
    obtain ⟨hp1, _, _, hlast, hn, _⟩ := hf
    have heb := entry_bytes_eq f hdr hpop
    have hsrc1 : r.archive.drop r.pos
        = hdr ++ (pad_to_block f.content ++ archive_bytes files) := by
      rw [hsrc, archive_bytes, heb, List.append_assoc]
    obtain ⟨e, hstep, hw, hfp⟩ := traverse_loop_entry strict fu r hdr kept f.path f.content
      (archive_bytes files) fs hstrict hH hp1 hlast hn hsrc1
    rw [hstep]
    obtain ⟨r1, fs1, hrun, hfs, hfiles1, hpos, harch⟩ := ih fu
      { r with pos := r.pos + 512 + (pad_to_block f.content).length,
               current_entry := some kept, dst := f.content }
      (fs ++ [e])
      (fun g hg => hfiles g (by simp [hg]))
      (fun hs g hg => huid hs g (by simp [hg])) hstrict
      (by
        show r.archive.drop (r.pos + 512 + (pad_to_block f.content).length) = _
        rw [← List.drop_drop, ← List.drop_drop, hsrc1, List.drop_left' hH.length_eq,
          List.drop_left' rfl])
      (by simp only [List.length_cons] at hfuel; omega)
    refine ⟨r1, e :: fs1, ?_, ?_, ?_, ?_, harch⟩
    · rw [hrun, List.append_assoc, List.singleton_append]
    · simp only [List.map_cons, hw, hfs]
    · intro hroot
      simp only [List.map_cons, hfp (hroot f (by simp)),
        hfiles1 (fun g hg => hroot g (by simp [hg]))]
    · rw [hpos]
      simp only [archive_bytes, heb, List.length_append, hH.length_eq]
      omega

/-! ## The writer on a list of entries -/

theorem writer_pad_flush (w : Writer) (hoff : w.buffer_offset = 0) :
    (writer_flush (writer_pad w)).out = w.out ++ List.replicate 1024 0 := by
  have h1 : ¬ (0 + 2 > 8 - 1) := by omega
  simp only [writer_pad, hoff, NUM_HUNKS, h1, if_false, get_buffer_index, USTAR_BLOCK,
    Nat.zero_mul, writer_flush_out, memset, memcpy, List.take_zero, List.nil_append,
    List.length_replicate, Nat.zero_add, Nat.reduceMul, Nat.reduceAdd]
  rw [List.take_left' (List.length_replicate _ _)]

/-- The function `process_path` on a regular-file entry: header and padded content go to
the sink, and the buffer is empty again. -/
theorem process_path_regular (f : FileArg) (w : Writer) (hf : regular_file_arg f)
    (hoff : w.buffer_offset = 0) (hbuf : w.buf.length = 4096) :
    ∃ w1, process_path f.path f.info f.content w = some w1
      ∧ w1.out = w.out ++ entry_bytes f ∧ w1.buffer_offset = 0 ∧ w1.buf.length = 4096 := by
  obtain ⟨hdr, kept, hpop, hH⟩ := entry_header_ok f false hf (fun h => by cases h)
  have hloop := write_file_loop_flush f.content.length f.content (f.content.length + 1)
    (writer_write_header w hdr) (Nat.le_refl _) (by omega) hoff hbuf
  refine ⟨writer_flush (writer_write_file (writer_write_header w hdr) f.content), ?_, ?_, rfl,
    hloop.2⟩
  · simp only [process_path, hpop, OFF_TYPEFLAG, hH.typeflag_written, if_true]
  · have hout : (writer_write_header w hdr).out = w.out ++ hdr := by
      simp only [writer_write_header, HEADER_SIZE]
      rw [List.take_of_length_le (by rw [hH.length_eq])]
    have := hloop.1
    rw [hout] at this
    show (writer_flush (write_file_loop (f.content.length + 1) (writer_write_header w hdr)
      f.content 0)).out = _
    rw [this, entry_bytes_eq f hdr hpop, pad_to_block]
    simp only [List.append_assoc]

theorem create_entries_regular : ∀ (files : List FileArg) (w : Writer),
    (∀ f ∈ files, regular_file_arg f) → w.buffer_offset = 0 → w.buf.length = 4096 →
    ∃ w1, create_entries files w = some w1
      ∧ (writer_flush (writer_pad w1)).out = w.out ++ archive_bytes files := by
  intro files
  induction files with
  | nil =>
    intro w _ hoff hbuf
    exact ⟨w, rfl, writer_pad_flush w hoff⟩
  | cons f files ih =>
    intro w hfiles hoff hbuf
    obtain ⟨w1, hpp, hout, hoff1, hbuf1⟩ :=
      process_path_regular f w (hfiles f (by simp)) hoff hbuf
    obtain ⟨w2, hce, hout2⟩ := ih w1 (fun g hg => hfiles g (by simp [hg])) hoff1 hbuf1
    refine ⟨w2, ?_, ?_⟩
    · simp only [create_entries, hpp, hce]
    · rw [hout2, hout, archive_bytes, List.append_assoc]

theorem archive_bytes_length (files : List FileArg) (hfiles : ∀ f ∈ files, regular_file_arg f) :
    files.length ≤ (archive_bytes files).length := by
  induction files with
  | nil => simp only [List.length_nil]; omega
  | cons f files ih =>
    obtain ⟨hdr, kept, hpop, hH⟩ := entry_header_ok f false (hfiles f (by simp))
      (fun h => by cases h)
    have := ih (fun g hg => hfiles g (by simp [hg]))
    simp only [archive_bytes, entry_bytes_eq f hdr hpop, List.length_append, List.length_cons,
      hH.length_eq]
    omega

/-- C1. Archive round trip: for every finite sequence `files` of regular-file entries
(`regular_file_arg`: a path of 1 to 100 bytes without NUL that does not end in `'/'`, a
content of fewer than 8^11 bytes whose length `lstat` reports, owner and group names
found), creation (`process_path` per entry, then `writer_pad` and `writer_flush`)
returns an archive, and the reader loop on that archive (`reader_cycle_entry`,
`extract_name`, and `reader_translate_to_file` through `extract_path`) returns after
the first zero block of the end marker, having written out exactly the pairs
(path, content) of `files`, in the same order; where no path starts with `'/'`, each
pair is a file created under that path. This holds without the strict flag, and with it
when no uid is stored with the GNU escape (which strict extraction refuses). -/
theorem archive_round_trip (files : List FileArg) (buf : List Byte) (strict : Bool)
    (hbuf : buf.length = 4096) (hfiles : ∀ f ∈ files, regular_file_arg f)
    (huid : strict = true → ∀ f ∈ files, uid_not_escaped f) :
    ∃ archive r fs, create_archive files buf = some archive
      ∧ traverse_execute_archive (extract_path strict) [] (reader_init archive strict) []
          = some (r, fs)
      ∧ extract_archive archive strict [] = some fs
      ∧ fs.map FsEvent.written = files.map (fun f => some (f.path, f.content))
      ∧ ((∀ f ∈ files, f.path.head? ≠ some 47) →
          fs.map FsEvent.file_pair = files.map (fun f => some (f.path, f.content)))
      ∧ r.pos + 512 = archive.length := by
  obtain ⟨w1, hce, hout⟩ := create_entries_regular files (writer_init buf) hfiles rfl hbuf
  have harch : create_archive files buf = some (archive_bytes files) := by
    have hout2 : (writer_flush (writer_pad w1)).out = archive_bytes files := by
      rw [hout]; rfl
    simp only [create_archive, hce, hout2]
  obtain ⟨r1, fs1, hrun, hfs, hfp, hpos, _⟩ := traverse_loop_archive strict files
    ((archive_bytes files).length + 1) (reader_init (archive_bytes files) strict) [] hfiles huid
    rfl rfl (by have := archive_bytes_length files hfiles; omega)
  rw [List.nil_append] at hrun
  refine ⟨archive_bytes files, r1, fs1, harch, hrun, ?_, hfs, hfp, ?_⟩
  · have hrun2 : traverse_execute_archive (extract_path strict) []
        (reader_init (archive_bytes files) strict) [] = some (r1, fs1) := hrun
    simp only [extract_archive, hrun2]
  · simpa [reader_init] using hpos

/-- Instance of C1: the archive of the single file `f.txt`, read back in strict mode. -/
theorem archive_round_trip_witness :
    ∃ archive r fs, create_archive [sample_file] (List.replicate 4096 0) = some archive
      ∧ traverse_execute_archive (extract_path true) [] (reader_init archive true) []
          = some (r, fs)
      ∧ extract_archive archive true [] = some fs
      ∧ fs.map FsEvent.written = [sample_file].map (fun f => some (f.path, f.content))
      ∧ fs.map FsEvent.file_pair = [sample_file].map (fun f => some (f.path, f.content))
      ∧ r.pos + 512 = archive.length :=
  have ⟨archive, r, fs, h1, h2, h3, h4, h5, h6⟩ :=
    archive_round_trip [sample_file] (List.replicate 4096 0) true (List.length_replicate _ _)
      (by
        intro f hf
        rw [List.mem_singleton] at hf
        subst hf
        exact ⟨by decide, by decide, by simp [sample_file], by decide, by decide,
          _, _, _, rfl, by decide, rfl, rfl, rfl⟩)
      (by
        intro _ f hf st hst
        rw [List.mem_singleton] at hf
        subst hf
        simp only [sample_file, Option.some.injEq] at hst
        subst hst
        exact Or.inl (by decide))
  ⟨archive, r, fs, h1, h2, h3, h4,
    h5 (by
      intro f hf
      rw [List.mem_singleton] at hf
      subst hf
      decide), h6⟩

/-! ## The end of the archive -/

theorem writer_pad_of_full (w : Writer) (hk : w.buffer_offset + 2 > 7) :
    writer_pad w = writer_pad (writer_flush w) := by
  have h0 : ¬ (0 + 2 > 8 - 1) := by omega
  have h1 : w.buffer_offset + 2 > 8 - 1 := by omega
  simp only [writer_pad, NUM_HUNKS, h1, if_true, writer_flush_offset, h0, if_false]

theorem writer_pad_flush_room (w : Writer) (hk : ¬ (w.buffer_offset + 2 > 7))
    (hbuf : w.buf.length = 4096) :
    (writer_flush (writer_pad w)).out
      = w.out ++ w.buf.take (w.buffer_offset * 512) ++ List.replicate 1024 0 := by
  have h1 : ¬ (w.buffer_offset + 2 > 8 - 1) := by omega
  have hlen : (w.buf.take (w.buffer_offset * 512) ++ List.replicate 1024 (0 : Byte)).length
      = (w.buffer_offset + 2) * 512 := by
    rw [List.length_append, List.length_take, List.length_replicate]
    omega
  simp only [writer_pad, NUM_HUNKS, h1, if_false, get_buffer_index, USTAR_BLOCK,
    writer_flush_out, memset, memcpy, Nat.reduceMul, ← List.append_assoc]
  rw [List.take_left' hlen, List.append_assoc]

/-- C11. For every `buffer_offset` k in 0..7, `writer_pad` followed by `writer_flush`
sends to the output the k buffered blocks unchanged (k * 512 bytes) and then 1024 zero
bytes, nothing else, and leaves the buffer empty; an archive created from zero entries
is exactly 1024 zero bytes. -/
theorem writer_pad_then_flush (w : Writer) (hk : w.buffer_offset ≤ 7)
    (hbuf : w.buf.length = 4096) :
    (writer_flush (writer_pad w)).out
        = w.out ++ w.buf.take (w.buffer_offset * USTAR_BLOCK) ++ List.replicate 1024 0
      ∧ (w.buf.take (w.buffer_offset * USTAR_BLOCK)).length = w.buffer_offset * 512
      ∧ (writer_flush (writer_pad w)).buffer_offset = 0
      ∧ ∀ buf, create_archive [] buf = some (List.replicate 1024 0) := by
  refine ⟨?_, ?_, rfl, ?_⟩
  · by_cases h : w.buffer_offset + 2 > 7
    · rw [writer_pad_of_full w h, writer_pad_flush (writer_flush w) rfl, writer_flush_out]
    · exact writer_pad_flush_room w h hbuf
  · rw [List.length_take, hbuf]
    simp only [USTAR_BLOCK]
    omega
  · intro buf
    have := writer_pad_flush (writer_init buf) rfl
    simp only [create_archive, create_entries, this]
    rfl

theorem writer_pad_then_flush_witness :
    (writer_flush (writer_pad
        { buf := List.replicate 4096 7, buffer_offset := 6, out := [1] })).out
      = [1] ++ List.replicate 3072 7 ++ List.replicate 1024 0 := by
  have h := (writer_pad_then_flush
    { buf := List.replicate 4096 7, buffer_offset := 6, out := [1] } (by decide)
    (List.length_replicate _ _)).1
  rw [h]
  simp only [USTAR_BLOCK, Nat.reduceMul, List.take_replicate]
  rfl

/-! ## The size of an archive of one regular file -/

set_option maxRecDepth 100000 in
theorem zero_block_checksum_invalid : (is_valid_checksum (List.replicate 512 0)).1 = false := by
  decide

theorem all_zero_iff (b : List Byte) (hb : b.length = 512) :
    b = List.replicate 512 0 ↔ ∀ c ∈ b, c = 0 := by
  rw [List.eq_replicate_iff]
  exact ⟨fun h => h.2, fun h => ⟨hb, h⟩⟩

theorem is_end_of_archive_iff (b : List Byte) (hb : b.length = 512) :
    is_end_of_archive b = true ↔ ∀ c ∈ b, c = 0 := by
  simp only [is_end_of_archive, HEADER_SIZE, decide_eq_true_eq]
  rw [List.take_of_length_le (by omega)]
  exact all_zero_iff b hb

/-- C13. For every 512-byte block b, `is_end_of_archive` is true if and only if all
512 bytes of b are zero, on the first call (static record not yet filled) and on every
later call (the call leaves the static record filled with zeros); and
`reader_cycle_entry` returns 0 for a source whose next block is all zero, although that
block would not pass `is_valid_checksum`. -/
theorem end_marker_predicate (st : ZeroHeaderStatic) (b : List Byte) (hb : b.length = 512)
    (hz : st.zero_header.length = 512)
    (hst : st.is_zero_header_initialized = true → st.zero_header = List.replicate 512 0) :
    ((is_end_of_archive_call st b).1 = true ↔ ∀ c ∈ b, c = 0)
      ∧ (is_end_of_archive_call st b).2
          = { is_zero_header_initialized := true, zero_header := List.replicate 512 0 }
      ∧ (is_end_of_archive_call st b).1 = is_end_of_archive b
      ∧ ((∀ c ∈ b, c = 0) → ∀ (r : Reader) (tail : List Byte),
          r.archive.drop r.pos = b ++ tail →
            reader_cycle_entry r
                = some (0, { r with pos := r.pos + 512, current_entry := none })
              ∧ (is_valid_checksum b).1 = false) := by
  have hset : memset st.zero_header 0 0 512 = List.replicate 512 0 := by
    simp only [memset, memcpy, List.take_zero, List.nil_append, List.length_replicate,
      Nat.zero_add]
    rw [List.drop_of_length_le (by omega), List.append_nil]
  have hst1 : (if (!st.is_zero_header_initialized) = true then
        ({ is_zero_header_initialized := true,
           zero_header := memset st.zero_header 0 0 HEADER_SIZE } : ZeroHeaderStatic)
      else st)
      = { is_zero_header_initialized := true, zero_header := List.replicate 512 0 } := by
    obtain ⟨ini, zh⟩ := st
    cases ini with
    | false => simpa only [HEADER_SIZE, Bool.not_false, if_true] using congrArg _ hset
    | true =>
      have := hst rfl
      simp only at this
      simp only [Bool.not_true, Bool.false_eq_true, if_false, this]
  have hcall : is_end_of_archive_call st b
      = (is_end_of_archive b,
          { is_zero_header_initialized := true, zero_header := List.replicate 512 0 }) := by
    simp only [is_end_of_archive_call, hst1, is_end_of_archive, HEADER_SIZE]
    rw [List.take_of_length_le (l := List.replicate 512 (0 : Byte))
      (by rw [List.length_replicate])]
  refine ⟨?_, ?_, ?_, ?_⟩
  · rw [hcall]
    exact is_end_of_archive_iff b hb
  · rw [hcall]
  · rw [hcall]
  · intro hall r tail hsrc
    have hb0 := (all_zero_iff b hb).2 hall
    subst hb0
    exact ⟨reader_cycle_entry_end r tail hsrc, zero_block_checksum_invalid⟩

theorem end_marker_predicate_witness :
    (is_end_of_archive_call
        { is_zero_header_initialized := false, zero_header := List.replicate 512 9 }
        (List.replicate 512 0)).1 = true
      ∧ (is_end_of_archive_call
        { is_zero_header_initialized := true, zero_header := List.replicate 512 0 }
        (List.replicate 511 0 ++ [1])).1 = false := by
  have h1 := end_marker_predicate
    { is_zero_header_initialized := false, zero_header := List.replicate 512 9 }
    (List.replicate 512 0) (List.length_replicate _ _) (List.length_replicate _ _)
    (fun h => by cases h)
  have h2 := end_marker_predicate
    { is_zero_header_initialized := true, zero_header := List.replicate 512 0 }
    (List.replicate 511 0 ++ [1]) (by simp only [List.length_append, List.length_replicate,
      List.length_singleton]) (List.length_replicate _ _) (fun _ => rfl)
  refine ⟨h1.1.2 (fun c hc => List.eq_of_mem_replicate hc), ?_⟩
  rw [Bool.eq_false_iff]
  intro h
  have := h2.1.1 h 1 (List.mem_append_right _ (List.mem_singleton_self 1))
  exact absurd this (by decide)

/-! ## Reading and skipping the content of an entry -/

/-- With the size field holding the length of `c` and the source positioned at `c`,
`reader_translate_to_file` writes exactly `c` and moves the position past `c` and its
padding, whatever bytes follow `c`. -/
theorem reader_translate_any (r : Reader) (header c rest : List Byte)
    (hcur : r.current_entry = some header)
    (hsize : strtol (header.drop 124) = (c.length : Int))
    (hdig : strtol_no_digits (header.drop 124) = false)
    (hmax : c.length + (512 - c.length % 512) % 512 ≤ 2 ^ 63 - 1)
    (hsrc : r.archive.drop r.pos = c ++ rest) :
    reader_translate_to_file r
      = some { r with pos := r.pos + (c.length + (512 - c.length % 512) % 512),
                      dst := r.dst ++ c } := by
  have hnn : ¬ ((c.length : Int) < 0) := by omega
  simp only [reader_translate_to_file, hcur, OFF_SIZE, hsize, hdig, Bool.false_eq_true,
    if_false, hnn, Int.toNat_ofNat, USTAR_BLOCK]
  by_cases hmod : c.length % 512 = 0
  · have hmax1 : ¬ ((((c.length + 0 : Nat)) : Int) > LONG_MAX) := by
      simp only [LONG_MAX]; omega
    simp only [hmod, ne_eq, not_true_eq_false, if_false, hmax1, Nat.add_zero]
    by_cases hzero : c.length = 0
    · have hc : c = [] := List.length_eq_zero.mp hzero
      subst hc
      have hLM : (0 : Int) ≤ LONG_MAX := by simp only [LONG_MAX]; omega
      simp [translate_loop_done, hLM, hcur]
    · obtain ⟨m, hm⟩ : ∃ m, c.length = 512 * (m + 1) := ⟨c.length / 512 - 1, by omega⟩
      rw [translate_loop_blocks 0 c.length (by omega) m _ 0 r c rest (by omega) (by omega)
        hsrc (by omega)]
      have hLM : (c.length : Int) ≤ LONG_MAX := by simp only [LONG_MAX]; omega
      simp [hLM, hcur]
  · have hd : (512 - c.length % 512) % 512 = 512 - c.length % 512 :=
      Nat.mod_eq_of_lt (by omega)
    have hmax1 : ¬ ((((c.length + (512 - c.length % 512) : Nat)) : Int) > LONG_MAX) := by
      simp only [LONG_MAX]; omega
    obtain ⟨m, hm⟩ : ∃ m, c.length + (512 - c.length % 512) = 512 * (m + 1) :=
      ⟨c.length / 512, by omega⟩
    simp only [hmod, ne_eq, not_false_eq_true, if_true, hmax1, if_false]
    rw [translate_loop_blocks (512 - c.length % 512) _ (by omega) m _ 0 r c rest hm
      (by omega) hsrc (by omega)]
    simp only [hd, Option.some.injEq]
    congr 1
    omega

theorem padded_length (n : Nat) : n + (512 - n % 512) % 512 = 512 * ((n + 511) / 512) := by
  omega

/-- C14. For every entry whose size field encodes n (the length of c) and whose
content region in the source is c followed by any bytes, `reader_translate_to_file`,
with the rounded size within `long`, returns, and has written to the destination
exactly the n bytes of c, in order, after what was there, and nothing else. -/
theorem translate_writes_exact_content (r : Reader) (header c rest : List Byte)
    (hcur : r.current_entry = some header)
    (hsize : strtol (header.drop OFF_SIZE) = (c.length : Int))
    (hdig : strtol_no_digits (header.drop OFF_SIZE) = false)
    (hmax : 512 * ((c.length + 511) / 512) ≤ 2 ^ 63 - 1)
    (hsrc : r.archive.drop r.pos = c ++ rest) :
    ∃ r1, reader_translate_to_file r = some r1 ∧ r1.dst = r.dst ++ c
      ∧ r1.archive = r.archive := by
  refine ⟨_, reader_translate_any r header c rest hcur hsize hdig ?_ hsrc, rfl, rfl⟩
  rw [padded_length]
  exact hmax

set_option maxRecDepth 100000 in
theorem translate_writes_exact_content_witness :
    ∃ r1, reader_translate_to_file size_three_reader = some r1 ∧ r1.dst = [] ++ [1, 2, 3]
      ∧ r1.archive = size_three_reader.archive :=
  translate_writes_exact_content size_three_reader size_three_record [1, 2, 3]
    (List.replicate 509 7) rfl (by decide) (by decide) (by decide) (by decide)

/-- The function `reader_skip_file_contents` at a block-aligned position, for a size
field that holds `n`. -/
theorem reader_skip_aligned (r : Reader) (header : List Byte) (n : Nat)
    (hcur : r.current_entry = some header)
    (hsize : strtol (header.drop 124) = (n : Int))
    (halign : r.pos % 512 = 0)
    (hmax : r.pos + 512 * ((n + 511) / 512) ≤ 2 ^ 63 - 1) :
    reader_skip_file_contents r = some { r with pos := r.pos + 512 * ((n + 511) / 512) } := by
  have htm : Int.tmod (n : Int) ((512 : Nat) : Int) = ((n % 512 : Nat) : Int) :=
    (Int.ofNat_tmod n 512).symm
  have hsum : (n : Int) + (if Int.tmod (n : Int) ((512 : Nat) : Int) = 0 then (0 : Int)
      else ((512 : Nat) : Int) - Int.tmod (n : Int) ((512 : Nat) : Int))
      = ((512 * ((n + 511) / 512) : Nat) : Int) := by
    rw [htm]
    by_cases h0 : n % 512 = 0
    · simp only [h0, Nat.cast_zero, if_true]
      omega
    · have h1 : ¬ (((n % 512 : Nat) : Int) = 0) := by omega
      simp only [h1, if_false]
      omega
  have htarget : (r.pos : Int) + ((512 * ((n + 511) / 512) : Nat) : Int)
      = ((r.pos + 512 * ((n + 511) / 512) : Nat) : Int) := by
    push_cast
    rfl
  have hlm1 : ¬ (((512 * ((n + 511) / 512) : Nat) : Int) > LONG_MAX) := by
    simp only [LONG_MAX]; omega
  have hlm2 : ¬ (((r.pos + 512 * ((n + 511) / 512) : Nat) : Int) < 0
      ∨ ((r.pos + 512 * ((n + 511) / 512) : Nat) : Int) > LONG_MAX) := by
    simp only [LONG_MAX]; omega
  have h32 : ¬ (to_int32 (r.pos + 512 * ((n + 511) / 512)) = -1) := by
    have hp : (2 : Nat) ^ 32 = 4294967296 := by norm_num
    have hq : (2 : Nat) ^ 31 = 2147483648 := by norm_num
    have hp2 : (2 : Int) ^ 32 = 4294967296 := by norm_num
    simp only [to_int32, hp, hq, hp2]
    split <;> omega
  simp only [reader_skip_file_contents, hcur, OFF_SIZE, hsize, USTAR_BLOCK, hsum, htarget,
    hlm1, hlm2, Int.toNat_ofNat, h32, if_false]

/-- C15. For every entry whose size field encodes n, read at a block-aligned position
with the next header at an offset within `long`, `reader_skip_file_contents` advances
the source position by exactly 512 * ceil(n / 512) bytes, `reader_translate_to_file`
(the n bytes of content being there) advances it by exactly the same amount, and the
new position is block-aligned again. -/
theorem skip_and_translate_advance (r : Reader) (header : List Byte) (n : Nat)
    (hcur : r.current_entry = some header)
    (hsize : strtol (header.drop OFF_SIZE) = (n : Int))
    (hdig : strtol_no_digits (header.drop OFF_SIZE) = false)
    (halign : r.pos % 512 = 0)
    (hmax : r.pos + 512 * ((n + 511) / 512) ≤ 2 ^ 63 - 1) :
    reader_skip_file_contents r = some { r with pos := r.pos + 512 * ((n + 511) / 512) }
      ∧ (∀ c rest : List Byte, c.length = n → r.archive.drop r.pos = c ++ rest →
          ∃ r1, reader_translate_to_file r = some r1
            ∧ r1.pos = r.pos + 512 * ((n + 511) / 512))
      ∧ (r.pos + 512 * ((n + 511) / 512)) % 512 = 0 := by
  refine ⟨reader_skip_aligned r header n hcur hsize halign hmax, ?_, by omega⟩
  intro c rest hc hsrc
  subst hc
  refine ⟨_, reader_translate_any r header c rest hcur hsize hdig ?_ hsrc, ?_⟩
  · rw [padded_length]; omega
  · show r.pos + _ = _
    rw [padded_length]

set_option maxRecDepth 100000 in
theorem skip_and_translate_advance_witness :
    reader_skip_file_contents size_three_reader = some { size_three_reader with pos := 1024 }
      ∧ ∃ r1, reader_translate_to_file size_three_reader = some r1 ∧ r1.pos = 1024 := by
  have h := skip_and_translate_advance size_three_reader size_three_record 3 rfl
    (by decide) (by decide) (by decide) (by decide)
  exact ⟨h.1, h.2.1 [1, 2, 3] (List.replicate 509 7) rfl (by decide)⟩

/-! ## The selection of entries by requested paths -/

theorem prefix_test_iff (p q : List Byte) :
    (decide (p.take q.length = q) && (q.length == p.length || p.getD q.length 0 == 47)) = true
      ↔ (q <+: p ∧ (p.length = q.length ∨ p[q.length]? = some 47)) := by
  have h1 : p.take q.length = q ↔ q <+: p := by
    rw [List.prefix_iff_eq_take]
    exact eq_comm
  have h2 : p.getD q.length 0 = 47 ↔ p[q.length]? = some 47 := by
    rw [List.getD_eq_getElem?_getD]
    cases hq : p[q.length]? with
    | none => simp
    | some x => simp
  simp only [Bool.and_eq_true, decide_eq_true_eq, Bool.or_eq_true, beq_iff_eq, h1, h2]
  constructor
  · rintro ⟨ha, hb | hb⟩
    · exact ⟨ha, Or.inl hb.symm⟩
    · exact ⟨ha, Or.inr hb⟩
  · rintro ⟨ha, hb | hb⟩
    · exact ⟨ha, Or.inl hb.symm⟩
    · exact ⟨ha, Or.inr hb⟩

theorem prefix_matches_eq (p r : List Byte) (hr : r ≠ []) :
    prefix_matches p r
      = (decide (p.take (strip_trailing_slash r hr).length = strip_trailing_slash r hr)
          && ((strip_trailing_slash r hr).length == p.length
            || p.getD (strip_trailing_slash r hr).length 0 == 47)) := by
  have hlast := List.getLast?_eq_getLast r hr
  by_cases h : r.getLast hr = 47
  · have h1 : r.getLast? = some 47 := by rw [hlast, h]
    have hl : (List.take (r.length - 1) r).length = r.length - 1 := by
      rw [List.length_take]; omega
    simp only [prefix_matches, h1, if_true, strip_trailing_slash, h, List.dropLast_eq_take, hl]
  · have h1 : ¬ (r.getLast? = some 47) := by
      rw [hlast]
      intro hc
      exact h (Option.some.inj hc)
    simp only [prefix_matches, h1, if_false, strip_trailing_slash, h, List.take_length]

/-- C16. For every non-empty requested path r and every entry path p, the test of
`traverse_execute_archive` selects the entry if and only if p starts with r' and
(|p| = |r'| or p[|r'|] = '/'), where r' is r with one trailing '/' removed if present;
requesting "a/b" or "a/b/" selects "a/b", "a/b/" and "a/b/c" but not "a/bc". -/
theorem prefix_selection (r p : List Byte) (hr : r ≠ []) :
    (prefix_matches p r = true
        ↔ (strip_trailing_slash r hr <+: p
            ∧ (p.length = (strip_trailing_slash r hr).length
              ∨ p[(strip_trailing_slash r hr).length]? = some 47)))
      ∧ prefix_matches [97, 47, 98] [97, 47, 98] = true
      ∧ prefix_matches [97, 47, 98, 47] [97, 47, 98] = true
      ∧ prefix_matches [97, 47, 98, 47, 99] [97, 47, 98] = true
      ∧ prefix_matches [97, 47, 98, 99] [97, 47, 98] = false
      ∧ prefix_matches [97, 47, 98] [97, 47, 98, 47] = true
      ∧ prefix_matches [97, 47, 98, 47] [97, 47, 98, 47] = true
      ∧ prefix_matches [97, 47, 98, 47, 99] [97, 47, 98, 47] = true
      ∧ prefix_matches [97, 47, 98, 99] [97, 47, 98, 47] = false := by
  refine ⟨?_, by decide, by decide, by decide, by decide, by decide, by decide, by decide,
    by decide⟩
  rw [prefix_matches_eq p r hr]
  exact prefix_test_iff p (strip_trailing_slash r hr)

theorem prefix_selection_witness :
    strip_trailing_slash [97, 47, 98, 47] (by simp) = [97, 47, 98]
      ∧ prefix_matches [97, 47, 98, 47, 99] [97, 47, 98, 47] = true :=
  ⟨by decide, ((prefix_selection [97, 47, 98, 47] [97, 47, 98, 47, 99] (by simp)).1).2
    ⟨by decide, Or.inr (by decide)⟩⟩

/-! ## Selection does not depend on the order of the requests -/

theorem any_prefix_congr (paths1 paths2 : List (List Byte))
    (hsame : ∀ pre, pre ∈ paths1 ↔ pre ∈ paths2) (path : List Byte) :
    paths1.any (fun pre => prefix_matches path pre)
      = paths2.any (fun pre => prefix_matches path pre) := by
  rw [Bool.eq_iff_iff, List.any_eq_true, List.any_eq_true]
  constructor
  · rintro ⟨pre, hm, hp⟩
    exact ⟨pre, (hsame pre).1 hm, hp⟩
  · rintro ⟨pre, hm, hp⟩
    exact ⟨pre, (hsame pre).2 hm, hp⟩

theorem length_ne_zero_congr (paths1 paths2 : List (List Byte))
    (hsame : ∀ pre, pre ∈ paths1 ↔ pre ∈ paths2) :
    (paths1.length ≠ 0) = (paths2.length ≠ 0) := by
  apply propext
  cases paths1 with
  | nil =>
    cases paths2 with
    | nil => exact Iff.rfl
    | cons b bs => exact absurd ((hsame b).2 (List.mem_cons_self b bs)) (List.not_mem_nil b)
  | cons a as =>
    cases paths2 with
    | nil => exact absurd ((hsame a).1 (List.mem_cons_self a as)) (List.not_mem_nil a)
    | cons b bs => simp only [List.length_cons]; exact ⟨fun _ => by omega, fun _ => by omega⟩

theorem traverse_loop_congr {σ : Type}
    (process_entry : Reader → List Byte → σ → Option (Reader × σ))
    (paths1 paths2 : List (List Byte)) (hsame : ∀ pre, pre ∈ paths1 ↔ pre ∈ paths2) :
    ∀ (fuel : Nat) (r : Reader) (s : σ),
      traverse_loop process_entry paths1 fuel r s
        = traverse_loop process_entry paths2 fuel r s := by
  intro fuel
  induction fuel with
  | zero => intro r s; rfl
  | succ f ih =>
    intro r s
    rw [traverse_loop, traverse_loop]
    simp only [any_prefix_congr paths1 paths2 hsame, length_ne_zero_congr paths1 paths2 hsame,
      ih]

/-- One iteration of the loop on an entry that some request selects: the callback
is applied once, then the loop goes on. -/
theorem traverse_loop_selected {σ : Type}
    (process_entry : Reader → List Byte → σ → Option (Reader × σ))
    (paths : List (List Byte)) (fuel : Nat) (r r1 : Reader) (s : σ)
    (hcycle : reader_cycle_entry r = some (1, r1))
    (hany : paths.any (fun pre =>
      prefix_matches (extract_name (r1.current_entry.getD [])) pre) = true) :
    traverse_loop process_entry paths (fuel + 1) r s
      = (process_entry r1 (extract_name (r1.current_entry.getD [])) s).bind
          (fun x => traverse_loop process_entry paths fuel x.1 x.2) := by
  have hlen : paths.length ≠ 0 := by
    obtain ⟨pre, hm, _⟩ := List.any_eq_true.1 hany
    exact fun h => List.not_mem_nil pre (by rwa [List.length_eq_zero.1 h] at hm)
  have h10 : ¬ ((1 : Int) = 0) := by decide
  have h11 : ¬ ((1 : Int) = -1) := by decide
  rw [traverse_loop]
  simp only [hcycle, h10, h11, if_false, hlen, ne_eq, not_false_eq_true, if_true, hany]
  cases process_entry r1 (extract_name (r1.current_entry.getD [])) s with
  | none => rfl
  | some x => rfl

/-- C17. When two lists of requested paths hold the same requests (one is a
permutation of the other, or repeats some of its requests), every entry path is
selected by the one exactly when it is selected by the other, the whole traversal is
the same for both, and an entry that one or several requests select is passed to the
callback once. -/
theorem selection_order_independent {σ : Type}
    (process_entry : Reader → List Byte → σ → Option (Reader × σ))
    (paths1 paths2 : List (List Byte)) (hsame : ∀ pre, pre ∈ paths1 ↔ pre ∈ paths2) :
    (∀ path, paths1.any (fun pre => prefix_matches path pre)
        = paths2.any (fun pre => prefix_matches path pre))
      ∧ (∀ (fuel : Nat) (r : Reader) (s : σ),
          traverse_loop process_entry paths1 fuel r s
            = traverse_loop process_entry paths2 fuel r s)
      ∧ (∀ (fuel : Nat) (r r1 : Reader) (s : σ), reader_cycle_entry r = some (1, r1) →
          paths1.any (fun pre =>
            prefix_matches (extract_name (r1.current_entry.getD [])) pre) = true →
          traverse_loop process_entry paths2 (fuel + 1) r s
            = (process_entry r1 (extract_name (r1.current_entry.getD [])) s).bind
                (fun x => traverse_loop process_entry paths2 fuel x.1 x.2)) := by
  refine ⟨any_prefix_congr paths1 paths2 hsame, traverse_loop_congr process_entry paths1 paths2
    hsame, ?_⟩
  intro fuel r r1 s hcycle hany
  rw [any_prefix_congr paths1 paths2 hsame] at hany
  exact traverse_loop_selected process_entry paths2 fuel r r1 s hcycle hany

theorem selection_order_independent_witness :
    list_archive (archive_bytes [sample_file]) false [[97], [102, 46, 116, 120, 116]]
      = list_archive (archive_bytes [sample_file]) false
          [[102, 46, 116, 120, 116], [97], [102, 46, 116, 120, 116]] := by
  have h := selection_order_independent print_entry [[97], [102, 46, 116, 120, 116]]
    [[102, 46, 116, 120, 116], [97], [102, 46, 116, 120, 116]]
    (by
      intro pre
      simp only [List.mem_cons, List.mem_singleton, List.not_mem_nil, or_false]
      tauto)
  simp only [list_archive, traverse_execute_archive, h.2.1]

/-! ## Acceptance of a header by the reader -/

theorem cstr_cons (x : Byte) (xs : List Byte) :
    cstr (x :: xs) = if x = 0 then [] else x :: cstr xs := by
  by_cases h : x = 0
  · subst h; simp [cstr_zero]
  · simp [cstr, List.takeWhile_cons, h]

/-- The C string at the head of `l` is `s` exactly when `l` starts with `s` and a NUL. -/
theorem cstr_eq_iff : ∀ (s l : List Byte), (∀ c ∈ s, c ≠ 0) → s.length < l.length →
    (cstr l = s ↔ l.take (s.length + 1) = s ++ [0]) := by
  intro s
  induction s with
  | nil =>
    intro l _ hl
    cases l with
    | nil => simp at hl
    | cons x xs =>
      rw [cstr_cons]
      by_cases h : x = 0
      · simp [h]
      · simp [h]
  | cons a s ih =>
    intro l hs hl
    cases l with
    | nil => simp at hl
    | cons x xs =>
      have ha : a ≠ 0 := hs a (by simp)
      have ih1 := ih xs (fun c hc => hs c (by simp [hc]))
        (by simp only [List.length_cons] at hl; omega)
      rw [cstr_cons]
      by_cases h : x = 0
      · subst h
        simp only [if_true, List.length_cons, List.take_succ_cons, List.cons_append,
          List.cons.injEq]
        constructor
        · intro hc; cases hc
        · rintro ⟨hc, _⟩; exact absurd hc.symm ha
      · simp only [h, if_false, List.length_cons, List.take_succ_cons, List.cons_append,
          List.cons.injEq, ih1]

theorem region_two (m : List Byte) (i : Nat) (a b : Byte) (hi : i + 2 ≤ m.length) :
    region m i 2 = [a, b] ↔ (m.getD i 0 = a ∧ m.getD (i + 1) 0 = b) := by
  have h0 : i < m.length := by omega
  have h1 : i + 1 < m.length := by omega
  rw [region, List.drop_eq_getElem_cons h0, List.drop_eq_getElem_cons h1,
    List.getD_eq_getElem _ _ h0, List.getD_eq_getElem _ _ h1]
  simp only [List.take_succ_cons, List.take_zero, List.cons.injEq, and_true]

/-- What the strict test of `reader_cycle_entry` looks at, in terms of the record read:
the blanking of the chksum field does not reach the magic and version fields. -/
theorem strict_test_iff (h : List Byte) (hlen : h.length = 512) :
    (cstr ((memset h 148 32 8).drop 257) = [117, 115, 116, 97, 114]
        ↔ region h 257 6 = [117, 115, 116, 97, 114, 0])
      ∧ (((memset h 148 32 8).getD 263 0 = 48 ∧ (memset h 148 32 8).getD 264 0 = 48)
        ↔ region h 263 2 = [48, 48]) := by
  have hml : (memset h 148 32 8).length = 512 := by
    exact memset_length h hlen
  constructor
  · rw [cstr_eq_iff [117, 115, 116, 97, 114] _ (by simp)
      (by rw [List.length_drop, hml]; simp)]
    show ((memcpy h 148 (List.replicate 8 32)).drop 257).take 6 = _ ↔ _
    rw [memcpy_region_frame h 148 257 6 _ (Or.inl (by simp)) (by omega)]
    rfl
  · rw [← region_two _ 263 48 48 (by omega)]
    show ((memcpy h 148 (List.replicate 8 32)).drop 263).take 2 = _ ↔ _
    rw [memcpy_region_frame h 148 263 2 _ (Or.inl (by simp)) (by omega)]
    rfl

/-- The function `reader_cycle_entry` on a 512-byte record that is not all zero and has
a valid checksum, accepted: non-strict mode, or magic "ustar" with NUL and version "00". -/
theorem reader_cycle_entry_accept (r : Reader) (h tail : List Byte) (hlen : h.length = 512)
    (hsrc : r.archive.drop r.pos = h ++ tail) (hnz : ∃ c ∈ h, c ≠ 0)
    (hvalid : (is_valid_checksum h).1 = true)
    (hok : r.is_strict = true →
      (region h 257 6 = [117, 115, 116, 97, 114, 0] ∧ region h 263 2 = [48, 48])) :
    reader_cycle_entry r = some (1,
      { r with pos := r.pos + 512, current_entry := some (is_valid_checksum h).2 }) := by
  have htake : (r.archive.drop r.pos).take 512 = h := by
    rw [hsrc]; exact List.take_left' hlen
  have hend : is_end_of_archive h = false := by
    rw [Bool.eq_false_iff]
    intro hc
    obtain ⟨c, hm, hne⟩ := hnz
    exact hne ((is_end_of_archive_iff h hlen).1 hc c hm)
  obtain ⟨hmagic, hver⟩ := strict_test_iff h hlen
  have hnew : (is_valid_checksum h).2 = memset h 148 32 8 := rfl
  simp only [reader_cycle_entry, HEADER_SIZE, htake, hlen, Nat.lt_irrefl, if_false, hend,
    Bool.false_eq_true, hvalid, Bool.not_true, OFF_MAGIC, OFF_VERSION, hnew]
  cases hs : r.is_strict with
  | false => simp only [Bool.false_and, Bool.false_eq_true, if_false]
  | true =>
    obtain ⟨hm, hv⟩ := hok hs
    have h1 := hmagic.2 hm
    have h2 := hver.2 hv
    simp only [h1, h2.1, h2.2, bne_self_eq_false, Bool.or_self, Bool.and_false,
      Bool.false_eq_true, if_false]

/-- The function `reader_cycle_entry` in strict mode on a 512-byte record that is not all
zero and has a valid checksum, but not the magic "ustar" with NUL and the version "00". -/
theorem reader_cycle_entry_reject (r : Reader) (h tail : List Byte) (hlen : h.length = 512)
    (hsrc : r.archive.drop r.pos = h ++ tail) (hnz : ∃ c ∈ h, c ≠ 0)
    (hvalid : (is_valid_checksum h).1 = true) (hs : r.is_strict = true)
    (hnot : ¬ (region h 257 6 = [117, 115, 116, 97, 114, 0] ∧ region h 263 2 = [48, 48])) :
    reader_cycle_entry r = some (-1, { r with pos := r.pos + 512 }) := by
  have htake : (r.archive.drop r.pos).take 512 = h := by
    rw [hsrc]; exact List.take_left' hlen
  have hend : is_end_of_archive h = false := by
    rw [Bool.eq_false_iff]
    intro hc
    obtain ⟨c, hm, hne⟩ := hnz
    exact hne ((is_end_of_archive_iff h hlen).1 hc c hm)
  obtain ⟨hmagic, hver⟩ := strict_test_iff h hlen
  have hnew : (is_valid_checksum h).2 = memset h 148 32 8 := rfl
  have hcond : (cstr ((memset h 148 32 8).drop 257) != [117, 115, 116, 97, 114]
            || (memset h 148 32 8).getD 263 0 != 48
            || (memset h 148 32 8).getD (263 + 1) 0 != 48) = true := by
    by_contra hc
    simp only [Bool.or_eq_true, bne_iff_ne, ne_eq, not_or, not_not] at hc
    exact hnot ⟨hmagic.1 hc.1.1, hver.1 ⟨hc.1.2, hc.2⟩⟩
  simp only [reader_cycle_entry, HEADER_SIZE, htake, hlen, Nat.lt_irrefl, if_false, hend,
    Bool.false_eq_true, hvalid, Bool.not_true, OFF_MAGIC, OFF_VERSION, hnew, hs, hcond,
    Bool.and_self, if_true]

/-- C18. For every 512-byte record that is not all zero and has a valid checksum, at
the head of the source: in non-strict mode `reader_cycle_entry` returns 1 whatever the
magic and version fields hold; in strict mode it returns 1 if the magic field is
"ustar" followed by NUL and the version field is "00", and otherwise returns -1, the
process going on with the position behind the record and the current entry as it was. -/
theorem strict_header_acceptance (r : Reader) (h tail : List Byte) (hlen : h.length = 512)
    (hsrc : r.archive.drop r.pos = h ++ tail) (hnz : ∃ c ∈ h, c ≠ 0)
    (hvalid : (is_valid_checksum h).1 = true) :
    (r.is_strict = false →
        reader_cycle_entry r = some (1,
          { r with pos := r.pos + 512, current_entry := some (is_valid_checksum h).2 }))
      ∧ (r.is_strict = true →
          (region h OFF_MAGIC 6 = [117, 115, 116, 97, 114, 0]
            ∧ region h OFF_VERSION 2 = [48, 48]) →
          reader_cycle_entry r = some (1,
            { r with pos := r.pos + 512, current_entry := some (is_valid_checksum h).2 }))
      ∧ (r.is_strict = true →
          ¬ (region h OFF_MAGIC 6 = [117, 115, 116, 97, 114, 0]
            ∧ region h OFF_VERSION 2 = [48, 48]) →
          reader_cycle_entry r = some (-1, { r with pos := r.pos + 512 })) :=
  ⟨fun hs => reader_cycle_entry_accept r h tail hlen hsrc hnz hvalid
      (fun ht => by rw [hs] at ht; cases ht),
    fun _ hok => reader_cycle_entry_accept r h tail hlen hsrc hnz hvalid (fun _ => hok),
    fun hs hnot => reader_cycle_entry_reject r h tail hlen hsrc hnz hvalid hs hnot⟩

/-! ## The traversal step by step -/

/-- More fuel does not change a result of the traversal. -/
theorem traverse_loop_mono {σ : Type}
    (process_entry : Reader → List Byte → σ → Option (Reader × σ))
    (paths : List (List Byte)) : ∀ (fuel : Nat) (r : Reader) (s : σ) (x : Reader × σ),
      traverse_loop process_entry paths fuel r s = some x →
      ∀ extra, traverse_loop process_entry paths (fuel + extra) r s = some x := by
  intro fuel
  induction fuel with
  | zero =>
    intro r s x h
    simp [traverse_loop] at h
  | succ f ih =>
    intro r s x h extra
    have hf : f + 1 + extra = (f + extra) + 1 := by omega
    rw [hf, traverse_loop]
    rw [traverse_loop] at h
    cases hc : reader_cycle_entry r with
    | none => simp [hc] at h
    | some p =>
      obtain ⟨st, r1⟩ := p
      simp only [hc] at h ⊢
      by_cases h0 : st = 0
      · simpa only [h0, if_true] using h
      · simp only [h0, if_false] at h ⊢
        by_cases h1 : st = -1
        · simp only [h1, if_true] at h ⊢
          exact ih _ _ _ h extra
        · simp only [h1, if_false] at h ⊢
          by_cases hl : paths.length = 0
          · simp only [hl, ne_eq, not_true_eq_false, if_false] at h ⊢
            cases hp : process_entry r1 (extract_name (r1.current_entry.getD [])) s with
            | none => simp [hp] at h
            | some q =>
              obtain ⟨r2, s2⟩ := q
              simp only [hp] at h ⊢
              exact ih _ _ _ h extra
          · simp only [hl, ne_eq, not_false_eq_true, if_true] at h ⊢
            by_cases ha : paths.any (fun pre =>
                prefix_matches (extract_name (r1.current_entry.getD [])) pre) = true
            · simp only [ha, if_true] at h ⊢
              cases hp : process_entry r1 (extract_name (r1.current_entry.getD [])) s with
              | none => simp [hp] at h
              | some q =>
                obtain ⟨r2, s2⟩ := q
                simp only [hp] at h ⊢
                exact ih _ _ _ h extra
            · simp only [ha, if_false] at h ⊢
              by_cases hd : (extract_name (r1.current_entry.getD [])).getLast? = some 47
              · simp only [hd, not_true_eq_false, if_false] at h ⊢
                exact ih _ _ _ h extra
              · simp only [hd, not_false_eq_true, if_true] at h ⊢
                cases hk : reader_skip_file_contents r1 with
                | none => simp [hk] at h
                | some r2 =>
                  simp only [hk] at h ⊢
                  exact ih _ _ _ h extra

/-- A traversal that ends within `fuel` iterations, run by `traverse_execute_archive`. -/
theorem traverse_execute_of_fuel {σ : Type}
    (process_entry : Reader → List Byte → σ → Option (Reader × σ))
    (paths : List (List Byte)) (fuel : Nat) (r : Reader) (s : σ) (x : Reader × σ)
    (h : traverse_loop process_entry paths fuel r s = some x)
    (hfuel : fuel ≤ r.archive.length + 1) :
    traverse_execute_archive process_entry paths r s = some x := by
  have := traverse_loop_mono process_entry paths fuel r s x h (r.archive.length + 1 - fuel)
  rw [show fuel + (r.archive.length + 1 - fuel) = r.archive.length + 1 by omega] at this
  exact this

/-- The traversal after a header that `reader_cycle_entry` turns away with -1 and a
following record that fails the checksum: the process exits. -/
theorem traverse_loop_invalid_then_exit {σ : Type}
    (process_entry : Reader → List Byte → σ → Option (Reader × σ))
    (paths : List (List Byte)) (fuel : Nat) (r r1 : Reader) (s : σ)
    (h1 : reader_cycle_entry r = some (-1, r1)) (h2 : reader_cycle_entry r1 = none) :
    traverse_loop process_entry paths (fuel + 2) r s = none := by
  have h10 : ¬ ((-1 : Int) = 0) := by decide
  rw [traverse_loop]
  simp only [h1, h10, if_false, if_true]
  rw [traverse_loop]
  simp only [h2]

/-- The traversal, without requested paths, after an entry that the callback leaves
where it is and a following record that fails the checksum: the process exits. -/
theorem traverse_loop_entry_then_exit {σ : Type}
    (process_entry : Reader → List Byte → σ → Option (Reader × σ))
    (fuel : Nat) (r r1 : Reader) (s s1 : σ)
    (h1 : reader_cycle_entry r = some (1, r1))
    (hp : process_entry r1 (extract_name (r1.current_entry.getD [])) s = some (r1, s1))
    (h2 : reader_cycle_entry r1 = none) :
    traverse_loop process_entry [] (fuel + 2) r s = none := by
  have h10 : ¬ ((1 : Int) = 0) := by decide
  have h11 : ¬ ((1 : Int) = -1) := by decide
  rw [traverse_loop]
  simp only [h1, h10, h11, if_false, List.length_nil, ne_eq, not_true_eq_false, hp]
  rw [traverse_loop]
  simp only [h2]

/-- A listing that ends within `fuel` iterations. -/
theorem list_archive_of_fuel (archive : List Byte) (strict : Bool) (paths : List (List Byte))
    (fuel : Nat) (names : List (List Byte))
    (h : (traverse_loop print_entry paths fuel (reader_init archive strict) []).map Prod.snd
      = some names)
    (hfuel : fuel ≤ archive.length + 1) : list_archive archive strict paths = some names := by
  cases hx : traverse_loop print_entry paths fuel (reader_init archive strict) [] with
  | none => simp [hx] at h
  | some x =>
    rw [hx] at h
    simp only [list_archive, traverse_execute_of_fuel print_entry paths fuel
      (reader_init archive strict) [] x hx hfuel]
    simpa using h

/-- An extraction that ends within `fuel` iterations. -/
theorem extract_archive_of_fuel (archive : List Byte) (strict : Bool)
    (paths : List (List Byte)) (fuel : Nat) (fs : List FsEvent)
    (h : (traverse_loop (extract_path strict) paths fuel (reader_init archive strict) []).map
      Prod.snd = some fs)
    (hfuel : fuel ≤ archive.length + 1) : extract_archive archive strict paths = some fs := by
  cases hx : traverse_loop (extract_path strict) paths fuel (reader_init archive strict) [] with
  | none => simp [hx] at h
  | some x =>
    rw [hx] at h
    simp only [extract_archive, traverse_execute_of_fuel (extract_path strict) paths fuel
      (reader_init archive strict) [] x hx hfuel]
    simpa using h

/-! ## Entries that strict mode turns away -/

set_option maxRecDepth 100000 in
theorem old_format_header_facts :
    old_format_header.length = 512 ∧ (97 : Byte) ∈ old_format_header
      ∧ (is_valid_checksum old_format_header).1 = true
      ∧ ¬ (region old_format_header 257 6 = [117, 115, 116, 97, 114, 0]
            ∧ region old_format_header 263 2 = [48, 48]) := by
  decide

theorem strict_header_acceptance_witness :
    reader_cycle_entry (reader_init old_format_archive false)
        = some (1, { reader_init old_format_archive false with
            pos := 0 + 512, current_entry := some (is_valid_checksum old_format_header).2 })
      ∧ reader_cycle_entry (reader_init old_format_archive true)
        = some (-1, { reader_init old_format_archive true with pos := 0 + 512 }) :=
  have ⟨hlen, hmem, hvalid, hnot⟩ := old_format_header_facts
  ⟨(strict_header_acceptance (reader_init old_format_archive false) old_format_header
      (pad_to_block old_format_file.content ++ archive_bytes [sample_file]) hlen rfl
      ⟨97, hmem, by decide⟩ hvalid).1 rfl,
    (strict_header_acceptance (reader_init old_format_archive true) old_format_header
      (pad_to_block old_format_file.content ++ archive_bytes [sample_file]) hlen rfl
      ⟨97, hmem, by decide⟩ hvalid).2.2 rfl hnot⟩

set_option maxRecDepth 100000 in
theorem old_format_content_block_fails :
    reader_cycle_entry { reader_init old_format_archive true with pos := 0 + 512 } = none := by
  decide

set_option maxRecDepth 100000 in
theorem sample_archive_listing :
    (traverse_loop print_entry [] 2 (reader_init (archive_bytes [sample_file]) true) []).map
      Prod.snd = some [[102, 46, 116, 120, 116]] := by
  decide

set_option maxRecDepth 100000 in
theorem old_format_archive_listing :
    (traverse_loop print_entry [] 3 (reader_init old_format_archive false) []).map
      Prod.snd = some [[97], [102, 46, 116, 120, 116]] := by
  decide

theorem archive_bytes_min_length (fs : List FileArg) : 1024 ≤ (archive_bytes fs).length := by
  induction fs with
  | nil => simp only [archive_bytes, List.length_replicate]; omega
  | cons g gs ih =>
    rw [archive_bytes, List.length_append]
    omega

/-- C19. An archive whose first entry has a valid checksum, an empty magic field and a
content of three bytes, followed by the compliant entry `f.txt`: in strict mode
`reader_cycle_entry` returns -1 for the first header and the traversal goes on at the
first content block, which fails the checksum, so the listing and the extraction exit
with nothing processed; the following entry alone is listed in strict mode, and both
entries are listed in non-strict mode. -/
theorem noncompliant_entry_content_not_skipped :
    reader_cycle_entry (reader_init old_format_archive true)
        = some (-1, { reader_init old_format_archive true with pos := 512 })
      ∧ reader_cycle_entry { reader_init old_format_archive true with pos := 512 } = none
      ∧ list_archive old_format_archive true [] = none
      ∧ extract_archive old_format_archive true [] = none
      ∧ list_archive (archive_bytes [sample_file]) true [] = some [[102, 46, 116, 120, 116]]
      ∧ list_archive old_format_archive false []
          = some [[97], [102, 46, 116, 120, 116]] := by
  obtain ⟨hlen, hmem, hvalid, hnot⟩ := old_format_header_facts
  have hc1 := reader_cycle_entry_reject (reader_init old_format_archive true)
    old_format_header (pad_to_block old_format_file.content ++ archive_bytes [sample_file])
    hlen rfl ⟨97, hmem, by decide⟩ hvalid rfl hnot
  have hc2 := old_format_content_block_fails
  have hA : 512 ≤ old_format_archive.length := by
    rw [old_format_archive, List.length_append, hlen]
    omega
  obtain ⟨f, hf⟩ : ∃ f, (reader_init old_format_archive true).archive.length + 1 = f + 2 :=
    ⟨old_format_archive.length - 1, by
      show old_format_archive.length + 1 = _
      omega⟩
  refine ⟨hc1, hc2, ?_, ?_, ?_, ?_⟩
  · rw [list_archive, traverse_execute_archive, hf,
      traverse_loop_invalid_then_exit print_entry [] f _ _ [] hc1 hc2]
  · rw [extract_archive, traverse_execute_archive, hf,
      traverse_loop_invalid_then_exit (extract_path true) [] f _ _ [] hc1 hc2]
  · exact list_archive_of_fuel _ true [] 2 _ sample_archive_listing
      (by have := archive_bytes_min_length [sample_file]; omega)
  · exact list_archive_of_fuel _ false [] 3 _ old_format_archive_listing (by omega)

/-! ## An entry whose uid strict extraction refuses -/

/-- Creation from regular files writes the archive `archive_bytes`. -/
theorem create_archive_regular (files : List FileArg) (buf : List Byte)
    (hbuf : buf.length = 4096) (hfiles : ∀ f ∈ files, regular_file_arg f) :
    create_archive files buf = some (archive_bytes files) := by
  obtain ⟨w1, hce, hout⟩ := create_entries_regular files (writer_init buf) hfiles rfl hbuf
  have hout2 : (writer_flush (writer_pad w1)).out = archive_bytes files := by
    rw [hout]; rfl
  simp only [create_archive, hce, hout2]

set_option maxRecDepth 100000 in
theorem large_uid_header_facts :
    ((populate_header_from_file large_uid_file.path large_uid_file.info
        init_header).getD []).length = 512
      ∧ (103 : Byte) ∈ (populate_header_from_file large_uid_file.path large_uid_file.info
        init_header).getD []
      ∧ (is_valid_checksum ((populate_header_from_file large_uid_file.path
          large_uid_file.info init_header).getD [])).1 = true
      ∧ region ((populate_header_from_file large_uid_file.path large_uid_file.info
          init_header).getD []) 257 6 = [117, 115, 116, 97, 114, 0]
      ∧ region ((populate_header_from_file large_uid_file.path large_uid_file.info
          init_header).getD []) 263 2 = [48, 48]
      ∧ ((is_valid_checksum ((populate_header_from_file large_uid_file.path
          large_uid_file.info init_header).getD [])).2.getD OFF_UID 0 &&& 0x80 != 0) = true := by
  decide

set_option maxRecDepth 100000 in
theorem large_uid_content_block_fails :
    reader_cycle_entry { reader_init large_uid_archive true with
      pos := 0 + 512,
      current_entry := some (is_valid_checksum ((populate_header_from_file
        large_uid_file.path large_uid_file.info init_header).getD [])).2 } = none := by
  decide

set_option maxRecDepth 100000 in
theorem sample_archive_extraction :
    (traverse_loop (extract_path true) [] 2 (reader_init (archive_bytes [sample_file]) true)
      []).map Prod.snd
      = some [FsEvent.mkfile [102, 46, 116, 120, 116] 0o666
          [48, 49, 50, 51, 52, 53, 54, 55, 56, 57]] := by
  decide

set_option maxRecDepth 100000 in
theorem large_uid_archive_extraction :
    (traverse_loop (extract_path false) [] 3 (reader_init large_uid_archive false) []).map
      Prod.snd
      = some [FsEvent.mkfile [103] 0o666 [120, 121, 122],
          FsEvent.mkfile [102, 46, 116, 120, 116] 0o666
            [48, 49, 50, 51, 52, 53, 54, 55, 56, 57]] := by
  decide

/-- Strict extraction of an entry whose uid field has the high bit of byte 0 set:
`extract_path` returns at once, the reader where it was. -/
theorem extract_path_strict_escaped (r : Reader) (header name : List Byte)
    (fs : List FsEvent) (hcur : r.current_entry = some header)
    (huid : (header.getD OFF_UID 0 &&& 0x80 != 0) = true) :
    extract_path true r name fs = some (r, fs) := by
  simp only [extract_path, hcur, huid, Bool.true_and, if_true]

theorem sample_file_regular : regular_file_arg sample_file :=
  ⟨by decide, by decide, by simp [sample_file], by decide, by decide,
    _, _, _, rfl, by decide, rfl, rfl, rfl⟩

theorem large_uid_file_regular : regular_file_arg large_uid_file :=
  ⟨by decide, by decide, by simp [large_uid_file], by decide, by decide,
    _, _, _, rfl, by decide, rfl, rfl, rfl⟩

/-- C20. The archive that creation writes for the file `g` (three bytes of content,
uid 2097152, stored with the high bit of byte 0 set) followed by `f.txt`: strict
extraction takes the header of `g`, returns from `extract_path` without moving past the
content, reads the content block as the next header and exits on its checksum, so that
`f.txt` is not extracted, although it is extracted from the archive without `g`;
non-strict extraction creates both files. -/
theorem escaped_uid_content_not_skipped :
    create_archive [large_uid_file, sample_file] (List.replicate 4096 0)
        = some large_uid_archive
      ∧ extract_archive large_uid_archive true [] = none
      ∧ extract_archive (archive_bytes [sample_file]) true []
          = some [FsEvent.mkfile [102, 46, 116, 120, 116] 0o666
              [48, 49, 50, 51, 52, 53, 54, 55, 56, 57]]
      ∧ extract_archive large_uid_archive false []
          = some [FsEvent.mkfile [103] 0o666 [120, 121, 122],
              FsEvent.mkfile [102, 46, 116, 120, 116] 0o666
                [48, 49, 50, 51, 52, 53, 54, 55, 56, 57]] := by
  obtain ⟨hlen, hmem, hvalid, hmagic, hver, huid⟩ := large_uid_header_facts
  have hsrc : (reader_init large_uid_archive true).archive.drop
      (reader_init large_uid_archive true).pos
      = (populate_header_from_file large_uid_file.path large_uid_file.info init_header).getD []
        ++ (pad_to_block large_uid_file.content ++ archive_bytes [sample_file]) := by
    show large_uid_archive = _
    simp only [large_uid_archive, archive_bytes, entry_bytes, List.append_assoc]
  have hc1 := reader_cycle_entry_accept (reader_init large_uid_archive true) _ _ hlen hsrc
    ⟨103, hmem, by decide⟩ hvalid (fun _ => ⟨hmagic, hver⟩)
  have hc2 := large_uid_content_block_fails
  have hA : 1024 ≤ large_uid_archive.length := archive_bytes_min_length _
  obtain ⟨f, hf⟩ : ∃ f, (reader_init large_uid_archive true).archive.length + 1 = f + 2 :=
    ⟨large_uid_archive.length - 1, by
      show large_uid_archive.length + 1 = _
      omega⟩
  refine ⟨?_, ?_, ?_, ?_⟩
  · refine create_archive_regular _ _ (List.length_replicate _ _) ?_
    intro g hg
    simp only [List.mem_cons, List.mem_singleton, List.not_mem_nil, or_false] at hg
    rcases hg with rfl | rfl
    · exact large_uid_file_regular
    · exact sample_file_regular
  · rw [extract_archive, traverse_execute_archive, hf,
      traverse_loop_entry_then_exit (extract_path true) f _ _ [] [] hc1 ?_ hc2]
    exact extract_path_strict_escaped _ _ _ _ rfl huid
  · exact extract_archive_of_fuel _ true [] 2 _ sample_archive_extraction
      (by have := archive_bytes_min_length [sample_file]; omega)
  · exact extract_archive_of_fuel _ false [] 3 _ large_uid_archive_extraction (by omega)

/-! ## The permission string of the verbose listing -/

theorem to_int32_low_bits (m : Nat) :
    to_int32 (to_ulong (m : Int)) % 512 = ((m % 512 : Nat) : Int) := by
  have hp : (2 : Nat) ^ 32 = 4294967296 := by norm_num
  have hq : (2 : Nat) ^ 31 = 2147483648 := by norm_num
  have hp2 : (2 : Int) ^ 32 = 4294967296 := by norm_num
  have hp3 : (2 : Int) ^ 64 = 18446744073709551616 := by norm_num
  simp only [to_int32, to_ulong, hp, hq, hp2, hp3]
  split <;> omega

/-- One character of the permission string: the test `octal & mask` on the shifted
value against bit `i` of the mode. -/
theorem permission_char (y : Int) (m mask b i : Nat) (c : Byte) (hmask : mask = 2 ^ b)
    (h : (y % 2 ^ 32).toNat / 2 ^ b % 2 = m / 2 ^ i % 2) :
    (if int_and y mask ≠ 0 then c else 45) = (if m.testBit i = true then c else 45) := by
  have h2 : (2 : Nat) ^ b ≠ 0 := by positivity
  have key : ((y % 2 ^ 32).toNat).testBit b = m.testBit i := by
    rw [Nat.testBit_to_div_mod, Nat.testBit_to_div_mod, h]
  rw [int_and, hmask, Nat.and_two_pow, key]
  cases m.testBit i <;> simp [h2]

theorem permissions_to_string_eq (octal_str str : List Byte) (t : Byte) (m : Nat)
    (hm : strtol octal_str = (m : Int)) (hstr : 11 ≤ str.length) :
    permissions_to_string octal_str str t = spec_permissions m t ++ 0 :: str.drop 11 := by
  have hx := to_int32_low_bits m
  rcases str with _ | ⟨a0, str⟩
  · simp at hstr
  rcases str with _ | ⟨a1, str⟩
  · simp at hstr
  rcases str with _ | ⟨a2, str⟩
  · simp at hstr
  rcases str with _ | ⟨a3, str⟩
  · simp at hstr
  rcases str with _ | ⟨a4, str⟩
  · simp at hstr
  rcases str with _ | ⟨a5, str⟩
  · simp at hstr
  rcases str with _ | ⟨a6, str⟩
  · simp at hstr
  rcases str with _ | ⟨a7, str⟩
  · simp at hstr
  rcases str with _ | ⟨a8, str⟩
  · simp at hstr
  rcases str with _ | ⟨a9, str⟩
  · simp at hstr
  rcases str with _ | ⟨a10, str⟩
  · simp at hstr
  simp only [permissions_to_string, permissions_loop, hm, List.set_cons_zero,
    List.set_cons_succ, Nat.reduceMul, Nat.reduceAdd, Nat.zero_add, spec_permissions,
    List.drop_succ_cons, List.drop_zero, List.cons_append, List.nil_append]
  generalize to_int32 (to_ulong (m : Int)) = x at hx
  have e8 := permission_char (x / 8 / 8) m 4 2 8 114 rfl (by norm_num; omega)
  have e7 := permission_char (x / 8 / 8) m 2 1 7 119 rfl (by norm_num; omega)
  have e6 := permission_char (x / 8 / 8) m 1 0 6 120 rfl (by norm_num; omega)
  have e5 := permission_char (x / 8) m 4 2 5 114 rfl (by norm_num; omega)
  have e4 := permission_char (x / 8) m 2 1 4 119 rfl (by norm_num; omega)
  have e3 := permission_char (x / 8) m 1 0 3 120 rfl (by norm_num; omega)
  have e2 := permission_char x m 4 2 2 114 rfl (by norm_num; omega)
  have e1 := permission_char x m 2 1 1 119 rfl (by norm_num; omega)
  have e0 := permission_char x m 1 0 0 120 rfl (by norm_num; omega)
  rw [e8, e7, e6, e5, e4, e3, e2, e1, e0]

theorem spec_permissions_low_bits (m : Nat) (t : Byte) :
    spec_permissions m t = spec_permissions (m % 512) t := by
  have h : ∀ i, i < 9 → (m % 512).testBit i = m.testBit i := by
    intro i hi
    rw [show (512 : Nat) = 2 ^ 9 from rfl, Nat.testBit_mod_two_pow]
    simp [hi]
  simp only [spec_permissions, h 8 (by omega), h 7 (by omega), h 6 (by omega),
    h 5 (by omega), h 4 (by omega), h 3 (by omega), h 2 (by omega), h 1 (by omega),
    h 0 (by omega)]

/-- C21. For every mode text of value m and every typeflag t, `permissions_to_string`
leaves in the buffer exactly 10 characters and then a NUL, the rest of the buffer as it
was: character 0 is 'd' for t = '5', 'l' for t = '2' and '-' otherwise, characters 1 to
9 are the rwx triplets of bits 8 to 0 of m (owner, group, other) with '-' for each
unset bit; the bits of m above the low 9 do not change the result. -/
theorem permission_display (octal_str str : List Byte) (t : Byte) (m : Nat)
    (hm : strtol octal_str = (m : Int)) (hstr : 11 ≤ str.length) :
    (permissions_to_string octal_str str t).take 10 = spec_permissions m t
      ∧ (spec_permissions m t).length = 10
      ∧ (permissions_to_string octal_str str t)[10]? = some 0
      ∧ (permissions_to_string octal_str str t).drop 11 = str.drop 11
      ∧ (spec_permissions m t).head?
          = some (if t = 53 then 100 else if t = 50 then 108 else 45)
      ∧ spec_permissions m t = spec_permissions (m % 512) t := by
  have hlen : (spec_permissions m t).length = 10 := rfl
  rw [permissions_to_string_eq octal_str str t m hm hstr]
  refine ⟨?_, hlen, ?_, ?_, rfl, spec_permissions_low_bits m t⟩
  · exact List.take_left' hlen
  · rw [List.getElem?_append_right (by omega), hlen]
    simp
  · rw [show (11 : Nat) = (spec_permissions m t).length + 1 from rfl, ← List.drop_drop,
      List.drop_left]
    rfl

theorem permission_display_witness :
    (permissions_to_string [48, 49, 48, 48, 55, 53, 48, 0] (List.replicate 11 0) 53).take 10
      = [100, 114, 119, 120, 114, 45, 120, 45, 45, 45] := by
  have h := (permission_display [48, 49, 48, 48, 55, 53, 48, 0] (List.replicate 11 0) 53
    0o100750 (by decide) (by decide)).1
  rw [h]
  decide

/-! ## The mode of an extracted file -/

theorem and_low_bits (x mask : Nat) (hmask : 127 &&& mask = mask) :
    x &&& mask = (x % 128) &&& mask := by
  rw [show (128 : Nat) = 2 ^ 7 from rfl, ← Nat.and_pow_two_sub_one_eq_mod x 7, Nat.and_assoc]
  rw [show (2 : Nat) ^ 7 - 1 = 127 from rfl, hmask]

theorem execute_bits_below : ∀ x < 128,
    ((x &&& 0o100 ≠ 0 ∨ x &&& 0o010 ≠ 0 ∨ x &&& 0o001 ≠ 0) ↔ x &&& 0o111 ≠ 0) := by
  decide

/-- The test of `path_to_filesystem` for an execute bit, on the value of `strtol`
converted to `mode_t`. -/
theorem execute_bits_iff (m : Nat) :
    (((m : Int) % 2 ^ 32).toNat &&& 0o100 ≠ 0 ∨ ((m : Int) % 2 ^ 32).toNat &&& 0o010 ≠ 0
        ∨ ((m : Int) % 2 ^ 32).toNat &&& 0o001 ≠ 0)
      ↔ m &&& 0o111 ≠ 0 := by
  have hmode : ((m : Int) % 2 ^ 32).toNat % 128 = m % 128 := by
    have hp : (2 : Int) ^ 32 = 4294967296 := by norm_num
    rw [hp]
    omega
  rw [and_low_bits _ 0o100 (by decide), and_low_bits _ 0o010 (by decide),
    and_low_bits _ 0o001 (by decide), and_low_bits m 0o111 (by decide), hmode]
  exact execute_bits_below (m % 128) (Nat.mod_lt _ (by omega))

theorem open_mode_eq (header : List Byte) (m : Nat)
    (hm : strtol (header.drop OFF_MODE) = (m : Int)) :
    open_mode header = if m &&& 0o111 ≠ 0 then 0o777 else 0o666 := by
  simp only [open_mode, hm]
  by_cases h : m &&& 0o111 ≠ 0
  · rw [if_pos ((execute_bits_iff m).2 h), if_pos h]
  · rw [if_neg (fun hc => h ((execute_bits_iff m).1 hc)), if_neg h]

/-- C22. For every regular-file entry (typeflag '0' or NUL) with stored octal mode m
and a name that is not empty, does not start with '/' and does not end in '/', the file
is created by `path_to_filesystem` with mode 0777 if m has an execute bit
(m & 0111 != 0) and with mode 0666 otherwise: never another value, and the stored mode
only where it is one of the two. -/
theorem extraction_mode (path header : List Byte) (m : Nat)
    (hm : strtol (header.drop OFF_MODE) = (m : Int)) (hne : path ≠ [])
    (hroot : path.head? ≠ some 47) (hlast : path.getLast? ≠ some 47)
    (htype : header.getD OFF_TYPEFLAG 0 = 48 ∨ header.getD OFF_TYPEFLAG 0 = 0) :
    path_to_filesystem path header
        = (some (FsEvent.mkfile path (if m &&& 0o111 ≠ 0 then 0o777 else 0o666) []), true)
      ∧ open_mode header = (if m &&& 0o111 ≠ 0 then 0o777 else 0o666)
      ∧ (open_mode header = 0o777 ∨ open_mode header = 0o666) := by
  have hlen : ¬ (path.length = 0) := fun h => hne (List.length_eq_zero.1 h)
  have ht : ¬ (header.getD OFF_TYPEFLAG 0 = 50) := by
    rcases htype with h | h <;> rw [h] <;> decide
  have hopen := open_mode_eq header m hm
  refine ⟨?_, hopen, ?_⟩
  · simp only [path_to_filesystem, hlen, if_false, hroot, hlast, ne_eq, not_false_eq_true,
      if_true, ht, hopen]
  · rw [hopen]
    by_cases h : m &&& 0o111 ≠ 0
    · exact Or.inl (if_pos h)
    · exact Or.inr (if_neg h)

theorem extraction_mode_witness :
    path_to_filesystem [102] (List.replicate 100 0 ++ [48, 49, 48, 48, 55, 53, 48, 0]
        ++ List.replicate 404 0)
      = (some (FsEvent.mkfile [102] 0o777 []), true) :=
  (extraction_mode [102] (List.replicate 100 0 ++ [48, 49, 48, 48, 55, 53, 48, 0]
    ++ List.replicate 404 0) 0o100750 (by decide) (by simp) (by decide) (by decide)
    (Or.inr (by decide))).1

/-! ## The format of the chksum field -/

set_option maxRecDepth 100000 in
theorem chksum_field_not_six_digits :
    region (populate_chksum init_header) OFF_CHKSUM 8 = [48, 48, 48, 48, 52, 48, 48, 0]
      ∧ spec_chksum_field (byte_sum (memset init_header OFF_CHKSUM 32 8))
          = [48, 48, 48, 52, 48, 48, 0, 32]
      ∧ region (populate_chksum init_header) OFF_CHKSUM 8
          ≠ spec_chksum_field (byte_sum (memset init_header OFF_CHKSUM 32 8)) := by
  decide

/-- C24, amended. For every 512-byte record, `populate_chksum` stores in the 8-byte
chksum field the sum of all 512 bytes, taken with the chksum field as eight spaces,
written as exactly seven zero-padded octal digits followed by a NUL byte; the sum is
below 8^7, `strtol` reads it back from the field, and the bytes outside the field stay
as they were. -/
theorem chksum_field_format (h : List Byte) (hlen : h.length = 512) :
    region (populate_chksum h) OFF_CHKSUM 8
        = octal_fixed 7 (byte_sum (memset h OFF_CHKSUM 32 8)) ++ [0]
      ∧ (octal_fixed 7 (byte_sum (memset h OFF_CHKSUM 32 8))).length = 7
      ∧ (∀ c ∈ octal_fixed 7 (byte_sum (memset h OFF_CHKSUM 32 8)), is_octal_digit c = true)
      ∧ byte_sum (memset h OFF_CHKSUM 32 8) < 8 ^ 7
      ∧ strtol (region (populate_chksum h) OFF_CHKSUM 8)
          = (byte_sum (memset h OFF_CHKSUM 32 8) : Int)
      ∧ (∀ i, i < 148 ∨ 156 ≤ i → (populate_chksum h)[i]? = h[i]?) := by
  have hreg : region (populate_chksum h) 148 8
      = octal_fixed 7 (byte_sum (memset h 148 32 8)) ++ [0] := by
    rw [region, populate_chksum_drop h hlen,
      show (0 : Byte) :: h.drop 156 = [0] ++ h.drop 156 from rfl, ← List.append_assoc]
    exact List.take_left' (by simp [octal_fixed_length])
  have hlt := byte_sum_lt (memset h 148 32 8)
  refine ⟨hreg, octal_fixed_length _ _, octal_fixed_digit _ _, hlt, ?_,
    fun i hi => populate_chksum_getElem?_outside h hlen i hi⟩
  simp only [OFF_CHKSUM]
  rw [hreg]
  refine strtol_octal_fixed 7 _ [] hlt ?_
  have h87 : (8 : Nat) ^ 7 = 2097152 := by norm_num
  have h263 : (2 : Nat) ^ 63 = 9223372036854775808 := by norm_num
  omega

set_option maxRecDepth 100000 in
theorem chksum_field_format_witness :
    region (populate_chksum sample_header) OFF_CHKSUM 8
      = octal_fixed 7 (byte_sum (memset sample_header OFF_CHKSUM 32 8)) ++ [0] :=
  (chksum_field_format sample_header (by decide)).1

/-! ## What validation does to the record -/

set_option maxRecDepth 100000 in
theorem sample_header_facts :
    sample_header.length = 512 ∧ (102 : Byte) ∈ sample_header
      ∧ (is_valid_checksum sample_header).1 = true
      ∧ region sample_header OFF_CHKSUM 8 = [48, 48, 48, 55, 51, 53, 52, 0]
      ∧ region (is_valid_checksum sample_header).2 OFF_CHKSUM 8 = List.replicate 8 32
      ∧ (is_valid_checksum sample_header).2 ≠ sample_header
      ∧ (is_valid_checksum (is_valid_checksum sample_header).2).1 = false := by
  decide

/-- C25. The header that creation writes for `f.txt`, at the head of its archive: the
record passes `is_valid_checksum`, which leaves its chksum field as eight spaces, so
the record is not what it was, the header that `reader_cycle_entry` keeps as current
entry differs from the record read from the archive, and validating the record a
second time gives false. -/
theorem validation_blanks_record :
    (archive_bytes [sample_file]).take 512 = sample_header
      ∧ (is_valid_checksum sample_header).1 = true
      ∧ region sample_header OFF_CHKSUM 8 = [48, 48, 48, 55, 51, 53, 52, 0]
      ∧ region (is_valid_checksum sample_header).2 OFF_CHKSUM 8 = List.replicate 8 32
      ∧ (is_valid_checksum sample_header).2 ≠ sample_header
      ∧ (is_valid_checksum (is_valid_checksum sample_header).2).1 = false
      ∧ (∃ r, reader_cycle_entry (reader_init (archive_bytes [sample_file]) false)
            = some (1, r)
          ∧ r.current_entry = some (is_valid_checksum sample_header).2
          ∧ r.current_entry ≠ some sample_header) := by
  obtain ⟨hlen, hmem, hvalid, hfield, hblank, hne, hsecond⟩ := sample_header_facts
  have hsrc : (reader_init (archive_bytes [sample_file]) false).archive.drop
      (reader_init (archive_bytes [sample_file]) false).pos
      = sample_header ++ (pad_to_block sample_file.content ++ archive_bytes []) := by
    show archive_bytes [sample_file] = _
    simp only [archive_bytes, entry_bytes, sample_header, List.append_assoc]
  refine ⟨?_, hvalid, hfield, hblank, hne, hsecond, _,
    reader_cycle_entry_accept _ sample_header _ hlen hsrc ⟨102, hmem, by decide⟩ hvalid
      (fun hs => by cases hs), rfl, ?_⟩
  · have h0 : archive_bytes [sample_file]
        = sample_header ++ (pad_to_block sample_file.content ++ archive_bytes []) := hsrc
    rw [h0]
    exact List.take_left' hlen
  · intro hc
    exact hne (Option.some.inj hc)

/-! ## The bounds of the write buffer -/

/-- One iteration of the loop of `writer_write_file`, before the test for a full
buffer: the buffer keeps its length and the offset is at most 8. -/
theorem write_file_step_bounds (w : Writer) (difference : Nat) (data : List Byte)
    (hoff : w.buffer_offset ≤ 7) (hbuf : w.buf.length = 4096) (hdiff : difference < 512)
    (hreq : data.length ≤ (8 - w.buffer_offset) * 512) :
    (write_file_step w difference data).1.buf.length = 4096
      ∧ (write_file_step w difference data).1.buffer_offset ≤ 7
      ∧ (write_file_step w difference data).2 < 512
      ∧ ((write_file_step w difference data).1.out = w.out
        ∨ (write_file_step w difference data).1.out.length = w.out.length + 8 * 512) := by
  have h1 : (memcpy w.buf (w.buffer_offset * 512) data).length = 4096 := by
    rw [memcpy_length _ _ _ (by omega), hbuf]
  by_cases hmod : data.length % 512 = 0
  · have hnew : w.buffer_offset + (difference + data.length) / 512 ≤ 8 := by omega
    by_cases hfull : w.buffer_offset + (difference + data.length) / 512 = 8
    · simp only [write_file_step, get_buffer_index, USTAR_BLOCK, NUM_HUNKS, hmod, ne_eq,
        not_true_eq_false, if_false, hfull, if_true, writer_flush, h1, List.length_append,
        List.length_take]
      exact ⟨trivial, by omega, hdiff, Or.inr (by omega)⟩
    · simp only [write_file_step, get_buffer_index, USTAR_BLOCK, NUM_HUNKS, hmod, ne_eq,
        not_true_eq_false, if_false, hfull, h1]
      exact ⟨trivial, by omega, hdiff, Or.inl trivial⟩
  · have h2 : (memset (memcpy w.buf (w.buffer_offset * 512) data)
        (w.buffer_offset * 512 + data.length) 0 (512 - data.length % 512)).length = 4096 := by
      rw [memset, memcpy_length _ _ _ (by rw [List.length_replicate, h1]; omega), h1]
    have hnew : w.buffer_offset + (512 - data.length % 512 + data.length) / 512 ≤ 8 := by
      omega
    by_cases hfull : w.buffer_offset + (512 - data.length % 512 + data.length) / 512 = 8
    · simp only [write_file_step, get_buffer_index, USTAR_BLOCK, NUM_HUNKS, hmod, ne_eq,
        not_false_eq_true, if_true, hfull, writer_flush, h2, List.length_append,
        List.length_take]
      exact ⟨trivial, by omega, by omega, Or.inr (by omega)⟩
    · simp only [write_file_step, get_buffer_index, USTAR_BLOCK, NUM_HUNKS, hmod, ne_eq,
        not_false_eq_true, if_true, hfull, if_false, h2]
      exact ⟨trivial, by omega, by omega, Or.inl trivial⟩

/-- A write that runs past the end of the region makes the modelled region longer, so
a region that keeps its length has only been written inside. -/
theorem memcpy_length_overrun (m : List Byte) (off : Nat) (src : List Byte)
    (hsrc : 0 < src.length) (h : m.length < off + src.length) :
    m.length < (memcpy m off src).length := by
  simp only [memcpy, List.length_append, List.length_take, List.length_drop]
  omega

/-- The function `writer_pad` from an offset of at most 7: the two blocks are written
inside the buffer and the offset is at most 7 again. -/
theorem writer_pad_bounds (w : Writer) (hoff : w.buffer_offset ≤ 7)
    (hbuf : w.buf.length = 4096) :
    (writer_pad w).buf.length = 4096 ∧ (writer_pad w).buffer_offset ≤ 7
      ∧ ((writer_pad w).out = w.out
        ∨ (writer_pad w).out.length = w.out.length + w.buffer_offset * 512) := by
  by_cases h : w.buffer_offset + 2 > 7
  · have h1 : w.buffer_offset + 2 > 8 - 1 := by omega
    simp only [writer_pad, NUM_HUNKS, h1, if_true, writer_flush, get_buffer_index, USTAR_BLOCK,
      memset, List.length_append, List.length_take, hbuf]
    refine ⟨?_, by omega, Or.inr (by omega)⟩
    rw [memcpy_length _ _ _ (by rw [List.length_replicate, hbuf]; omega), hbuf]
  · have h1 : ¬ (w.buffer_offset + 2 > 8 - 1) := by omega
    simp only [writer_pad, NUM_HUNKS, h1, if_false, get_buffer_index, USTAR_BLOCK, memset]
    refine ⟨?_, by omega, Or.inl trivial⟩
    rw [memcpy_length _ _ _ (by rw [List.length_replicate, hbuf]; omega), hbuf]

/-- C26. From a `buffer_offset` in 0..7 and a padding length below 512 carried over
from an earlier iteration, for any read result of at most the requested
(8 - buffer_offset) * 512 bytes: the region handed to `read` and the region zeroed by
`memset` lie inside the 4096-byte buffer, and an iteration of `writer_write_file`
leaves the buffer at 4096 bytes, `buffer_offset` in 0..7 and the padding length below
512; so do `writer_pad` and `writer_flush`; a flush emits exactly buffer_offset * 512
bytes (8 * 512 where the iteration flushes). -/
theorem write_buffer_invariant (w : Writer) (difference : Nat) (data : List Byte)
    (hoff : w.buffer_offset ≤ 7) (hbuf : w.buf.length = 4096) (hdiff : difference < 512)
    (hreq : data.length ≤ (NUM_HUNKS - w.buffer_offset) * USTAR_BLOCK) :
    get_buffer_index w + (NUM_HUNKS - w.buffer_offset) * USTAR_BLOCK ≤ w.buf.length
      ∧ (data.length % USTAR_BLOCK ≠ 0 →
          get_buffer_index w + data.length + (USTAR_BLOCK - data.length % USTAR_BLOCK)
            ≤ w.buf.length)
      ∧ (write_file_step w difference data).1.buf.length = 4096
      ∧ (write_file_step w difference data).1.buffer_offset ≤ 7
      ∧ (write_file_step w difference data).2 < 512
      ∧ ((write_file_step w difference data).1.out = w.out
        ∨ (write_file_step w difference data).1.out.length = w.out.length + 8 * 512)
      ∧ (writer_pad w).buf.length = 4096 ∧ (writer_pad w).buffer_offset ≤ 7
      ∧ ((writer_pad w).out = w.out
        ∨ (writer_pad w).out.length = w.out.length + w.buffer_offset * 512)
      ∧ (writer_flush w).buf.length = 4096 ∧ (writer_flush w).buffer_offset = 0
      ∧ (writer_flush w).out.length = w.out.length + w.buffer_offset * USTAR_BLOCK := by
  simp only [NUM_HUNKS, USTAR_BLOCK] at hreq
  obtain ⟨s1, s2, s3, s4⟩ := write_file_step_bounds w difference data hoff hbuf hdiff hreq
  obtain ⟨p1, p2, p3⟩ := writer_pad_bounds w hoff hbuf
  refine ⟨?_, ?_, s1, s2, s3, s4, p1, p2, p3, hbuf, rfl, ?_⟩
  · simp only [get_buffer_index, NUM_HUNKS, USTAR_BLOCK, hbuf]
    omega
  · intro hmod
    simp only [get_buffer_index, USTAR_BLOCK, hbuf] at hmod ⊢
    omega
  · simp only [writer_flush, USTAR_BLOCK, List.length_append, List.length_take, hbuf]
    omega

theorem write_buffer_invariant_witness :
    (write_file_step { buf := List.replicate 4096 0, buffer_offset := 7, out := [] } 100
        (List.replicate 300 1)).1.buffer_offset ≤ 7
      ∧ (write_file_step { buf := List.replicate 4096 0, buffer_offset := 7, out := [] } 100
        (List.replicate 300 1)).1.buf.length = 4096 :=
  have h := write_buffer_invariant
    { buf := List.replicate 4096 0, buffer_offset := 7, out := [] } 100
    (List.replicate 300 1) (by decide) (List.length_replicate _ _) (by decide)
    (by simp only [List.length_replicate, NUM_HUNKS, USTAR_BLOCK]; decide)
  ⟨h.2.2.2.1, h.2.2.1⟩

/-! ## The order of the entries of a directory tree -/

theorem with_slash_length (path : List Byte) :
    path.length + (if path.getLast? ≠ some 47 then 1 else 0) = (with_slash path).length := by
  unfold with_slash
  split <;> simp

theorem with_slash_of_slash (p : List Byte) : with_slash (p ++ [47]) = p ++ [47] := by
  simp [with_slash]

theorem with_slash_last (path : List Byte) : (with_slash path).getLast? = some 47 := by
  unfold with_slash
  split
  · simp
  · rename_i h
    exact not_not.1 h

theorem take_of_prefix (base buf : List Byte) (h : base <+: buf) :
    buf.take base.length = base :=
  (List.prefix_iff_eq_take.1 h).symm

/-- The steps of two walks in a row: the second starts where the first ended. -/
theorem run_steps_append {σ : Type}
    (process : List Byte → FileInfo → Option (List Byte) → σ → Option (σ × Option (List Byte))) :
    ∀ (a b : List WalkStep) (fd : Option (List Byte)) (s : σ),
      run_steps process (a ++ b) fd s
        = (run_steps process a fd s).bind (fun x => run_steps process b x.2 x.1)
  | [], b, fd, s => rfl
  | WalkStep.open_failed :: a, b, fd, s => by
    simp only [List.cons_append, run_steps]
    exact run_steps_append process a b none s
  | WalkStep.entry path info opened :: a, b, fd, s => by
    simp only [List.cons_append, run_steps]
    cases process path info (if opened.isSome = true then opened else fd) s with
    | none => rfl
    | some x => exact run_steps_append process a b x.2 x.1

/-- The function `traverse_path` on a directory whose path ends in `'/'`. -/
theorem traverse_path_dir_step {σ : Type}
    (process : List Byte → FileInfo → Option (List Byte) → σ → Option (σ × Option (List Byte)))
    (info : FileInfo) (sub : FsListing) (p : List Byte) (fd : Option (List Byte)) (s : σ)
    (hfit : (p ++ [47]).length + 1 ≤ PATH_MAX) :
    traverse_path process (FsNode.dir info sub) (p ++ [47]) fd s
      = (process (p ++ [47]) info fd s).bind
          (fun x => traverse_entries process sub (p ++ [47]) (p ++ [47]) x.2 x.1) := by
  have h1 : ¬ (PATH_MAX < (p ++ [47]).length + 1) := by omega
  have h2 : ¬ ((p ++ [47]).length = 0) := by simp
  have h3 : (p ++ [47]).getLast? = some 47 := by simp
  rw [traverse_path]
  simp only [h1, h2, h3, if_false, ne_eq, not_true_eq_false]
  cases process (p ++ [47]) info fd s with
  | none => rfl
  | some x => rfl

/-- The `readdir` loop makes the calls of the walk in the words of the specification,
in the same order, and ends where the walk ends. -/
theorem traverse_entries_eq {σ : Type}
    (process : List Byte → FileInfo → Option (List Byte) → σ → Option (σ × Option (List Byte))) :
    ∀ (l : FsListing) (path pathBuff : List Byte) (fd : Option (List Byte)) (s : σ),
      with_slash path <+: pathBuff → (with_slash path).length + deepest l + 1 ≤ PATH_MAX →
      traverse_entries process l path pathBuff fd s
        = run_steps process (spec_children l (with_slash path)) fd s
  | FsListing.nil, path, pathBuff, fd, s, _, _ => by
    simp only [traverse_entries, spec_children, run_steps]
  | FsListing.cons d_name (FsNode.file regular info content) rest, path, pathBuff, fd, s,
      hpre, hfit => by
    simp only [deepest] at hfit
    have hg : ¬ (PATH_MAX < (with_slash path).length + d_name.length + 1) := by omega
    simp only [traverse_entries, with_slash_length, hg, if_false, take_of_prefix _ _ hpre,
      spec_children, run_steps, Option.isSome_some, if_true]
    cases process (with_slash path ++ d_name) info (some content) s with
    | none => rfl
    | some x =>
      exact traverse_entries_eq process rest path (with_slash path ++ d_name) x.2 x.1
        (List.prefix_append _ _) (by omega)
  | FsListing.cons d_name FsNode.noopen rest, path, pathBuff, fd, s, hpre, hfit => by
    simp only [deepest] at hfit
    have hg : ¬ (PATH_MAX < (with_slash path).length + d_name.length + 1) := by omega
    simp only [traverse_entries, with_slash_length, hg, if_false, take_of_prefix _ _ hpre,
      spec_children, run_steps]
    exact traverse_entries_eq process rest path (with_slash path ++ d_name) none s
      (List.prefix_append _ _) (by omega)
  | FsListing.cons d_name FsNode.nostat rest, path, pathBuff, fd, s, hpre, hfit => by
    simp only [deepest] at hfit
    have hg : ¬ (PATH_MAX < (with_slash path).length + d_name.length + 1) := by omega
    simp only [traverse_entries, with_slash_length, hg, if_false, take_of_prefix _ _ hpre,
      spec_children]
    exact traverse_entries_eq process rest path (with_slash path ++ d_name) fd s
      (List.prefix_append _ _) (by omega)
  | FsListing.cons d_name (FsNode.dir info sub) rest, path, pathBuff, fd, s, hpre, hfit => by
    simp only [deepest] at hfit
    by_cases hdot : d_name = [46] ∨ d_name = [46, 46]
    · simp only [hdot, if_true] at hfit
      have hg : ¬ (PATH_MAX < (with_slash path).length + d_name.length + 1) := by omega
      simp only [traverse_entries, with_slash_length, hg, if_false, take_of_prefix _ _ hpre,
        hdot, if_true, spec_children]
      exact traverse_entries_eq process rest path (with_slash path ++ d_name) fd s
        (List.prefix_append _ _) (by omega)
    · simp only [hdot, if_false] at hfit
      have hg : ¬ (PATH_MAX < (with_slash path).length + d_name.length + 1) := by omega
      have hg2 : ¬ (PATH_MAX < (with_slash path ++ d_name).length + 2) := by
        rw [List.length_append]; omega
      have hstep := traverse_path_dir_step process info sub (with_slash path ++ d_name) fd s
        (by simp only [List.length_append, List.length_singleton]; omega)
      simp only [traverse_entries, with_slash_length, hg, if_false, take_of_prefix _ _ hpre,
        hdot, hg2, hstep, spec_children, run_steps, Option.isSome_none, Bool.false_eq_true]
      cases process (with_slash path ++ d_name ++ [47]) info fd s with
      | none => rfl
      | some x =>
        have hsub := traverse_entries_eq process sub (with_slash path ++ d_name ++ [47])
          (with_slash path ++ d_name ++ [47]) x.2 x.1
          (by rw [with_slash_of_slash])
          (by
            rw [with_slash_of_slash]
            simp only [List.length_append, List.length_singleton]
            omega)
        rw [with_slash_of_slash] at hsub
        simp only [Option.some_bind, hsub, run_steps_append]
        cases run_steps process (spec_children sub (with_slash path ++ d_name ++ [47])) x.2
            x.1 with
        | none => rfl
        | some y =>
          simp only [Option.some_bind]
          exact traverse_entries_eq process rest path (with_slash path ++ d_name ++ [47])
            y.2 y.1 (by rw [List.append_assoc]; exact List.prefix_append _ _) (by omega)

/-- The function `traverse_path` on a directory whose path names fit `pathBuff`: the
call for the directory itself, then the walk of what is below it. -/
theorem traverse_path_dir {σ : Type}
    (process : List Byte → FileInfo → Option (List Byte) → σ → Option (σ × Option (List Byte)))
    (info : FileInfo) (entries : FsListing) (path : List Byte) (fd : Option (List Byte))
    (s : σ) (hne : path ≠ [])
    (hfit : (with_slash path).length + deepest entries + 1 ≤ PATH_MAX) :
    traverse_path process (FsNode.dir info entries) path fd s
      = run_steps process (WalkStep.entry (with_slash path) info none
          :: spec_children entries (with_slash path)) fd s := by
  have hlen : path.length ≤ (with_slash path).length := by
    unfold with_slash
    split <;> simp
  have h1 : ¬ (PATH_MAX < path.length + 1) := by omega
  have h2 : ¬ (path.length = 0) := fun h => hne (List.length_eq_zero.1 h)
  have h3 : ¬ (PATH_MAX < (with_slash path).length + 1) := by omega
  have h5 : (if path.getLast? ≠ some 47 then path ++ [47] else path) = with_slash path := rfl
  rw [traverse_path]
  simp only [h1, h2, if_false, h5, h3, run_steps, Option.isSome_none, Bool.false_eq_true]
  cases process (with_slash path) info fd s with
  | none => rfl
  | some x =>
    exact traverse_entries_eq process entries path (with_slash path) x.2 x.1
      (List.prefix_refl _) hfit

/-- A walk on the recording callback returns, with the paths of its entries added to
the record in order. -/
theorem run_steps_record : ∀ (steps : List WalkStep) (fd : Option (List Byte))
    (log : List (List Byte)),
    (run_steps record_path steps fd log).map Prod.fst = some (log ++ emitted_paths steps)
  | [], fd, log => by simp [run_steps, emitted_paths]
  | WalkStep.open_failed :: rest, fd, log => by
    simp only [run_steps, emitted_paths]
    exact run_steps_record rest none log
  | WalkStep.entry path info opened :: rest, fd, log => by
    simp only [run_steps, emitted_paths, record_path]
    rw [run_steps_record rest _ (log ++ [path]), List.append_assoc]
    rfl

/-- A walk returns when each of its calls returns. -/
theorem run_steps_returns {σ : Type}
    (process : List Byte → FileInfo → Option (List Byte) → σ → Option (σ × Option (List Byte))) :
    ∀ (steps : List WalkStep),
      (∀ p i o, WalkStep.entry p i o ∈ steps →
        ∀ f t, (process p i (if o.isSome then o else f) t).isSome = true) →
      ∀ (fd : Option (List Byte)) (s : σ), (run_steps process steps fd s).isSome = true
  | [], _, fd, s => rfl
  | WalkStep.open_failed :: rest, hret, fd, s => by
    simp only [run_steps]
    exact run_steps_returns process rest
      (fun p i o hm => hret p i o (List.mem_cons_of_mem _ hm)) none s
  | WalkStep.entry path info opened :: rest, hret, fd, s => by
    simp only [run_steps]
    have h := hret path info opened (List.mem_cons_self _ _) fd s
    cases hp : process path info (if opened.isSome = true then opened else fd) s with
    | none => rw [hp] at h; cases h
    | some x =>
      exact run_steps_returns process rest
        (fun p i o hm => hret p i o (List.mem_cons_of_mem _ hm)) x.2 x.1

/-- With an open descriptor `process_path_fd` writes what `process_path` writes. -/
theorem process_path_fd_open (src : List Byte) (info : FileInfo) (content : List Byte)
    (w : Writer) :
    (process_path_fd src info (some content) w).map Prod.fst
      = process_path src info content w := by
  simp only [process_path_fd, process_path]
  cases populate_header_from_file src info init_header with
  | none => rfl
  | some header =>
    simp only
    split
    · rfl
    · split <;> rfl

/-- The function `traverse_path` on a regular file that `open` accepts: one call of
`process_path`, on the path itself, as in `create_entries`. -/
theorem traverse_path_file (info : FileInfo) (content path : List Byte)
    (fd : Option (List Byte)) (w : Writer) (hne : path ≠ [])
    (hfit : path.length + 1 ≤ PATH_MAX) :
    (traverse_path process_path_fd (FsNode.file true info content) path fd w).map Prod.fst
      = process_path path info content w := by
  have h1 : ¬ (PATH_MAX < path.length + 1) := by omega
  have h2 : ¬ (path.length = 0) := fun h => hne (List.length_eq_zero.1 h)
  rw [traverse_path]
  simp only [h1, h2, if_false, if_true]
  exact process_path_fd_open path info content w

theorem emitted_paths_append : ∀ (a b : List WalkStep),
    emitted_paths (a ++ b) = emitted_paths a ++ emitted_paths b
  | [], _ => rfl
  | WalkStep.open_failed :: a, b => by
    simp only [List.cons_append, emitted_paths]
    exact emitted_paths_append a b
  | WalkStep.entry path info opened :: a, b => by
    simp only [List.cons_append, emitted_paths]
    exact congrArg (List.cons path) (emitted_paths_append a b)

theorem parents_first_mono : ∀ (out e e2 : List (List Byte)), (∀ q ∈ e, q ∈ e2) →
    parents_first e out → parents_first e2 out
  | [], _, _, _, _ => trivial
  | p :: rest, e, e2, hsub, h => by
    obtain ⟨⟨q, hq, hrest⟩, h2⟩ := h
    refine ⟨⟨q, hsub q hq, hrest⟩, parents_first_mono rest (p :: e) (p :: e2) ?_ h2⟩
    intro x hx
    rcases List.mem_cons.1 hx with rfl | hx
    · exact List.mem_cons_self _ _
    · exact List.mem_cons_of_mem _ (hsub x hx)

theorem parents_first_append : ∀ (a b e : List (List Byte)), parents_first e a →
    parents_first e b → parents_first e (a ++ b)
  | [], _, _, _, hb => hb
  | p :: a, b, e, ha, hb =>
    ⟨ha.1, parents_first_append a b (p :: e) ha.2
      (parents_first_mono b e (p :: e) (fun _ hq => List.mem_cons_of_mem _ hq) hb)⟩

/-- Below a directory emitted as `d`, every path comes after the path of its parent. -/
theorem parents_first_children : ∀ (l : FsListing) (d : List Byte) (e : List (List Byte)),
    d ∈ e → d.getLast? = some 47 → names_ok l →
    parents_first e (emitted_paths (spec_children l d))
  | FsListing.nil, _, _, _, _, _ => trivial
  | FsListing.cons d_name (FsNode.file regular info content) rest, d, e, hd, hs, hn => by
    obtain ⟨n1, n2, n3, n4, n5⟩ := hn
    exact ⟨⟨d, hd, hs, d_name, n1, n2, n3, n4, Or.inl rfl⟩,
      parents_first_children rest d _ (List.mem_cons_of_mem _ hd) hs n5⟩
  | FsListing.cons d_name FsNode.noopen rest, d, e, hd, hs, hn =>
    parents_first_children rest d e hd hs hn
  | FsListing.cons d_name FsNode.nostat rest, d, e, hd, hs, hn =>
    parents_first_children rest d e hd hs hn
  | FsListing.cons d_name (FsNode.dir info sub) rest, d, e, hd, hs, hn => by
    obtain ⟨n1, n2, n3, n4⟩ := hn
    by_cases hdot : d_name = [46] ∨ d_name = [46, 46]
    · simp only [spec_children, hdot, if_true]
      exact parents_first_children rest d e hd hs n4
    · have hsubn : names_ok sub := by
        rcases n3 with h | h | h
        · exact absurd (Or.inl h) hdot
        · exact absurd (Or.inr h) hdot
        · exact h
      simp only [spec_children, hdot, if_false, emitted_paths, emitted_paths_append]
      refine ⟨⟨d, hd, hs, d_name, n1, n2, fun h => hdot (Or.inl h), fun h => hdot (Or.inr h),
        Or.inr rfl⟩, parents_first_append _ _ _ ?_ ?_⟩
      · exact parents_first_children sub _ _ (List.mem_cons_self _ _) (by simp) hsubn
      · exact parents_first_children rest d _ (List.mem_cons_of_mem _ hd) hs n4

/-- C23. For every directory tree whose path names fit `pathBuff` and whose entry names
are names of directory entries, `traverse_path` on the (non-empty) path of the root
hands to `process_path` the root first, as the path with '/' appended unless it ends
in one, then the children in listing order, each directory followed at once by what is
below it, with "." and ".." left out: it is the walk in the words of the specification,
for every callback in the place of `process_path`, each call made once the earlier ones
have returned, and a call that does not return ends the traversal. With a callback that
records its path the record is the root and the paths of the walk; the traversal
returns when each call of the walk returns; every path after the first is the path of
a directory emitted before it, which ends in '/', followed by the child's name, and by
exactly one '/' if the child is a directory. -/
theorem preorder_traversal {σ : Type}
    (process : List Byte → FileInfo → Option (List Byte) → σ → Option (σ × Option (List Byte)))
    (info : FileInfo) (entries : FsListing) (path : List Byte) (fd : Option (List Byte))
    (s : σ) (hne : path ≠ [])
    (hfit : (with_slash path).length + deepest entries + 1 ≤ PATH_MAX)
    (hnames : names_ok entries) :
    traverse_path process (FsNode.dir info entries) path fd s
        = run_steps process (WalkStep.entry (with_slash path) info none
            :: spec_children entries (with_slash path)) fd s
      ∧ (traverse_path record_path (FsNode.dir info entries) path fd []).map Prod.fst
          = some (with_slash path :: emitted_paths (spec_children entries (with_slash path)))
      ∧ ((∀ p i o, WalkStep.entry p i o ∈ WalkStep.entry (with_slash path) info none
              :: spec_children entries (with_slash path) →
            ∀ f t, (process p i (if o.isSome then o else f) t).isSome = true) →
          (traverse_path process (FsNode.dir info entries) path fd s).isSome = true)
      ∧ (with_slash path).getLast? = some 47
      ∧ (path.getLast? = some 47 → with_slash path = path)
      ∧ (path.getLast? ≠ some 47 → with_slash path = path ++ [47])
      ∧ parents_first [with_slash path]
          (emitted_paths (spec_children entries (with_slash path))) := by
  refine ⟨traverse_path_dir process info entries path fd s hne hfit, ?_, ?_,
    with_slash_last path, ?_, ?_,
    parents_first_children entries _ _ (List.mem_singleton_self _) (with_slash_last path)
      hnames⟩
  · rw [traverse_path_dir record_path info entries path fd [] hne hfit, run_steps_record]
    rfl
  · intro hret
    rw [traverse_path_dir process info entries path fd s hne hfit]
    exact run_steps_returns process _ hret fd s
  · intro h
    simp only [with_slash, h, ne_eq, not_true_eq_false, if_false]
  · intro h
    simp only [with_slash, h, ne_eq, not_false_eq_true, if_true]

set_option maxRecDepth 100000 in
theorem preorder_traversal_witness :
    (traverse_path record_path (FsNode.dir sample_dir_info sample_listing) [97] none
        []).map Prod.fst
        = some [[97, 47], [97, 47, 98], [97, 47, 99, 47], [97, 47, 99, 47, 100],
            [97, 47, 101]]
      ∧ (traverse_path process_path_fd (FsNode.dir sample_dir_info sample_listing) [97] none
          (writer_init (List.replicate 4096 0))).isSome = true
      ∧ (traverse_path process_path_fd (FsNode.dir sample_dir_info long_name_listing) [97]
          none (writer_init (List.replicate 4096 0))).isNone = true := by
  refine ⟨?_, ?_, ?_⟩
  · exact (preorder_traversal record_path sample_dir_info sample_listing [97] none []
      (by simp) (by decide) (by simp [sample_listing, names_ok])).2.1.trans (by decide)
  · rw [(preorder_traversal process_path_fd sample_dir_info sample_listing [97] none
      (writer_init (List.replicate 4096 0)) (by simp) (by decide)
      (by simp [sample_listing, names_ok])).1]
    decide
  · rw [(preorder_traversal process_path_fd sample_dir_info long_name_listing [97] none
      (writer_init (List.replicate 4096 0)) (by simp) (by decide)
      (by simp [long_name_listing, names_ok])).1]
    decide

end Mytar
